import Mathlib

/-!
Verification of the bftw() breadth-first traversal core (bftw.c).

This file shallowly embeds the data model and operations of the traversal
core and proves the specified properties about them.  Machine integers are
modelled as Nat or Int; OS descriptors are modelled as Option Nat
(none = the -1 sentinel); fallible calls return pairs with an errno value.
Source line numbers in the comments refer to bftw.c.
-/

set_option linter.unusedVariables false

/-- errno values (Linux); the exact numbers are irrelevant, only distinctness. -/
def ENOENT : Nat := 2
def EACCES : Nat := 13
def EINVAL : Nat := 22
def EMFILE : Nat := 24
def ELOOP : Nat := 40

/-- enum bfs_type: the file types known to the walk. -/
inductive BfsType where
  | unknown | reg | dir | lnk | blk | chr | fifo | sock | wht | error
deriving DecidableEq, Repr

/-- enum bftw_visit. -/
inductive BftwVisit where
  | pre | post
deriving DecidableEq, Repr

/-- The value returned by a user callback.  The first three mirror
enum bftw_action; invalid stands for any other integer value
(the default arm of the switch in bftw_call_back, line 1804). -/
inductive CbRet where
  | cont | prune | stop | invalid
deriving DecidableEq, Repr

/-- The action bftw_call_back and bftw_visit act on (invalid is already
converted to stop + EINVAL by the callback wrapper). -/
inductive BftwAction where
  | cont | prune | stop
deriving DecidableEq, Repr

/-- A stat buffer, reduced to the fields the traversal core reads. -/
structure BfsStatBuf where
  mode : Nat
  dev : Nat
  ino : Nat
deriving DecidableEq, Repr

/-- S_ISLNK from sys/stat.h: (mode & S_IFMT) == S_IFLNK. -/
def S_ISLNK (mode : Nat) : Bool := mode &&& 0xF000 = 0xA000

/-- The bfs_stat flag actually passed down: BFS_STAT_FOLLOW,
BFS_STAT_NOFOLLOW or BFS_STAT_TRYFOLLOW. -/
inductive StatFlag where
  | follow | nofollow | tryfollow
deriving DecidableEq, Repr

/-- struct bftw_stat: the cached stat() info of one entry.
statErr and lstatErr are -1 when unfetched, 0 on success, the errno
otherwise, exactly as in the source (bftw_stat_init, line 41). -/
structure BftwStatBufs where
  statBuf : Option BfsStatBuf
  lstatBuf : Option BfsStatBuf
  statErr : Int
  lstatErr : Int
deriving DecidableEq, Repr

/-- bftw_stat_init (line 41): buffers supplied by the caller are modelled
as absent until a result is cached. -/
def bftwStatInit : BftwStatBufs :=
  { statBuf := none, lstatBuf := none, statErr := -1, lstatErr := -1 }

/-- bftw_stat_fill (line 49): copy fetched slots into unfetched ones. -/
def bftwStatFill (dest src : BftwStatBufs) : BftwStatBufs :=
  let d1 :=
    if dest.statErr < 0 ∧ src.statErr ≥ 0 then
      { dest with statBuf := src.statBuf, statErr := src.statErr }
    else dest
  if d1.lstatErr < 0 ∧ src.lstatErr ≥ 0 then
    { d1 with lstatBuf := src.lstatBuf, lstatErr := src.lstatErr }
  else d1

/-- bftw_stat_cache (line 62): record one bfs_stat() result.  buf is the
returned pointer (none = NULL on failure); err is 0 on success.  In the
NOFOLLOW branch the source reads buf->mode only when err == 0, in which
case buf is non-null; a none buffer with err = 0 is treated as a
non-link, matching the only reachable shapes. -/
def bftwStatCache (bufs : BftwStatBufs) (flags : StatFlag)
    (buf : Option BfsStatBuf) (err : Nat) : BftwStatBufs :=
  match flags with
  | .nofollow =>
    let bufs := { bufs with lstatBuf := buf, lstatErr := (err : Int) }
    let nonlink : Bool := match buf with | some b => ! S_ISLNK b.mode | none => true
    if err ≠ 0 ∨ nonlink then
      -- Non-link, so share stat info
      { bufs with statBuf := buf, statErr := (err : Int) }
    else bufs
  | .tryfollow =>
    if err ≠ 0 then
      { bufs with statErr := (err : Int) }
    else
      match buf with
      | some b =>
        if S_ISLNK b.mode then
          { bufs with lstatBuf := buf, lstatErr := (err : Int), statErr := (ENOENT : Int) }
        else
          { bufs with statBuf := buf, statErr := (err : Int) }
      | none => { bufs with statBuf := buf, statErr := (err : Int) }
  | .follow => { bufs with statBuf := buf, statErr := (err : Int) }

/-- The result of one bfs_stat()-with-cache query: the buffer or an errno,
the updated cache, and how many stat system calls were issued. -/
structure StatQuery where
  buf : Option BfsStatBuf
  errno : Nat
  bufs : BftwStatBufs
  syscalls : Nat
deriving DecidableEq, Repr

/-- bftw_stat_impl (line 89).  flags is FOLLOW or NOFOLLOW here (the
TRYFOLLOW retry lives in bftw_stat).  sys is the oracle for the underlying
bfs_stat() call.  The S_IFWHT whiteout emulation (line 116) is compiled
out on platforms without whiteouts and is not modelled. -/
def bftwStatImpl (bufs : BftwStatBufs) (flags : StatFlag)
    (sys : StatFlag → Except Nat BfsStatBuf) : StatQuery :=
  let cached : Option BfsStatBuf × Int :=
    match flags with
    | .nofollow => (bufs.lstatBuf, bufs.lstatErr)
    | _ => (bufs.statBuf, bufs.statErr)
  if cached.2 = 0 then
    { buf := cached.1, errno := 0, bufs := bufs, syscalls := 0 }
  else if cached.2 > 0 then
    { buf := none, errno := cached.2.toNat, bufs := bufs, syscalls := 0 }
  else
    match sys flags with
    | .ok b =>
      { buf := some b, errno := 0, bufs := bftwStatCache bufs flags (some b) 0, syscalls := 1 }
    | .error e =>
      { buf := none, errno := e, bufs := bftwStatCache bufs flags none e, syscalls := 1 }

/-- bftw_stat (line 132): the public caching stat, with the TRYFOLLOW
broken-link retry.  errno_is_like(ENOENT) is modelled as equality with
ENOENT. -/
def bftwStat (bufs : BftwStatBufs) (flags : StatFlag)
    (sys : StatFlag → Except Nat BfsStatBuf) : StatQuery :=
  match flags with
  | .tryfollow =>
    let q := bftwStatImpl bufs .follow sys
    if q.buf = none ∧ q.errno = ENOENT then
      let q2 := bftwStatImpl q.bufs .nofollow sys
      { q2 with syscalls := q.syscalls + q2.syscalls }
    else q
  | _ => bftwStatImpl bufs flags sys

/-- bftw_cached_stat (line 148): answer only from the cache.
error_is_like(err, ENOENT) is modelled as equality with ENOENT. -/
def bftwCachedStat (bufs : BftwStatBufs) (flags : StatFlag) : Option BfsStatBuf :=
  match flags with
  | .nofollow => if bufs.lstatErr = 0 then bufs.lstatBuf else none
  | f =>
    if bufs.statErr = 0 then bufs.statBuf
    else if f = .tryfollow ∧ bufs.statErr = (ENOENT : Int) then
      if bufs.lstatErr = 0 then bufs.lstatBuf else none
    else none

/-! ## FileRecord geometry (bftw_child_nameoff / bftw_file_new) -/

/-- The geometry-relevant fields of struct bftw_file (line 194).  The name
is a list of characters; namelen mirrors the stored length field. -/
structure BftwFileGeom where
  nameoff : Nat
  namelen : Nat
  name : List Char
deriving DecidableEq, Repr

/-- bftw_child_nameoff (line 697): the path offset of a child name.
The source reads name[namelen - 1]; a record always has namelen ≥ 1,
and the getLast? lookup mirrors that read. -/
def bftwChildNameoff (parent : BftwFileGeom) : Nat :=
  let ret := parent.nameoff + parent.namelen
  match parent.name.getLast? with
  | some c => if c ≠ '/' then ret + 1 else ret
  | none => ret + 1

/-- The geometry assignments of bftw_file_new (line 716): the nameoff of a
fresh record given its parent (none for roots), with namelen = strlen(name). -/
def bftwFileNewGeom (parent : Option BftwFileGeom) (name : List Char) : BftwFileGeom :=
  match parent with
  | some p => { nameoff := bftwChildNameoff p, namelen := name.length, name := name }
  | none => { nameoff := 0, namelen := name.length, name := name }

/-! ## bftw_queue (line 360) -/

/-- enum bftw_qflags (line 268). -/
structure QFlags where
  balance : Bool
  buffer : Bool
  lifo : Bool
  order : Bool
deriving DecidableEq, Repr

/-- struct bftw_queue (line 360), with files as numeric ids.  The source
stores imbalance as an unsigned long updated by increment and decrement and reinterpreted as
long when tested; that two-complement arithmetic coincides with Int as
long as fewer than 2^63 operations occur, so imbalance is an Int here. -/
structure BftwQueue where
  flags : QFlags
  buffer : List Nat
  waiting : List Nat
  ready : List Nat
  size : Nat
  ioqueued : Nat
  imbalance : Int
deriving DecidableEq, Repr

/-- bftw_queue_init (line 378). -/
def bftwQueueInit (flags : QFlags) : BftwQueue :=
  { flags := flags, buffer := [], waiting := [], ready := [],
    size := 0, ioqueued := 0, imbalance := 0 }

/-- bftw_queue_push (line 389). -/
def bftwQueuePush (q : BftwQueue) (file : Nat) : BftwQueue :=
  let q :=
    if q.flags.buffer then
      { q with buffer := q.buffer ++ [file] }
    else if q.flags.lifo then
      let q := { q with waiting := file :: q.waiting }
      if q.flags.order then { q with ready := file :: q.ready } else q
    else
      let q := { q with waiting := q.waiting ++ [file] }
      if q.flags.order then { q with ready := q.ready ++ [file] } else q
  { q with size := q.size + 1 }

/-- bftw_queue_flush (line 408).  With ORDER, the buffered files are
spliced into ready at the same position (head for LIFO, tail otherwise)
and in the same relative order as they join waiting. -/
def bftwQueueFlush (q : BftwQueue) : BftwQueue :=
  if ¬ q.flags.buffer then q
  else
    let q :=
      if q.flags.order then
        if q.flags.lifo then { q with ready := q.buffer ++ q.ready }
        else { q with ready := q.ready ++ q.buffer }
      else q
    if q.flags.lifo then
      { q with waiting := q.buffer ++ q.waiting, buffer := [] }
    else
      { q with waiting := q.waiting ++ q.buffer, buffer := [] }

/-- bftw_queue_balanced (line 432). -/
def bftwQueueBalanced (q : BftwQueue) : Bool :=
  if q.flags.balance then 0 ≤ q.imbalance else true

/-- bftw_queue_rebalance (line 441). -/
def bftwQueueRebalance (q : BftwQueue) (async : Bool) : BftwQueue :=
  if async then { q with imbalance := q.imbalance - 1 }
  else { q with imbalance := q.imbalance + 1 }

/-- bftw_queue_detach (line 450): remove the file from the head of the
buffer or waiting list; when async, mark it in flight and rebalance. -/
def bftwQueueDetach (q : BftwQueue) (file : Nat) (async : Bool) : BftwQueue :=
  let q :=
    if q.buffer.head? = some file then { q with buffer := q.buffer.tail }
    else if q.waiting.head? = some file then { q with waiting := q.waiting.tail }
    else q
  if async then
    bftwQueueRebalance { q with ioqueued := q.ioqueued + 1 } true
  else q

/-- bftw_queue_attach (line 472). -/
def bftwQueueAttach (q : BftwQueue) (file : Nat) (async : Bool) : BftwQueue :=
  let q := if async then { q with ioqueued := q.ioqueued - 1 } else q
  if ¬ q.flags.order then { q with ready := q.ready ++ [file] } else q

/-- bftw_queue_skip (line 487): make a file ready immediately. -/
def bftwQueueSkip (q : BftwQueue) (file : Nat) : BftwQueue :=
  bftwQueueAttach (bftwQueueDetach q file false) file false

/-- bftw_queue_waiting (line 493): the next file awaiting service. -/
def bftwQueueWaiting (q : BftwQueue) : Option Nat :=
  if ¬ q.flags.buffer then q.waiting.head?
  else if q.flags.order then q.waiting.head?
  else if q.flags.lifo then
    (q.buffer.head?).orElse fun _ => q.waiting.head?
  else
    (q.waiting.head?).orElse fun _ => q.buffer.head?

/-- bftw_queue_ready (line 518). -/
def bftwQueueReady (q : BftwQueue) : Option Nat := q.ready.head?

/-- bftw_queue_pop (line 523): requires an empty buffer; pop from ready,
falling back to (or additionally, under ORDER, also from) waiting. -/
def bftwQueuePop (q : BftwQueue) : Option Nat × BftwQueue :=
  let (file, q) :=
    match q.ready.head? with
    | some f =>
      let q := { q with ready := q.ready.tail }
      if q.waiting.head? = some f then (some f, { q with waiting := q.waiting.tail })
      else (some f, q)
    | none =>
      match q.waiting.head? with
      | some f => (some f, { q with waiting := q.waiting.tail })
      | none => (none, q)
  match file with
  | some f => (some f, { q with size := q.size - 1 })
  | none => (none, q)

/-- The loop structure of bftw_ioq_opendirs (line 1330): detach waiting
directories for async service while the queue stays balanced.  tryOpen
abstracts whether bftw_ioq_opendir succeeds for a given directory. -/
def bftwIoqOpendirs (tryOpen : Nat → Bool) : Nat → BftwQueue → BftwQueue
  | 0, q => q
  | fuel + 1, q =>
    if bftwQueueBalanced q then
      match bftwQueueWaiting q with
      | none => q
      | some d =>
        if tryOpen d then bftwIoqOpendirs tryOpen fuel (bftwQueueDetach q d true)
        else q
    else q

/-! ## bftw_cache (line 545): the LRU cache of open descriptors -/

/-- The cache-relevant fields of a struct bftw_file. -/
structure CacheFile where
  fd : Option Nat
  hasDir : Bool
  pincount : Nat
  depth : Nat
deriving DecidableEq, Repr

/-- One completed ioq operation, as consumed by bftw_ioq_pop (line 1002).
Only the effects on the cache are modelled (the queue attaches are part of
the traversal model below).  opendirOk carries the id of the record whose
directory was opened. -/
inductive IoqEvent where
  | close
  | closedir
  | opendirOk (id : Nat)
  | opendirFail
  | statDone
deriving DecidableEq, Repr

/-- struct bftw_cache (line 545) together with the record store.  The lru
list is ordered from head to tail; the arena allocators are not modelled.
The completions pending on the ioq are passed separately where needed. -/
structure BftwCache where
  files : List (Nat × CacheFile)
  lru : List Nat
  target : Option Nat
  capacity : Nat
deriving DecidableEq, Repr

/-- Association-list lookup for the record store. -/
def cacheGet (c : BftwCache) (id : Nat) : Option CacheFile :=
  (c.files.find? fun p => p.1 = id).map Prod.snd

/-- Association-list update for the record store. -/
def cacheSet (c : BftwCache) (id : Nat) (f : CacheFile) : BftwCache :=
  { c with files := c.files.map fun p => if p.1 = id then (id, f) else p }

/-- The previous element of id on the lru list (LIST_REMOVE bookkeeping). -/
def lruPrev (lru : List Nat) (id : Nat) : Option Nat :=
  match lru.indexOf? id with
  | some 0 => none
  | some (i + 1) => lru.get? i
  | none => none

/-- bftw_lru_remove (line 607): back the target off to the previous entry
when it is the removed record, then unlink. -/
def bftwLruRemove (c : BftwCache) (id : Nat) : BftwCache :=
  let c := if c.target = some id then { c with target := lruPrev c.lru id } else c
  { c with lru := c.lru.erase id }

/-- Insert id after the target (LIST_INSERT with prev = target); a none
target inserts at the head. -/
def lruInsertAfter (lru : List Nat) (target : Option Nat) (id : Nat) : List Nat :=
  match target with
  | none => id :: lru
  | some t =>
    match lru.indexOf? t with
    | some i => lru.take (i + 1) ++ id :: lru.drop (i + 1)
    | none => id :: lru

/-- bftw_lru_add (line 650): insert after the target; roots advance the
target so that they stay at the head and are evicted last. -/
def bftwLruAdd (c : BftwCache) (id : Nat) : BftwCache :=
  let c := { c with lru := lruInsertAfter c.lru c.target id }
  match cacheGet c id with
  | some f => if f.depth = 0 then { c with target := some id } else c
  | none => c

/-- bftw_cache_remove (line 616). -/
def bftwCacheRemove (c : BftwCache) (id : Nat) : BftwCache :=
  let c := bftwLruRemove c id
  { c with capacity := c.capacity + 1 }

/-- bftw_file_close (line 622): synchronously close a descriptor (and its
directory stream if any) and give its slot back to the cache. -/
def bftwFileClose (c : BftwCache) (id : Nat) : BftwCache :=
  let c :=
    match cacheGet c id with
    | some f => cacheSet c id { f with fd := none, hasDir := false }
    | none => c
  bftwCacheRemove c id

/-- bftw_cache_pop (line 639): close the least recently used descriptor;
-1 (modelled as none) when the lru list is empty. -/
def bftwCachePop (c : BftwCache) : Option BftwCache :=
  match c.lru.getLast? with
  | none => none
  | some id => some (bftwFileClose c id)

/-- bftw_cache_add (line 662): called with a freshly opened fd. -/
def bftwCacheAdd (c : BftwCache) (id : Nat) : Except Nat BftwCache :=
  if c.capacity = 0 then
    match bftwCachePop c with
    | none => .error EMFILE -- closes the new file itself and fails
    | some c => .ok (bftwLruAdd { c with capacity := c.capacity - 1 } id)
  else .ok (bftwLruAdd { c with capacity := c.capacity - 1 } id)

/-- bftw_cache_pin (line 679): requires fd ≥ 0 (the assert). -/
def bftwCachePin (c : BftwCache) (id : Nat) : BftwCache :=
  match cacheGet c id with
  | some f =>
    let c := cacheSet c id { f with pincount := f.pincount + 1 }
    if f.pincount = 0 then bftwLruRemove c id else c
  | none => c

/-- bftw_cache_unpin (line 688): requires fd ≥ 0 and pincount > 0. -/
def bftwCacheUnpin (c : BftwCache) (id : Nat) : BftwCache :=
  match cacheGet c id with
  | some f =>
    let c := cacheSet c id { f with pincount := f.pincount - 1 }
    if f.pincount = 1 then bftwLruAdd c id else c
  | none => c

/-- bftw_close (line 1207): remove the record from the lru list and clear
its descriptor; the actual close is handed to the ioq (or done inline by
bftw_ioq_close), which returns the capacity later, so capacity is not
incremented here. -/
def bftwClose (c : BftwCache) (id : Nat) : BftwCache :=
  let c := bftwLruRemove c id
  match cacheGet c id with
  | some f => cacheSet c id { f with fd := none, hasDir := false }
  | none => c

/-- The cache effects of bftw_ioq_pop (line 1002) for one completion.
On a successful opendir, bftw_file_set_dir (line 760) installs the fd and
calls bftw_cache_add when the record had none. -/
def cacheApplyEvent (c : BftwCache) (ev : IoqEvent) : BftwCache :=
  match ev with
  | .close => { c with capacity := c.capacity + 1 }
  | .closedir => { c with capacity := c.capacity + 1 }
  | .opendirFail => { c with capacity := c.capacity + 1 }
  | .statDone => c
  | .opendirOk id =>
    let c := { c with capacity := c.capacity + 1 }
    match cacheGet c id with
    | some f =>
      if f.fd = none then
        let c := cacheSet c id { f with fd := some 0, hasDir := true }
        match bftwCacheAdd c id with
        | .ok c => c
        | .error _ => bftwFileClose c id
      else cacheSet c id { f with hasDir := true }
    | none => c

/-- The drain loop of bftw_cache_reserve (line 1086): pop completions
until one frees a slot or none remain; returns the state and the
completions left unconsumed. -/
def cacheDrainLoop : BftwCache → List IoqEvent → BftwCache × List IoqEvent
  | c, [] => (c, [])
  | c, ev :: rest =>
    let c := cacheApplyEvent c ev
    if c.capacity > 0 then (c, rest)
    else cacheDrainLoop c rest

/-- Apply every pending completion (used to state when reserve fails). -/
def cacheDrainAll : BftwCache → List IoqEvent → BftwCache
  | c, [] => c
  | c, ev :: rest => cacheDrainAll (cacheApplyEvent c ev) rest

/-- bftw_cache_reserve (line 1080): ensure at least one free slot, first
draining ioq completions, then evicting the lru tail; EMFILE when both
come up empty. -/
def bftwCacheReserve (c : BftwCache) (pending : List IoqEvent) : Except Nat BftwCache :=
  if c.capacity > 0 then .ok c
  else
    let c := (cacheDrainLoop c pending).1
    if c.capacity > 0 then .ok c
    else
      match bftwCachePop c with
      | none => .error EMFILE
      | some c => .ok c

/-! ## The traversal engine (bftw_state / bftw_impl)

The engine is modelled in its synchronous configuration: nthreads = 0, so
state->ioq is NULL and every bftw_ioq_* helper fails immediately, and the
default breadth-first setup with BFTW_BUFFER and BFTW_SORT clear, so
bftw_must_buffer (line 864) returns false, both queues get empty flag sets
(FIFO, no buffer, no order, no balance), the file queue is never used, and
bftw_queue_pop always pops the head of the waiting list.  Under that
configuration the dirq reduces to the plain FIFO list modelled below.
Descriptor caching, pinning, path reconstruction and the balance counter
do not influence which entries are visited and are covered by the
dedicated models above. -/

/-- The stat information the engine consumes: bfs_mode_to_type of the mode
plus the identity used for cycle detection. -/
structure StatInfo where
  typ : BfsType
  dev : Nat
  ino : Nat
deriving DecidableEq, Repr

/-- What the filesystem says about one entry: the readdir d_type hint, the
bfs_stat result under the effective flags, and whether opening it as a
directory fails. -/
instance : DecidableEq (Except Nat StatInfo) := fun a b =>
  match a, b with
  | .ok x, .ok y => if h : x = y then .isTrue (by rw [h]) else .isFalse (by simp [h])
  | .error x, .error y => if h : x = y then .isTrue (by rw [h]) else .isFalse (by simp [h])
  | .ok _, .error _ => .isFalse (by simp)
  | .error _, .ok _ => .isFalse (by simp)

structure NodeInfo where
  hint : BfsType
  stat : Except Nat StatInfo
  openErr : Option Nat
deriving DecidableEq, Repr

/-- A filesystem subtree: the info of the entry itself and its children in
readdir order.  Children are only consulted for entries the walk descends
into. -/
inductive FSTree where
  | node : NodeInfo → List (String × FSTree) → FSTree

/-- The info of the root entry of a subtree. -/
def FSTree.info : FSTree → NodeInfo
  | .node i _ => i

/-- The children of a subtree. -/
def FSTree.children : FSTree → List (String × FSTree)
  | .node _ cs => cs

mutual
/-- The number of entries in a subtree. -/
def treeSize : FSTree → Nat
  | .node _ cs => 1 + forestSize cs
/-- The number of entries in a forest. -/
def forestSize : List (String × FSTree) → Nat
  | [] => 0
  | (_, t) :: rest => treeSize t + forestSize rest
end

/-- The bftw_flags bits that matter in the synchronous configuration.
BFTW_BUFFER, BFTW_SORT, BFTW_SKIP_MOUNTS, BFTW_PRUNE_MOUNTS and
BFTW_WHITEOUTS are fixed to zero (and mtab to NULL). -/
structure BftwFlags where
  stat : Bool
  recover : Bool
  postOrder : Bool
  detectCycles : Bool
  followAll : Bool
  followRoots : Bool
deriving DecidableEq, Repr

/-- bftw_stat_flags (line 1404). -/
def bftwStatFlagsAt (flags : BftwFlags) (depth : Nat) : StatFlag :=
  if flags.followAll ∨ (depth = 0 ∧ flags.followRoots) then .tryfollow else .nofollow

/-- bftw_must_stat (line 1418), with mtab = NULL so the Linux mount-point
heuristic is never consulted. -/
def bftwMustStat (flags : BftwFlags) (depth : Nat) (typ : BfsType) : Bool :=
  if flags.stat then true
  else
    match typ with
    | .unknown => true
    | .dir => flags.detectCycles
    | .lnk => ¬ bftwStatFlagsAt flags depth = .nofollow
    | _ => false

/-- struct BFTW, reduced to the fields the claims mention.  statInfo is
the bfs_stat result fetched for this visit, when one was fetched
(the stat cache slot bftw_save_ftwbuf reads back). -/
structure Ftwbuf where
  path : List String
  depth : Nat
  visit : BftwVisit
  typ : BfsType
  error : Nat
  statInfo : Option StatInfo
deriving DecidableEq, Repr

/-- One visitor-callback invocation, as observed by the caller. -/
structure Event where
  path : List String
  visit : BftwVisit
  typ : BfsType
  error : Nat
deriving DecidableEq, Repr

/-- bftw_init_ftwbuf (line 1668) in the synchronous model.  The at_fd
plumbing and bftw_ensure_open are elided (opening the parent never fails
here); everything else follows the source: a pending directory error wins,
then bftw_must_stat decides whether to fetch the stat (updating the type
or turning the entry into an error), then BFTW_DETECT_CYCLES compares the
fetched (dev, ino) against the ancestors.  When the cycle branch runs with
no fetched stat (impossible when detectCycles forced the stat) it matches
nothing, mirroring that the source only reaches the comparison with a
non-null statbuf. -/
def bftwInitFtwbuf (flags : BftwFlags) (visit : BftwVisit) (path : List String)
    (depth : Nat) (typ0 : BfsType) (statRes : Except Nat StatInfo)
    (direrror : Nat) (ancestors : List (Nat × Nat)) : Ftwbuf :=
  let buf : Ftwbuf :=
    { path := path, depth := depth, visit := visit, typ := typ0,
      error := direrror, statInfo := none }
  if buf.error ≠ 0 then { buf with typ := .error }
  else
    let buf :=
      if bftwMustStat flags depth typ0 then
        match statRes with
        | .ok si => { buf with typ := si.typ, statInfo := some si }
        | .error e => { buf with typ := .error, error := e }
      else buf
    if buf.error ≠ 0 then buf
    else if buf.typ = .dir ∧ flags.detectCycles then
      match buf.statInfo with
      | some si =>
        if (si.dev, si.ino) ∈ ancestors then { buf with typ := .error, error := ELOOP }
        else buf
      | none => buf
    else buf

/-- A record on the directory queue: the bftw_file id, its full path and
depth, and the filesystem subtree it denotes. -/
structure QEnt where
  id : Nat
  path : List String
  depth : Nat
  tree : FSTree

/-- The traversal-relevant fields of a live struct bftw_file. -/
structure BftwRec where
  parent : Option Nat
  refcount : Nat
  path : List String
  depth : Nat
  typ : BfsType
  devino : Option (Nat × Nat)
  info : NodeInfo

/-- struct bftw_state in the synchronous configuration: the record store,
the id allocator, the directory queue, the visit trace (one entry per
callback invocation), the error accumulator, and the opaque callback
state. -/
structure WalkState (σ : Type) where
  store : List (Nat × BftwRec)
  nextId : Nat
  dirq : List QEnt
  trace : List Event
  error : Nat
  user : σ

/-- Look a record up by id. -/
def storeGet (store : List (Nat × BftwRec)) (id : Nat) : Option BftwRec :=
  (store.find? fun p => p.1 = id).map Prod.snd

/-- Replace the record with the given id. -/
def storeSet (store : List (Nat × BftwRec)) (id : Nat) (r : BftwRec) :
    List (Nat × BftwRec) :=
  store.map fun p => if p.1 = id then (id, r) else p

/-- Drop the record with the given id (bftw_file_free). -/
def storeRemove (store : List (Nat × BftwRec)) (id : Nat) : List (Nat × BftwRec) :=
  store.filter fun p => ¬ p.1 = id

/-- ++parent->refcount in bftw_file_new (line 730). -/
def storeIncRef (store : List (Nat × BftwRec)) : Option Nat → List (Nat × BftwRec)
  | none => store
  | some id => store.map fun p => if p.1 = id then (id, { p.2 with refcount := p.2.refcount + 1 }) else p

/-- The (dev, ino) pairs along the parent chain, starting at the given
record (the loop at line 1732).  Records whose identity was never fetched
keep the (dev_t)-1 sentinel, which matches no real stat result and is
skipped here. -/
def devinoChain (store : List (Nat × BftwRec)) : Nat → Option Nat → List (Nat × Nat)
  | _, none => []
  | 0, some _ => []
  | fuel + 1, some id =>
    match storeGet store id with
    | none => []
    | some r =>
      (match r.devino with | some di => [di] | none => []) ++
        devinoChain store fuel r.parent

/-- bftw_call_back (line 1765) in the synchronous configuration (no mount
skipping, no balance bookkeeping).  Returns the resulting action, the
ftwbuf that was built, and the updated state; the trace records the
callback invocation when one happens. -/
def bftwCallBack {σ : Type} (flags : BftwFlags) (cb : σ → Ftwbuf → CbRet × σ)
    (st : WalkState σ) (path : List String) (depth : Nat) (typ0 : BfsType)
    (statRes : Except Nat StatInfo) (direrror : Nat)
    (ancestors : List (Nat × Nat)) (visit : BftwVisit) :
    BftwAction × Ftwbuf × WalkState σ :=
  let buf := bftwInitFtwbuf flags visit path depth typ0 statRes direrror ancestors
  if visit = .post ∧ ¬ flags.postOrder then (.prune, buf, st)
  else if buf.typ = .error ∧ ¬ flags.recover then
    -- Never give the callback BFS_ERROR unless BFTW_RECOVER is specified
    (.stop, buf, { st with error := buf.error })
  else
    let (ret, u) := cb st.user buf
    let ev : Event := { path := buf.path, visit := visit, typ := buf.typ, error := buf.error }
    let st := { st with user := u, trace := st.trace ++ [ev] }
    match ret with
    | .cont => (if ¬ visit = .pre ∨ ¬ buf.typ = .dir then .prune else .cont, buf, st)
    | .prune => (.prune, buf, st)
    | .stop => (.stop, buf, st)
    | .invalid => (.stop, buf, { st with error := EINVAL })

/-- bftw_visit (line 1998) for a named entry (a root when cur = none, a
dirent of the current directory otherwise).  bftw_buffer_file is false in
this configuration, so the callback fires immediately; on CONTINUE the
record is created (bftw_file_new + bftw_save_ftwbuf) and pushed onto the
directory queue.  Returns (aborted, state). -/
def bftwVisitOne {σ : Type} (flags : BftwFlags) (cb : σ → Ftwbuf → CbRet × σ)
    (st : WalkState σ) (cur : Option QEnt) (name : String) (ctree : FSTree) :
    Bool × WalkState σ :=
  let path := match cur with | some d => d.path ++ [name] | none => [name]
  let depth := match cur with | some d => d.depth + 1 | none => 0
  let typ0 := match cur with | some _ => ctree.info.hint | none => .unknown
  let anc := match cur with
    | some d => devinoChain st.store (d.depth + 1) (some d.id)
    | none => []
  match bftwCallBack flags cb st path depth typ0 ctree.info.stat 0 anc .pre with
  | (.cont, buf, st) =>
    let r : BftwRec :=
      { parent := cur.map QEnt.id, refcount := 1, path := path, depth := depth,
        typ := buf.typ,
        devino := buf.statInfo.map fun si => (si.dev, si.ino),
        info := ctree.info }
    let st := { st with
      store := storeIncRef (st.store ++ [(st.nextId, r)]) (cur.map QEnt.id),
      dirq := st.dirq ++ [({ id := st.nextId, path := path, depth := depth, tree := ctree } : QEnt)],
      nextId := st.nextId + 1 }
    (false, st)
  | (.prune, _, st) => (false, st)
  | (.stop, _, st) => (true, st)

/-- enum bftw_gc_flags (line 1825). -/
structure GCFlags where
  error : Bool
  file : Bool
  parents : Bool
deriving DecidableEq, Repr

/-- BFTW_VISIT_ALL. -/
def gcAll : GCFlags := ⟨true, true, true⟩

/-- BFTW_VISIT_NONE (also the value after a STOP zeroes the flags). -/
def gcNone : GCFlags := ⟨false, false, false⟩

/-- The refcount cascade of bftw_gc (lines 1870-1895): decrement the
refcount; when it stays positive stop, otherwise fire the POST visit (when
the flags allow it), free the record and continue with the parent.  first
distinguishes BFTW_VISIT_FILE from BFTW_VISIT_PARENTS.  The fuel is the
chain depth; callers pass depth + 1, which the store invariants make
sufficient. -/
def bftwGcCascade {σ : Type} (flags : BftwFlags) (cb : σ → Ftwbuf → CbRet × σ) :
    Nat → Option Nat → Bool → GCFlags → Int → WalkState σ → Int × WalkState σ
  | _, none, _, _, ret, st => (ret, st)
  | 0, some _, _, _, ret, st => (ret, st)
  | fuel + 1, some id, first, g, ret, st =>
    match storeGet st.store id with
    | none => (ret, st)
    | some r =>
      if r.refcount - 1 > 0 then
        (ret, { st with store := storeSet st.store id { r with refcount := r.refcount - 1 } })
      else
        let (ret, g, st) :=
          if (if first then g.file else g.parents) then
            match bftwCallBack flags cb st r.path r.depth r.typ r.info.stat 0
                (devinoChain st.store r.depth r.parent) .post with
            | (.stop, _, st) => (-1, gcNone, st)
            | (_, _, st) => (ret, g, st)
          else (ret, g, st)
        let st := { st with store := storeRemove st.store id }
        bftwGcCascade flags cb fuel r.parent false g ret st

/-- bftw_gc (line 1839) as called when a directory is finished: visit the
pending directory error (or accumulate it without BFTW_VISIT_ERROR), then
run the refcount cascade starting at the directory itself. -/
def bftwGc {σ : Type} (flags : BftwFlags) (cb : σ → Ftwbuf → CbRet × σ)
    (st : WalkState σ) (d : QEnt) (direrror : Nat) (g : GCFlags) :
    Int × WalkState σ :=
  let (ret, g, st) : Int × GCFlags × WalkState σ :=
    if direrror ≠ 0 then
      if g.error then
        match storeGet st.store d.id with
        | some r =>
          match bftwCallBack flags cb st r.path r.depth r.typ r.info.stat direrror
              (devinoChain st.store r.depth r.parent) .pre with
          | (.stop, _, st) => (-1, gcNone, st)
          | (_, _, st) => (0, g, st)
        | none => (0, g, st)
      else (0, g, { st with error := direrror })
    else (0, g, st)
  bftwGcCascade flags cb (d.depth + 1) (some d.id) true g ret st

/-- The readdir loop of bftw_impl (lines 2102-2106): visit every entry of
the directory, aborting the walk on a STOP. -/
def bftwVisitChildren {σ : Type} (flags : BftwFlags) (cb : σ → Ftwbuf → CbRet × σ) :
    WalkState σ → QEnt → List (String × FSTree) → Bool × WalkState σ
  | st, _, [] => (false, st)
  | st, d, (n, c) :: rest =>
    match bftwVisitOne flags cb st (some d) n c with
    | (true, st) => (true, st)
    | (false, st) => bftwVisitChildren flags cb st d rest

/-- One iteration of the outer loop: bftw_opendir + readdir + closedir
for one popped directory. -/
def bftwProcessDir {σ : Type} (flags : BftwFlags) (cb : σ → Ftwbuf → CbRet × σ)
    (st : WalkState σ) (d : QEnt) : Bool × WalkState σ :=
  match d.tree.info.openErr with
  | some e =>
    let (r, st) := bftwGc flags cb st d e gcAll
    (decide (r ≠ 0), st)
  | none =>
    match bftwVisitChildren flags cb st d d.tree.children with
    | (true, st) => (true, st)
    | (false, st) =>
      let (r, st) := bftwGc flags cb st d 0 gcAll
      (decide (r ≠ 0), st)

/-- The outer loop of bftw_impl (line 2097): pop directories in FIFO order
until none are left (the file queue is always empty here).  The fuel
exceeds the number of records that can ever be queued. -/
def bftwImplLoop {σ : Type} (flags : BftwFlags) (cb : σ → Ftwbuf → CbRet × σ) :
    Nat → WalkState σ → Bool × WalkState σ
  | 0, st => (true, st)
  | fuel + 1, st =>
    match st.dirq with
    | [] => (false, st)
    | d :: rest =>
      match bftwProcessDir flags cb { st with dirq := rest } d with
      | (true, st) => (true, st)
      | (false, st) => bftwImplLoop flags cb fuel st

/-- The seeding loop of bftw_impl (line 2090): visit every root path. -/
def bftwSeedRoots {σ : Type} (flags : BftwFlags) (cb : σ → Ftwbuf → CbRet × σ) :
    WalkState σ → List (String × FSTree) → Bool × WalkState σ
  | st, [] => (false, st)
  | st, (n, t) :: rest =>
    match bftwVisitOne flags cb st none n t with
    | (true, st) => (true, st)
    | (false, st) => bftwSeedRoots flags cb st rest

/-- A fresh bftw_state. -/
def bftwInitState {σ : Type} (u : σ) : WalkState σ :=
  { store := [], nextId := 0, dirq := [], trace := [], error := 0, user := u }

/-- bftw_impl (line 2089): seed the roots, then drain the directory
queue.  Returns (aborted early, final state). -/
def bftwImpl {σ : Type} (flags : BftwFlags) (cb : σ → Ftwbuf → CbRet × σ)
    (roots : List (String × FSTree)) (st : WalkState σ) : Bool × WalkState σ :=
  match bftwSeedRoots flags cb st roots with
  | (true, st) => (true, st)
  | (false, st) => bftwImplLoop flags cb (forestSize roots + 1) st

/-- bftw_walk + bftw_state_destroy (lines 2127, 2064): run the walk; the
teardown drains the queues without further callbacks and returns -1
exactly when an error was accumulated, with that errno. -/
def bftwWalkModel {σ : Type} (flags : BftwFlags) (cb : σ → Ftwbuf → CbRet × σ)
    (roots : List (String × FSTree)) (u : σ) : Int × List Event × Nat :=
  let (_, st) := bftwImpl flags cb roots (bftwInitState u)
  (if st.error ≠ 0 then -1 else 0, st.trace, st.error)

/-! ## Iterative / exponential deepening (bftw_ids, bftw_eds) -/

/-- The depth-window fields of struct bftw_ids_state (line 2140):
min_depth inclusive, max_depth exclusive, the visit being produced, and
whether the ftwbuf visit field is overridden. -/
structure IdsParams where
  minDepth : Nat
  maxDepth : Nat
  visit : BftwVisit
  forceVisit : Bool
deriving DecidableEq, Repr

/-- The mutable part of struct bftw_ids_state: the pruned-path trie
(modelled as the list of inserted paths), the bottom flag, the opaque
delegate state, and the instrumented record of delegate invocations (the
list of ftwbufs the delegate was called with, used only to state the
claims). -/
structure IdsState (δ : Type) where
  pruned : List (List String)
  bottom : Bool
  duser : δ
  calls : List Ftwbuf

/-- bftw_ids_callback (line 2162).  trie_find_str is list membership,
trie_insert_str always succeeds (allocation cannot fail here). -/
def idsCallback {δ : Type} (p : IdsParams) (delegate : δ → Ftwbuf → CbRet × δ) :
    IdsState δ → Ftwbuf → CbRet × IdsState δ := fun s buf0 =>
  let buf := if p.forceVisit then { buf0 with visit := p.visit } else buf0
  if buf.typ = .error then
    if buf.depth + 1 ≥ p.minDepth then
      let (r, d) := delegate s.duser buf
      (r, { s with duser := d, calls := s.calls ++ [buf] })
    else (.prune, s)
  else if buf.depth < p.minDepth then
    if buf.path ∈ s.pruned then (.prune, s) else (.cont, s)
  else if p.visit = .post ∧ buf.path ∈ s.pruned then (.prune, s)
  else
    let (ret, s) :=
      if buf.visit = p.visit then
        let (r, d) := delegate s.duser buf
        (r, { s with duser := d, calls := s.calls ++ [buf] })
      else (.cont, s)
    match ret with
    | .cont =>
      if buf.typ = .dir ∧ buf.depth + 1 ≥ p.maxDepth then
        (.prune, { s with bottom := false })
      else (.cont, s)
    | .prune =>
      if buf.typ = .dir then (.prune, { s with pruned := s.pruned ++ [buf.path] })
      else (.prune, s)
    | .stop => (.stop, s)
    | .invalid => (.invalid, s)

/-- The deepening loop of bftw_ids / bftw_eds (lines 2252-2261 and
2290-2299): run the engine, then widen the window, until an iteration
finds no deeper level.  eds switches between the two widening rules. -/
def bftwIdsPrePhase {δ : Type} (eds : Bool) (flags : BftwFlags)
    (delegate : δ → Ftwbuf → CbRet × δ) (roots : List (String × FSTree)) :
    Nat → IdsParams → WalkState (IdsState δ) →
    Bool × IdsParams × WalkState (IdsState δ)
  | 0, p, st => (true, p, st)
  | fuel + 1, p, st =>
    if st.user.bottom then (false, p, st)
    else
      let st := { st with user := { st.user with bottom := true } }
      match bftwImpl flags (idsCallback p delegate) roots st with
      | (true, st) => (true, p, st)
      | (false, st) =>
        let p :=
          if eds then { p with minDepth := p.maxDepth, maxDepth := p.maxDepth * 2 }
          else { p with minDepth := p.minDepth + 1, maxDepth := p.maxDepth + 1 }
        bftwIdsPrePhase eds flags delegate roots fuel p st

/-- The reverse sweep of bftw_ids for BFTW_POST_ORDER (lines 2267-2274):
walk the windows back down, overriding the visit to POST. -/
def bftwIdsPostPhase {δ : Type} (flags : BftwFlags)
    (delegate : δ → Ftwbuf → CbRet × δ) (roots : List (String × FSTree)) :
    Nat → IdsParams → WalkState (IdsState δ) → Bool × WalkState (IdsState δ)
  | 0, _, st => (true, st)
  | fuel + 1, p, st =>
    if p.minDepth = 0 then (false, st)
    else
      let p := { p with minDepth := p.minDepth - 1, maxDepth := p.maxDepth - 1 }
      match bftwImpl flags (idsCallback p delegate) roots st with
      | (true, st) => (true, st)
      | (false, st) => bftwIdsPostPhase flags delegate roots fuel p st

/-- bftw_ids / bftw_eds (lines 2246, 2284): iterative deepening around the
engine.  bftw_ids_init (line 2220) clears BFTW_POST_ORDER on the nested
state.  The fuel bounds the number of deepening rounds; forestSize roots
+ 2 rounds always reach the bottom of the forest. -/
def bftwIdsModel {δ : Type} (eds : Bool) (flags : BftwFlags)
    (delegate : δ → Ftwbuf → CbRet × δ) (roots : List (String × FSTree))
    (d0 : δ) : Int × List Event × Nat :=
  let nflags := { flags with postOrder := false }
  let s0 : IdsState δ := { pruned := [], bottom := false, duser := d0, calls := [] }
  let p0 : IdsParams := { minDepth := 0, maxDepth := 1, visit := .pre, forceVisit := false }
  let fuel := forestSize roots + 2
  let finish : WalkState (IdsState δ) → Int × List Event × Nat := fun st =>
    (if st.error ≠ 0 then -1 else 0, st.trace, st.error)
  match bftwIdsPrePhase eds nflags delegate roots fuel p0 (bftwInitState s0) with
  | (true, _, st) => finish st
  | (false, p, st) =>
    if flags.postOrder then
      if eds then
        -- bftw_eds: one unbounded POST-order pass with min_depth = 0
        let p := { p with visit := .post, minDepth := 0 }
        let nflags := { nflags with postOrder := true }
        let (_, st) := bftwImpl nflags (idsCallback p delegate) roots st
        finish st
      else
        let p := { p with visit := .post, forceVisit := true }
        let (_, st) := bftwIdsPostPhase nflags delegate roots (p.minDepth + 1) p st
        finish st
    else finish st

/-- bftw (line 2313) over the synchronous model: validate the strategy,
then bftw_state_init (line 896) rejects nopenfd < 2 with EMFILE before
any callback can run.  Strategies 0-3 are BFS, DFS, IDS, EDS; any other
value takes the switch default and fails with EINVAL.  DFS differs from
BFS only in queue flags that do not exist in the synchronous model, so
both route to the same engine. -/
def bftwTopModel {δ : Type} (strategy : Nat) (nopenfd : Nat) (flags : BftwFlags)
    (cb : δ → Ftwbuf → CbRet × δ) (roots : List (String × FSTree)) (d0 : δ) :
    Int × List Event × Nat :=
  if strategy ≥ 4 then (-1, [], EINVAL)
  else if nopenfd < 2 then (-1, [], EMFILE)
  else if strategy ≤ 1 then bftwWalkModel flags cb roots d0
  else bftwIdsModel (strategy = 3) flags cb roots d0

/-! ## Specification functions for the visit-multiplicity claims -/

mutual
/-- Whether a subtree is a clean filesystem region: every stat succeeds,
with a type other than BFS_ERROR, every d_type hint is either unknown or
accurate, every directory opens, and sibling names never collide. -/
def cleanTree : FSTree → Bool
  | .node info cs =>
    (match info.stat with
     | .ok si => (info.hint == .unknown || info.hint == si.typ) && ! si.typ == .error
     | .error _ => false) &&
    info.openErr == none && decide (cs.map Prod.fst).Nodup && cleanForest cs
/-- cleanTree over a forest. -/
def cleanForest : List (String × FSTree) → Bool
  | [] => true
  | (_, t) :: rest => cleanTree t && cleanForest rest
end

mutual
/-- The paths a clean synchronous walk PRE-visits inside one subtree
rooted at the given path, for a pure callback f: the entry itself, then,
when f continues into a directory, its children.  typ0 is the type hint
the engine sees for this entry (unknown for roots). -/
def specPre (flags : BftwFlags) (f : Ftwbuf → CbRet) (path : List String)
    (depth : Nat) (typ0 : BfsType) : FSTree → List (List String)
  | .node info cs =>
    let buf := bftwInitFtwbuf flags .pre path depth typ0 info.stat 0 []
    path :: (if f buf = .cont ∧ buf.typ = .dir then specPreForest flags f path depth cs else [])
/-- specPre over the children of a directory at the given path/depth. -/
def specPreForest (flags : BftwFlags) (f : Ftwbuf → CbRet) (path : List String)
    (depth : Nat) : List (String × FSTree) → List (List String)
  | [] => []
  | (n, c) :: rest =>
    specPre flags f (path ++ [n]) (depth + 1) c.info.hint c ++
      specPreForest flags f path depth rest
end

mutual
/-- The paths that get a record (and hence, under BFTW_POST_ORDER, a POST
visit): the entries whose PRE visit answers CONTINUE on a directory. -/
def specPost (flags : BftwFlags) (f : Ftwbuf → CbRet) (path : List String)
    (depth : Nat) (typ0 : BfsType) : FSTree → List (List String)
  | .node info cs =>
    let buf := bftwInitFtwbuf flags .pre path depth typ0 info.stat 0 []
    if f buf = .cont ∧ buf.typ = .dir then path :: specPostForest flags f path depth cs
    else []
/-- specPost over the children of a directory. -/
def specPostForest (flags : BftwFlags) (f : Ftwbuf → CbRet) (path : List String)
    (depth : Nat) : List (String × FSTree) → List (List String)
  | [] => []
  | (n, c) :: rest =>
    specPost flags f (path ++ [n]) (depth + 1) c.info.hint c ++
      specPostForest flags f path depth rest
end

/-- The PRE visits a walk over the given roots should produce. -/
def specPreRoots (flags : BftwFlags) (f : Ftwbuf → CbRet)
    (roots : List (String × FSTree)) : List (List String) :=
  (roots.map fun r => specPre flags f [r.1] 0 .unknown r.2).flatten

/-- The POST visits a walk over the given roots should produce. -/
def specPostRoots (flags : BftwFlags) (f : Ftwbuf → CbRet)
    (roots : List (String × FSTree)) : List (List String) :=
  (roots.map fun r => specPost flags f [r.1] 0 .unknown r.2).flatten

/-- The paths of the PRE events of a trace. -/
def prePaths (tr : List Event) : List (List String) :=
  (tr.filter fun e => e.visit == .pre).map Event.path

/-- The paths of the POST events of a trace. -/
def postPaths (tr : List Event) : List (List String) :=
  (tr.filter fun e => e.visit == .post).map Event.path

/-- Every POST event of the trace is preceded by a PRE event of the same
path: however the trace is split around a POST event, the part before it
already PRE-visited that path. -/
def postAfterPre (tr : List Event) : Prop :=
  ∀ t1 e t2, tr = t1 ++ e :: t2 → e.visit = .post → e.path ∈ prePaths t1

/-- A pure callback lifted to the stateful interface. -/
def pureCb (f : Ftwbuf → CbRet) : Unit → Ftwbuf → CbRet × Unit :=
  fun _ buf => (f buf, ())

/-! ## Auxiliary definitions for the proofs -/

/-- bftw_file_openat success (lines 1133-1136): install the freshly opened
descriptor and add the record to the cache, closing it again when the
cache cannot take it. -/
def cacheOpen (c : BftwCache) (id : Nat) (fd : Nat) : BftwCache :=
  match cacheGet c id with
  | some f =>
    let c := cacheSet c id { f with fd := some fd }
    match bftwCacheAdd c id with
    | .ok c => c
    | .error _ => bftwFileClose c id
  | none => c

/-- The cache well-formedness carrying invariant I2: ids are unique, lru
members are open records, and an open record is on the lru list exactly
when its pincount is zero. -/
def cacheWF (c : BftwCache) : Prop :=
  (c.files.map Prod.fst).Nodup ∧
  c.lru.Nodup ∧
  (∀ id ∈ c.lru, ∃ f, cacheGet c id = some f ∧ f.fd ≠ none) ∧
  (∀ id f, cacheGet c id = some f → f.fd ≠ none → (id ∈ c.lru ↔ f.pincount = 0))

/-- The PRE visits still owed by a queued directory: its subtree minus the
directory itself (which was already visited when it was pushed). -/
def qPendingPre (flags : BftwFlags) (f : Ftwbuf → CbRet) (q : QEnt) : List (List String) :=
  specPreForest flags f q.path q.depth q.tree.children

/-- The records still to be created below a queued directory. -/
def qPendingPost (flags : BftwFlags) (f : Ftwbuf → CbRet) (q : QEnt) : List (List String) :=
  specPostForest flags f q.path q.depth q.tree.children

/-- qPendingPre over a directory queue. -/
def dirqPre (flags : BftwFlags) (f : Ftwbuf → CbRet) (dq : List QEnt) : List (List String) :=
  (dq.map (qPendingPre flags f)).flatten

/-- qPendingPost over a directory queue. -/
def dirqPost (flags : BftwFlags) (f : Ftwbuf → CbRet) (dq : List QEnt) : List (List String) :=
  (dq.map (qPendingPost flags f)).flatten

/-- The paths of the live records. -/
def storePaths (store : List (Nat × BftwRec)) : List (List String) :=
  store.map fun pr => pr.2.path

/-- PRE visits performed or still owed by a state. -/
def statePreList (flags : BftwFlags) (f : Ftwbuf → CbRet) {σ : Type} (st : WalkState σ) :
    List (List String) :=
  prePaths st.trace ++ dirqPre flags f st.dirq

/-- POST visits performed or still owed by a state: every live record owes
one POST, and every queued subtree owes the records below it. -/
def statePostList (flags : BftwFlags) (f : Ftwbuf → CbRet) {σ : Type} (st : WalkState σ) :
    List (List String) :=
  postPaths st.trace ++ storePaths st.store ++ dirqPost flags f st.dirq

/-- The termination measure of the outer loop: entries below the queue. -/
def dirqMeasure {σ : Type} (st : WalkState σ) : Nat :=
  (st.dirq.map fun q => treeSize q.tree).sum

/-- The number of live children of a record. -/
def storeKids (store : List (Nat × BftwRec)) (id : Nat) : Nat :=
  (store.filter fun pr => pr.2.parent = some id).length

/-- The ids on the directory queue. -/
def dirqIds {σ : Type} (st : WalkState σ) : List Nat := st.dirq.map QEnt.id

/-- The well-formedness invariant of a synchronous walk state.  cur is the
directory currently being read, if any (its queue reference count is held
by the processing loop rather than by the queue). -/
structure WalkWF (st : WalkState Unit) (cur : Option Nat) : Prop where
  idsNodup : (st.store.map Prod.fst).Nodup
  idsLt : ∀ pr ∈ st.store, pr.1 < st.nextId
  dirqSub : ∀ q ∈ st.dirq, ∃ r, storeGet st.store q.id = some r ∧ r.depth = q.depth
  dirqClean : ∀ q ∈ st.dirq, cleanTree q.tree = true
  dirqIdsNodup : (dirqIds st).Nodup
  refQueued : ∀ q ∈ st.dirq, ∀ r, storeGet st.store q.id = some r →
    r.refcount = 1 ∧ storeKids st.store q.id = 0 ∧ ¬ cur = some q.id
  refLive : ∀ pr ∈ st.store, pr.1 ∉ dirqIds st → ¬ cur = some pr.1 →
    pr.2.refcount = storeKids st.store pr.1 ∧ 1 ≤ storeKids st.store pr.1
  refCur : ∀ i, cur = some i → i ∉ dirqIds st ∧
    ∃ r, storeGet st.store i = some r ∧ r.refcount = 1 + storeKids st.store i
  parentOk : ∀ pr ∈ st.store, ∀ pid, pr.2.parent = some pid →
    ∃ rp, storeGet st.store pid = some rp ∧ rp.depth + 1 = pr.2.depth
  recClean : ∀ pr ∈ st.store, pr.2.typ = .dir ∧
    ∃ si, pr.2.info.stat = Except.ok si ∧ si.typ = .dir
  prePosted : ∀ pr ∈ st.store, pr.2.path ∈ prePaths st.trace
  ordered : postAfterPre st.trace
  err0 : st.error = 0

/-- The count bookkeeping of a walk relative to its specification. -/
def countsOK (flags : BftwFlags) (f : Ftwbuf → CbRet) (roots : List (String × FSTree))
    (st : WalkState Unit) : Prop :=
  (∀ p, (statePreList flags f st).count p = (specPreRoots flags f roots).count p) ∧
  (flags.postOrder = true →
    ∀ p, (statePostList flags f st).count p = (specPostRoots flags f roots).count p) ∧
  (flags.postOrder = false → postPaths st.trace = [])

/-! ## Concrete fixtures used by the witnesses and counterexamples -/

/-- A directory entry with the given identity and clean metadata. -/
def exDirInfo (dev ino : Nat) : NodeInfo :=
  { hint := .dir, stat := .ok ⟨.dir, dev, ino⟩, openErr := none }

/-- A regular-file entry with the given identity and clean metadata. -/
def exRegInfo (dev ino : Nat) : NodeInfo :=
  { hint := .reg, stat := .ok ⟨.reg, dev, ino⟩, openErr := none }

/-- A one-directory tree whose single subdirectory entry has the same
(dev, ino) as the record exCycleRec already on the parent chain. -/
def exCycleTree : FSTree := .node (exDirInfo 7 9) []

/-- The record of the directory being read in the cycle scenario. -/
def exCycleRec : BftwRec :=
  { parent := none, refcount := 1, path := ["a"], depth := 0, typ := .dir,
    devino := some (7, 9), info := exDirInfo 7 9 }

/-- The walk state of the cycle scenario: the current directory a has
identity (7, 9) on the chain. -/
def exCycleState : WalkState Unit :=
  { store := [(0, exCycleRec)], nextId := 1, dirq := [], trace := [], error := 0, user := () }

/-- The queue entry for the directory a being read. -/
def exCycleDir : QEnt := { id := 0, path := ["a"], depth := 0, tree := exCycleTree }

/-- Flags with only BFTW_DETECT_CYCLES (no BFTW_RECOVER). -/
def exFlagsCycles : BftwFlags :=
  { stat := false, recover := false, postOrder := false, detectCycles := true,
    followAll := false, followRoots := false }

/-- Flags with BFTW_DETECT_CYCLES and BFTW_RECOVER. -/
def exFlagsCyclesRec : BftwFlags :=
  { exFlagsCycles with recover := true }

/-- All-clear flags. -/
def exFlags0 : BftwFlags :=
  { stat := false, recover := false, postOrder := false, detectCycles := false,
    followAll := false, followRoots := false }

/-- Flags with only BFTW_POST_ORDER. -/
def exFlagsPost : BftwFlags := { exFlags0 with postOrder := true }

/-- Flags with only BFTW_RECOVER. -/
def exFlagsRec : BftwFlags := { exFlags0 with recover := true }

/-- A callback that always continues. -/
def exCbCont : Unit → Ftwbuf → CbRet × Unit := pureCb fun _ => .cont

/-- The two-root forest of the C3 counterexample: root x cannot be
statted (EACCES) and root y is a clean regular file. -/
def exErrRoots : List (String × FSTree) :=
  [("x", .node { hint := .unknown, stat := .error EACCES, openErr := none } []),
   ("y", .node (exRegInfo 1 1) [])]

/-- The one-root forest of the C1 counterexample: directory a holding the
regular file b. -/
def exPostRoots : List (String × FSTree) :=
  [("a", .node (exDirInfo 1 1) [("b", .node (exRegInfo 1 2) [])])]

/-- The forest of the C1 witness: a{b, c{d}}. -/
def exWitRoots : List (String × FSTree) :=
  [("a", .node (exDirInfo 1 1)
    [("b", .node (exRegInfo 1 2) []),
     ("c", .node (exDirInfo 1 3) [("d", .node (exRegInfo 1 4) [])])])]

/-- IDS window parameters with min_depth = 2, max_depth = 3. -/
def exIdsParams : IdsParams :=
  { minDepth := 2, maxDepth := 3, visit := .pre, forceVisit := false }

/-- An empty IDS state over a unit delegate state. -/
def exIdsState : IdsState Unit :=
  { pruned := [], bottom := true, duser := (), calls := [] }

/-- A delegate that always continues. -/
def exDelegate : Unit → Ftwbuf → CbRet × Unit := pureCb fun _ => .cont

/-- An ERROR ftwbuf one level above the IDS window. -/
def exErrBuf : Ftwbuf :=
  { path := ["a", "b"], depth := 1, visit := .pre, typ := .error, error := EACCES,
    statInfo := none }

/-- A cache holding one unpinned open record, with no free capacity and no
pending completions. -/
def exCache1 : BftwCache :=
  { files := [(0, { fd := some 3, hasDir := false, pincount := 0, depth := 1 })],
    lru := [0], target := none, capacity := 0 }

/-- A cache with no capacity whose only open record is pinned. -/
def exCachePinned : BftwCache :=
  { files := [(0, { fd := some 3, hasDir := false, pincount := 1, depth := 1 })],
    lru := [], target := none, capacity := 0 }

/-- The obligation satisfied by every delegate call recorded inside one
iterative-deepening iteration: entries of type BFS_ERROR are delegated
from one level above the window upward, every other entry lies inside
[min_depth, max_depth). -/
def idsWindowOK (p : IdsParams) (b : Ftwbuf) : Prop :=
  (b.typ = .error → p.minDepth ≤ b.depth + 1) ∧
  (¬ b.typ = .error → p.minDepth ≤ b.depth ∧ b.depth < p.maxDepth)

/-! # Theorems -/

/-- C9: for every non-root FileRecord created by bftw_file_new, its
name_offset equals the parent name_offset plus the parent name length,
plus exactly one when the parent name does not end in a slash and plus
zero when it does. -/
theorem C9_child_nameoff (p : BftwFileGeom) (name : List Char)
    (hne : p.name ≠ []) :
    (bftwFileNewGeom (some p) name).nameoff =
      p.nameoff + p.namelen + (if p.name.getLast hne = '/' then 0 else 1) := by
  simp only [bftwFileNewGeom, bftwChildNameoff]
  rw [List.getLast?_eq_getLast p.name hne]
  by_cases h : p.name.getLast hne = '/' <;> simp [h]

/-- Witness for C9 at concrete parents with and without a trailing slash. -/
theorem C9_witness :
    (bftwFileNewGeom (some ⟨2, 3, ['f', 'o', 'o']⟩) ['b']).nameoff = 6 ∧
    (bftwFileNewGeom (some ⟨0, 4, ['u', 's', 'r', '/']⟩) ['b']).nameoff = 4 := by
  constructor
  · rw [C9_child_nameoff ⟨2, 3, ['f', 'o', 'o']⟩ ['b'] (by decide)]; decide
  · rw [C9_child_nameoff ⟨0, 4, ['u', 's', 'r', '/']⟩ ['b'] (by decide)]; decide

/-- C10: caching a NOFOLLOW stat result that is an error or a non-symlink
fills the follow slot with the same buffer and error, so a later follow
(or tryfollow) query through bftw_stat or bftw_cached_stat is answered
without issuing a stat call; a TRYFOLLOW result that is a symlink lands in
the no-follow slot and records ENOENT in the follow slot. -/
theorem C10_stat_cache_sharing (bufs : BftwStatBufs) (b : BfsStatBuf) (e : Nat)
    (sys : StatFlag → Except Nat BfsStatBuf) :
    (e ≠ 0 →
      (bftwStatCache bufs .nofollow none e).statErr = (e : Int) ∧
      (bftwStatCache bufs .nofollow none e).statBuf = none ∧
      (bftwStatCache bufs .nofollow none e).lstatErr = (e : Int) ∧
      (∀ fl, fl = StatFlag.follow ∨ fl = StatFlag.tryfollow →
        (bftwStat (bftwStatCache bufs .nofollow none e) fl sys).syscalls = 0 ∧
        (bftwStat (bftwStatCache bufs .nofollow none e) fl sys).buf = none)) ∧
    (S_ISLNK b.mode = false →
      (bftwStatCache bufs .nofollow (some b) 0).statBuf = some b ∧
      (bftwStatCache bufs .nofollow (some b) 0).statErr = 0 ∧
      (bftwStatCache bufs .nofollow (some b) 0).lstatBuf = some b ∧
      (bftwStat (bftwStatCache bufs .nofollow (some b) 0) .follow sys).syscalls = 0 ∧
      (bftwStat (bftwStatCache bufs .nofollow (some b) 0) .follow sys).buf = some b ∧
      (bftwStat (bftwStatCache bufs .nofollow (some b) 0) .tryfollow sys).syscalls = 0 ∧
      bftwCachedStat (bftwStatCache bufs .nofollow (some b) 0) .follow = some b) ∧
    (S_ISLNK b.mode = true →
      (bftwStatCache bufs .tryfollow (some b) 0).lstatBuf = some b ∧
      (bftwStatCache bufs .tryfollow (some b) 0).lstatErr = 0 ∧
      (bftwStatCache bufs .tryfollow (some b) 0).statErr = (ENOENT : Int)) := by
  refine ⟨fun he => ?_, fun hl => ?_, fun hl => ?_⟩
  · have hbufs : bftwStatCache bufs .nofollow none e = ⟨none, none, (e : Int), (e : Int)⟩ := by
      simp [bftwStatCache, he]
    refine ⟨by simp [hbufs], by simp [hbufs], by simp [hbufs], ?_⟩
    rintro fl (rfl | rfl)
    · simp [bftwStat, bftwStatImpl, hbufs, he, Int.natCast_pos, Nat.pos_of_ne_zero he]
    · by_cases hen : e = ENOENT
      · subst hen
        simp [bftwStat, bftwStatImpl, hbufs, he, Int.natCast_pos, Nat.pos_of_ne_zero he]
      · simp [bftwStat, bftwStatImpl, hbufs, he, hen, Int.natCast_pos, Nat.pos_of_ne_zero he]
  · have hbufs : bftwStatCache bufs .nofollow (some b) 0 = ⟨some b, some b, 0, 0⟩ := by
      simp [bftwStatCache, hl]
    refine ⟨by simp [hbufs], by simp [hbufs], by simp [hbufs], ?_, ?_, ?_, ?_⟩
    · simp [bftwStat, bftwStatImpl, hbufs]
    · simp [bftwStat, bftwStatImpl, hbufs]
    · simp [bftwStat, bftwStatImpl, hbufs]
    · simp [bftwCachedStat, hbufs]
  · simp [bftwStatCache, hl]

/-- Witness for C10 at a concrete regular-file buffer, a concrete errno
and a concrete symlink buffer. -/
theorem C10_witness :
    (bftwStat (bftwStatCache bftwStatInit .nofollow (some ⟨0x8000, 1, 2⟩) 0)
        .follow (fun _ => .error 9)).syscalls = 0 ∧
    (bftwStat (bftwStatCache bftwStatInit .nofollow none 13)
        .tryfollow (fun _ => .error 9)).syscalls = 0 ∧
    (bftwStatCache bftwStatInit .tryfollow (some ⟨0xA000, 1, 2⟩) 0).statErr = (ENOENT : Int) := by
  refine ⟨?_, ?_, ?_⟩
  · exact ((C10_stat_cache_sharing bftwStatInit ⟨0x8000, 1, 2⟩ 0
      (fun _ => .error 9)).2.1 (by decide)).2.2.2.1
  · exact (((C10_stat_cache_sharing bftwStatInit ⟨0x8000, 1, 2⟩ 13
      (fun _ => .error 9)).1 (by decide)).2.2.2 .tryfollow (Or.inr rfl)).1
  · exact ((C10_stat_cache_sharing bftwStatInit ⟨0xA000, 1, 2⟩ 0
      (fun _ => .error 9)).2.2 (by decide)).2.2

/-- C5 counterexample: on a queue with the BALANCE flag, pushing a file
leaves the imbalance counter unchanged rather than shifting it by -1. -/
theorem C5_counterexample :
    (bftwQueuePush (bftwQueueInit ⟨true, false, false, false⟩) 0).imbalance ≠
      (bftwQueueInit ⟨true, false, false, false⟩).imbalance - 1 ∧
    (bftwQueuePush (bftwQueueInit ⟨true, false, false, false⟩) 0).imbalance =
      (bftwQueueInit ⟨true, false, false, false⟩).imbalance := by
  decide

/-- C5 amended: push and skip leave the imbalance counter unchanged;
detaching a file for async service shifts it by -1; the synchronous
rebalance call (used for a main-thread stat and a synchronous directory
open) shifts it by +1; and the async opendir loop initiates nothing when
the queue is unbalanced, the balance test being counter >= 0 whenever the
BALANCE flag is set. -/
theorem C5_amended_balance (q : BftwQueue) (file : Nat) :
    (bftwQueuePush q file).imbalance = q.imbalance ∧
    (bftwQueueSkip q file).imbalance = q.imbalance ∧
    (bftwQueueDetach q file true).imbalance = q.imbalance - 1 ∧
    (bftwQueueRebalance q false).imbalance = q.imbalance + 1 ∧
    (bftwQueueBalanced q = true ↔ (q.flags.balance = true → 0 ≤ q.imbalance)) ∧
    (∀ tryOpen fuel, bftwQueueBalanced q = false → bftwIoqOpendirs tryOpen fuel q = q) := by
  refine ⟨?_, ?_, ?_, ?_, ?_, ?_⟩
  · simp only [bftwQueuePush]
    split_ifs <;> simp
  · simp only [bftwQueueSkip, bftwQueueAttach, bftwQueueDetach, bftwQueueRebalance]
    split_ifs <;> simp_all
  · simp only [bftwQueueDetach, bftwQueueRebalance]
    split_ifs <;> simp_all
  · simp [bftwQueueRebalance]
  · simp only [bftwQueueBalanced]
    split_ifs <;> rename_i h <;> simp [h]
  · intro tryOpen fuel hub
    cases fuel <;> simp [bftwIoqOpendirs, hub]

/-- Witness for C5 on a concrete unbalanced queue. -/
theorem C5_witness :
    bftwQueueBalanced ⟨⟨true, false, false, false⟩, [], [0], [], 1, 0, -1⟩ = false ∧
    bftwIoqOpendirs (fun _ => true) 5 ⟨⟨true, false, false, false⟩, [], [0], [], 1, 0, -1⟩ =
      ⟨⟨true, false, false, false⟩, [], [0], [], 1, 0, -1⟩ := by
  exact ⟨by decide, (C5_amended_balance ⟨⟨true, false, false, false⟩, [], [0], [], 1, 0, -1⟩ 0).2.2.2.2.2
    (fun _ => true) 5 (by decide)⟩

/-- C2 amended: when BFTW_DETECT_CYCLES is set and a directory entry about
to be visited matches the (dev, ino) of an entry on the current parent
chain, the entry resolves to type Error with errno ELOOP and is never
pushed onto the directory queue (so nothing below it is read); with
BFTW_RECOVER the visitor callback is invoked once with exactly that Error
ftwbuf, while without BFTW_RECOVER the callback is not invoked and the
walk stops with ELOOP as the accumulated error. -/
theorem C2_amended_cycle_detection {σ : Type} (flags : BftwFlags)
    (cb : σ → Ftwbuf → CbRet × σ) (st : WalkState σ) (d : QEnt)
    (name : String) (ctree : FSTree) (si : StatInfo)
    (hstat : ctree.info.stat = .ok si) (htyp : si.typ = .dir)
    (hcyc : flags.detectCycles = true)
    (hmust : bftwMustStat flags (d.depth + 1) ctree.info.hint = true)
    (hmem : (si.dev, si.ino) ∈ devinoChain st.store (d.depth + 1) (some d.id)) :
    (bftwVisitOne flags cb st (some d) name ctree).2.dirq = st.dirq ∧
    (bftwVisitOne flags cb st (some d) name ctree).2.store = st.store ∧
    (flags.recover = true →
      (bftwVisitOne flags cb st (some d) name ctree).2.trace =
        st.trace ++ [⟨d.path ++ [name], .pre, .error, ELOOP⟩]) ∧
    (flags.recover = false →
      (bftwVisitOne flags cb st (some d) name ctree).1 = true ∧
      (bftwVisitOne flags cb st (some d) name ctree).2.trace = st.trace ∧
      (bftwVisitOne flags cb st (some d) name ctree).2.error = ELOOP) := by
  have hbuf : bftwInitFtwbuf flags .pre (d.path ++ [name]) (d.depth + 1) ctree.info.hint
      ctree.info.stat 0 (devinoChain st.store (d.depth + 1) (some d.id)) =
      ⟨d.path ++ [name], d.depth + 1, .pre, .error, ELOOP, some si⟩ := by
    simp [bftwInitFtwbuf, hstat, hmust, htyp, hcyc, hmem]
  cases hrec : flags.recover
  · simp [bftwVisitOne, bftwCallBack, hbuf, hrec]
  · rcases hcb : cb st.user ⟨d.path ++ [name], d.depth + 1, .pre, .error, ELOOP, some si⟩
      with ⟨r, u⟩
    cases r <;> simp [bftwVisitOne, bftwCallBack, hbuf, hrec, hcb]

/-- C2 counterexample: with BFTW_DETECT_CYCLES set but BFTW_RECOVER clear,
a directory whose (dev, ino) matches an ancestor is NOT reported to the
visitor callback: the callback is never invoked (the trace stays empty)
and the walk stops instead, contradicting the claim that the callback is
always invoked with type Error and error ELOOP. -/
theorem C2_counterexample :
    (exCycleTree.info.stat = .ok ⟨.dir, 7, 9⟩ ∧
     exFlagsCycles.detectCycles = true ∧
     (7, 9) ∈ devinoChain exCycleState.store 1 (some exCycleDir.id)) ∧
    (bftwVisitOne exFlagsCycles exCbCont exCycleState (some exCycleDir) "b" exCycleTree).2.trace = [] ∧
    (bftwVisitOne exFlagsCycles exCbCont exCycleState (some exCycleDir) "b" exCycleTree).1 = true := by
  refine ⟨by decide, ?_, ?_⟩ <;> decide

/-- Witness for C2 with BFTW_RECOVER set: the callback receives exactly
the ELOOP error visit, and nothing is queued. -/
theorem C2_amended_witness :
    (bftwVisitOne exFlagsCyclesRec exCbCont exCycleState (some exCycleDir) "b" exCycleTree).2.trace =
      [⟨["a", "b"], .pre, .error, ELOOP⟩] ∧
    (bftwVisitOne exFlagsCyclesRec exCbCont exCycleState (some exCycleDir) "b" exCycleTree).2.dirq = [] := by
  have h := C2_amended_cycle_detection exFlagsCyclesRec exCbCont exCycleState exCycleDir
    "b" exCycleTree ⟨.dir, 7, 9⟩ (by decide) (by decide) (by decide) (by decide) (by decide)
  refine ⟨?_, ?_⟩
  · have := h.2.2.1 rfl
    simpa [exCycleState, exCycleDir] using this
  · have := h.1
    simpa [exCycleState] using this

/-- C4 counterexample: bftw with a valid strategy and nopenfd = 1 returns
-1 with errno EMFILE, not EINVAL as claimed (bftw_state_init line 907). -/
theorem C4_counterexample :
    (bftwTopModel 0 1 exFlags0 exCbCont [] ()).2.2 = EMFILE ∧
    ¬ (bftwTopModel 0 1 exFlags0 exCbCont [] ()).2.2 = EINVAL := by
  decide

/-- C4 amended: an invalid strategy yields -1/EINVAL without invoking the
callback; nopenfd < 2 yields -1 with errno EMFILE (not EINVAL) without
invoking the callback; and a callback returning a value outside the
action enum makes the walk return -1 with errno EINVAL. -/
theorem C4_amended_logic_errors {δ : Type} (flags : BftwFlags)
    (cb : δ → Ftwbuf → CbRet × δ) (roots : List (String × FSTree)) (d0 : δ) :
    (∀ s n, 4 ≤ s → bftwTopModel s n flags cb roots d0 = (-1, [], EINVAL)) ∧
    (∀ s n, s < 4 → n < 2 → bftwTopModel s n flags cb roots d0 = (-1, [], EMFILE)) ∧
    (flags.recover = true → roots ≠ [] → (∀ u b, (cb u b).1 = CbRet.invalid) →
      (bftwWalkModel flags cb roots d0).1 = -1 ∧
      (bftwWalkModel flags cb roots d0).2.2 = EINVAL) := by
  refine ⟨?_, ?_, ?_⟩
  · intro s n hs
    simp [bftwTopModel, hs]
  · intro s n hs hn
    simp [bftwTopModel, Nat.not_le.mpr (by omega : s < 4), hn]
  · intro hrec hne hinv
    obtain ⟨⟨nm, t⟩, rest, rfl⟩ : ∃ a l, roots = a :: l := by
      cases roots with
      | nil => exact absurd rfl hne
      | cons a l => exact ⟨a, l, rfl⟩
    rcases hcb : cb d0 (bftwInitFtwbuf flags .pre [nm] 0 .unknown t.info.stat 0 [])
      with ⟨r, u⟩
    have hr : r = CbRet.invalid := by
      have h2 := hinv d0 (bftwInitFtwbuf flags .pre [nm] 0 .unknown t.info.stat 0 [])
      rw [hcb] at h2
      exact h2
    subst hr
    constructor <;>
      simp [bftwWalkModel, bftwImpl, bftwSeedRoots, bftwVisitOne, bftwCallBack,
        bftwInitState, hrec, hcb, EINVAL]

/-- Witness for C4 at concrete inputs: an invalid strategy value, a too
small nopenfd, and an always-invalid callback. -/
theorem C4_amended_witness :
    bftwTopModel 9 5 exFlags0 exCbCont [] () = (-1, [], EINVAL) ∧
    bftwTopModel 2 1 exFlags0 exCbCont [] () = (-1, [], EMFILE) ∧
    (bftwWalkModel exFlagsRec (fun (u : Unit) _ => (CbRet.invalid, u)) exPostRoots ()).2.2 = EINVAL := by
  refine ⟨(C4_amended_logic_errors exFlags0 exCbCont [] ()).1 9 5 (by decide),
    (C4_amended_logic_errors exFlags0 exCbCont [] ()).2.1 2 1 (by decide) (by decide),
    ((C4_amended_logic_errors exFlagsRec (fun (u : Unit) _ => (CbRet.invalid, u))
      exPostRoots ()).2.2 (by decide) (by simp [exPostRoots]) (fun _ _ => rfl)).2⟩

theorem findSet_ne (l : List (Nat × CacheFile)) (id j : Nat) (f : CacheFile)
    (h : ¬ j = id) :
    ((l.map fun p => if p.1 = id then (id, f) else p).find? fun p => p.1 = j) =
      (l.find? fun p => p.1 = j) := by
  induction l with
  | nil => rfl
  | cons a l ih =>
    by_cases ha : a.1 = id
    · rw [List.map_cons, if_pos ha]
      rw [List.find?_cons_of_neg _ (by simp; exact fun hh => h hh.symm),
        List.find?_cons_of_neg _ (by simp [ha]; exact fun hh => h hh.symm)]
      exact ih
    · rw [List.map_cons, if_neg ha]
      by_cases hj : a.1 = j
      · rw [List.find?_cons_of_pos _ (by simp [hj]), List.find?_cons_of_pos _ (by simp [hj])]
      · rw [List.find?_cons_of_neg _ (by simp [hj]), List.find?_cons_of_neg _ (by simp [hj])]
        exact ih

theorem cacheGet_cacheSet_ne (c : BftwCache) (id j : Nat) (f : CacheFile)
    (h : ¬ j = id) : cacheGet (cacheSet c id f) j = cacheGet c j := by
  simp only [cacheGet, cacheSet]
  rw [findSet_ne c.files id j f h]


theorem findSet_self (l : List (Nat × CacheFile)) (id : Nat) (f : CacheFile)
    (h : (l.find? fun p => p.1 = id).isSome) :
    ((l.map fun p => if p.1 = id then (id, f) else p).find? fun p => p.1 = id) = some (id, f) := by
  induction l with
  | nil => simp at h
  | cons a l ih =>
    by_cases ha : a.1 = id
    · rw [List.map_cons, if_pos ha, List.find?_cons_of_pos _ (by simp)]
    · rw [List.map_cons, if_neg ha, List.find?_cons_of_neg _ (by simp [ha])]
      rw [List.find?_cons_of_neg _ (by simp [ha])] at h
      exact ih h

theorem cacheGet_cacheSet_self (c : BftwCache) (id : Nat) (f f0 : CacheFile)
    (h : cacheGet c id = some f0) : cacheGet (cacheSet c id f) id = some f := by
  simp only [cacheGet, cacheSet] at h ⊢
  rw [findSet_self c.files id f ?_]
  · simp
  · rcases hfind : c.files.find? fun p => p.1 = id with _ | p
    · rw [hfind] at h; simp at h
    · simp [hfind]

theorem cacheSet_keys (c : BftwCache) (id : Nat) (f : CacheFile) :
    (cacheSet c id f).files.map Prod.fst = c.files.map Prod.fst := by
  simp only [cacheSet, List.map_map]
  apply List.map_congr_left
  intro p _hp
  by_cases h : p.1 = id <;> simp [h]

theorem cacheSet_lru (c : BftwCache) (id : Nat) (f : CacheFile) :
    (cacheSet c id f).lru = c.lru := rfl

theorem cacheSet_capacity (c : BftwCache) (id : Nat) (f : CacheFile) :
    (cacheSet c id f).capacity = c.capacity := rfl

theorem lruRemove_files (c : BftwCache) (id : Nat) :
    (bftwLruRemove c id).files = c.files := by
  simp only [bftwLruRemove]
  split <;> rfl

theorem lruRemove_lru (c : BftwCache) (id : Nat) :
    (bftwLruRemove c id).lru = c.lru.erase id := by
  simp only [bftwLruRemove]
  split <;> rfl

theorem lruAdd_files (c : BftwCache) (id : Nat) :
    (bftwLruAdd c id).files = c.files := by
  simp only [bftwLruAdd]
  cases h : cacheGet { c with lru := lruInsertAfter c.lru c.target id } id
  · rfl
  · split
    · split <;> rfl
    · rfl

theorem lruAdd_lru (c : BftwCache) (id : Nat) :
    (bftwLruAdd c id).lru = lruInsertAfter c.lru c.target id := by
  simp only [bftwLruAdd]
  cases h : cacheGet { c with lru := lruInsertAfter c.lru c.target id } id
  · rfl
  · split
    · split <;> rfl
    · rfl

theorem mem_lruInsertAfter (lru : List Nat) (t : Option Nat) (id j : Nat) :
    j ∈ lruInsertAfter lru t id ↔ j = id ∨ j ∈ lru := by
  cases t with
  | none => simp [lruInsertAfter]
  | some t =>
    simp only [lruInsertAfter]
    cases h : lru.indexOf? t with
    | none => exact List.mem_cons
    | some i =>
      show j ∈ lru.take (i + 1) ++ id :: lru.drop (i + 1) ↔ _
      rw [List.mem_append, List.mem_cons]
      conv_rhs => rw [show lru = lru.take (i + 1) ++ lru.drop (i + 1) from (List.take_append_drop _ _).symm]
      rw [List.mem_append]
      tauto

theorem nodup_lruInsertAfter (lru : List Nat) (t : Option Nat) (id : Nat)
    (hn : lru.Nodup) (hid : id ∉ lru) : (lruInsertAfter lru t id).Nodup := by
  cases t with
  | none => exact List.nodup_cons.2 ⟨hid, hn⟩
  | some t =>
    simp only [lruInsertAfter]
    cases h : lru.indexOf? t with
    | none => exact List.nodup_cons.2 ⟨hid, hn⟩
    | some i =>
      show (lru.take (i + 1) ++ id :: lru.drop (i + 1)).Nodup
      have hsplit : lru = lru.take (i + 1) ++ lru.drop (i + 1) := (List.take_append_drop _ _).symm
      rw [hsplit] at hn hid
      rw [List.nodup_append] at hn
      rw [List.nodup_append]
      refine ⟨hn.1, List.nodup_cons.2 ⟨fun hc => hid (List.mem_append.2 (Or.inr hc)), hn.2.1⟩, ?_⟩
      intro a ha
      simp only [List.mem_cons, not_or]
      rintro (he | hc)
      · exact hid (he ▸ List.mem_append.2 (Or.inl ha))
      · exact hn.2.2 ha hc

theorem cacheGet_lruRemove (c : BftwCache) (id j : Nat) :
    cacheGet (bftwLruRemove c id) j = cacheGet c j := by
  simp [cacheGet, lruRemove_files]

theorem cacheGet_lruAdd (c : BftwCache) (id j : Nat) :
    cacheGet (bftwLruAdd c id) j = cacheGet c j := by
  simp [cacheGet, lruAdd_files]

theorem cacheWF_pin (c : BftwCache) (id : Nat) (f : CacheFile)
    (hwf : cacheWF c) (hget : cacheGet c id = some f) (hfd : f.fd ≠ none) :
    cacheWF (bftwCachePin c id) ∧ id ∉ (bftwCachePin c id).lru := by
  obtain ⟨hkeys, hlnd, hmem, hinv⟩ := hwf
  have hid_lru : id ∈ c.lru ↔ f.pincount = 0 := hinv id f hget hfd
  simp only [bftwCachePin, hget]
  set f1 : CacheFile := { f with pincount := f.pincount + 1 } with hf1
  set c1 := cacheSet c id f1 with hc1
  have hg1self : cacheGet c1 id = some f1 := cacheGet_cacheSet_self c id f1 f hget
  have hg1ne : ∀ j, ¬ j = id → cacheGet c1 j = cacheGet c j := fun j hj =>
    cacheGet_cacheSet_ne c id j f1 hj
  by_cases hp : f.pincount = 0
  · rw [if_pos hp]
    have hlru2 : (bftwLruRemove c1 id).lru = c.lru.erase id := by
      rw [lruRemove_lru]; rfl
    refine ⟨⟨?_, ?_, ?_, ?_⟩, ?_⟩
    · rw [show (bftwLruRemove c1 id).files = c1.files from lruRemove_files c1 id, hc1, cacheSet_keys]
      exact hkeys
    · rw [hlru2]; exact hlnd.erase id
    · intro j hj
      rw [hlru2] at hj
      have hjne : ¬ j = id := by
        intro he; exact ((List.Nodup.mem_erase_iff hlnd).1 hj).1 (by rw [he])
      have hjl : j ∈ c.lru := ((List.Nodup.mem_erase_iff hlnd).1 hj).2
      obtain ⟨fj, hfj, hfjfd⟩ := hmem j hjl
      exact ⟨fj, by rw [cacheGet_lruRemove, hg1ne j hjne]; exact hfj, hfjfd⟩
    · intro j fj hfj hfjfd
      rw [cacheGet_lruRemove] at hfj
      rw [hlru2]
      by_cases hjne : j = id
      · subst hjne
        rw [hg1self] at hfj
        cases hfj
        constructor
        · intro hc; exact absurd ((List.Nodup.mem_erase_iff hlnd).1 hc).1 (by simp)
        · intro hc; simp [hf1] at hc
      · rw [hg1ne j hjne] at hfj
        rw [List.Nodup.mem_erase_iff hlnd]
        have := hinv j fj hfj hfjfd
        constructor
        · intro hc; exact this.1 hc.2
        · intro hc; exact ⟨hjne, this.2 hc⟩
    · rw [hlru2]
      intro hc
      exact absurd ((List.Nodup.mem_erase_iff hlnd).1 hc).1 (by simp)
  · rw [if_neg hp]
    have hnid : id ∉ c.lru := fun hc => hp (hid_lru.1 hc)
    refine ⟨⟨?_, ?_, ?_, ?_⟩, ?_⟩
    · rw [hc1, cacheSet_keys]; exact hkeys
    · rw [hc1, cacheSet_lru]; exact hlnd
    · intro j hj
      rw [hc1, cacheSet_lru] at hj
      have hjne : ¬ j = id := fun he => hnid (he ▸ hj)
      obtain ⟨fj, hfj, hfjfd⟩ := hmem j hj
      exact ⟨fj, by rw [hg1ne j hjne]; exact hfj, hfjfd⟩
    · intro j fj hfj hfjfd
      rw [hc1, cacheSet_lru]
      by_cases hjne : j = id
      · subst hjne
        rw [hg1self] at hfj
        cases hfj
        simp only [hf1]
        constructor
        · intro hc; exact absurd hc hnid
        · intro hc; simp at hc
      · rw [hg1ne j hjne] at hfj
        exact hinv j fj hfj hfjfd
    · rw [hc1, cacheSet_lru]; exact hnid

theorem cacheWF_unpin (c : BftwCache) (id : Nat) (f : CacheFile)
    (hwf : cacheWF c) (hget : cacheGet c id = some f) (hfd : f.fd ≠ none)
    (hp0 : 0 < f.pincount) :
    cacheWF (bftwCacheUnpin c id) ∧
    (f.pincount = 1 → id ∈ (bftwCacheUnpin c id).lru) := by
  obtain ⟨hkeys, hlnd, hmem, hinv⟩ := hwf
  have hnid : id ∉ c.lru := fun hc => by
    have := (hinv id f hget hfd).1 hc
    omega
  simp only [bftwCacheUnpin, hget]
  set f1 : CacheFile := { f with pincount := f.pincount - 1 } with hf1
  set c1 := cacheSet c id f1 with hc1
  have hg1self : cacheGet c1 id = some f1 := cacheGet_cacheSet_self c id f1 f hget
  have hg1ne : ∀ j, ¬ j = id → cacheGet c1 j = cacheGet c j := fun j hj =>
    cacheGet_cacheSet_ne c id j f1 hj
  have hc1lru : c1.lru = c.lru := by rw [hc1, cacheSet_lru]
  by_cases hp : f.pincount = 1
  · rw [if_pos hp]
    have hlru2 : (bftwLruAdd c1 id).lru = lruInsertAfter c.lru c1.target id := by
      rw [lruAdd_lru, hc1lru]
    refine ⟨⟨?_, ?_, ?_, ?_⟩, fun _ => ?_⟩
    · rw [lruAdd_files, hc1, cacheSet_keys]; exact hkeys
    · rw [hlru2]; exact nodup_lruInsertAfter c.lru c1.target id hlnd hnid
    · intro j hj
      rw [hlru2, mem_lruInsertAfter] at hj
      rcases hj with rfl | hj
      · exact ⟨f1, by rw [cacheGet_lruAdd, hg1self], by simp [hf1]; exact hfd⟩
      · have hjne : ¬ j = id := fun he => hnid (he ▸ hj)
        obtain ⟨fj, hfj, hfjfd⟩ := hmem j hj
        exact ⟨fj, by rw [cacheGet_lruAdd, hg1ne j hjne]; exact hfj, hfjfd⟩
    · intro j fj hfj hfjfd
      rw [cacheGet_lruAdd] at hfj
      rw [hlru2, mem_lruInsertAfter]
      by_cases hjne : j = id
      · subst hjne
        rw [hg1self] at hfj
        cases hfj
        simp [hf1, hp]
      · rw [hg1ne j hjne] at hfj
        have := hinv j fj hfj hfjfd
        constructor
        · rintro (rfl | hc)
          · exact absurd rfl hjne
          · exact this.1 hc
        · intro hc; exact Or.inr (this.2 hc)
    · rw [hlru2, mem_lruInsertAfter]; exact Or.inl rfl
  · rw [if_neg hp]
    refine ⟨⟨?_, ?_, ?_, ?_⟩, fun hc => absurd hc hp⟩
    · rw [hc1, cacheSet_keys]; exact hkeys
    · rw [hc1lru]; exact hlnd
    · intro j hj
      rw [hc1lru] at hj
      have hjne : ¬ j = id := fun he => hnid (he ▸ hj)
      obtain ⟨fj, hfj, hfjfd⟩ := hmem j hj
      exact ⟨fj, by rw [hg1ne j hjne]; exact hfj, hfjfd⟩
    · intro j fj hfj hfjfd
      rw [hc1lru]
      by_cases hjne : j = id
      · subst hjne
        rw [hg1self] at hfj
        cases hfj
        constructor
        · intro hc; exact absurd hc hnid
        · intro hc; simp [hf1] at hc; omega
      · rw [hg1ne j hjne] at hfj
        exact hinv j fj hfj hfjfd

theorem cacheWF_close (c : BftwCache) (id : Nat) (f : CacheFile)
    (hwf : cacheWF c) (hget : cacheGet c id = some f) :
    cacheWF (bftwClose c id) ∧ id ∉ (bftwClose c id).lru ∧
    cacheGet (bftwClose c id) id = some { f with fd := none, hasDir := false } := by
  obtain ⟨hkeys, hlnd, hmem, hinv⟩ := hwf
  simp only [bftwClose]
  set c1 := bftwLruRemove c id with hc1
  have hg1 : ∀ j, cacheGet c1 j = cacheGet c j := fun j => cacheGet_lruRemove c id j
  rw [hg1 id, hget]
  simp only []
  set f2 : CacheFile := { f with fd := none, hasDir := false } with hf2
  set c2 := cacheSet c1 id f2 with hc2
  have hg2self : cacheGet c2 id = some f2 := by
    rw [hc2]
    exact cacheGet_cacheSet_self c1 id f2 f (by rw [hg1 id]; exact hget)
  have hg2ne : ∀ j, ¬ j = id → cacheGet c2 j = cacheGet c j := fun j hj => by
    rw [hc2, cacheGet_cacheSet_ne c1 id j f2 hj, hg1 j]
  have hlru2 : c2.lru = c.lru.erase id := by
    rw [hc2, cacheSet_lru, hc1, lruRemove_lru]
  refine ⟨⟨?_, ?_, ?_, ?_⟩, ?_, hg2self⟩
  · rw [hc2, cacheSet_keys, hc1, lruRemove_files]; exact hkeys
  · rw [hlru2]; exact hlnd.erase id
  · intro j hj
    rw [hlru2] at hj
    have hjne : ¬ j = id := by
      intro he; exact ((List.Nodup.mem_erase_iff hlnd).1 hj).1 (by rw [he])
    obtain ⟨fj, hfj, hfjfd⟩ := hmem j (((List.Nodup.mem_erase_iff hlnd).1 hj).2)
    exact ⟨fj, by rw [hg2ne j hjne]; exact hfj, hfjfd⟩
  · intro j fj hfj hfjfd
    rw [hlru2]
    by_cases hjne : j = id
    · subst hjne
      rw [hg2self] at hfj
      cases hfj
      simp [hf2] at hfjfd
    · rw [hg2ne j hjne] at hfj
      rw [List.Nodup.mem_erase_iff hlnd]
      have := hinv j fj hfj hfjfd
      constructor
      · intro hc; exact this.1 hc.2
      · intro hc; exact ⟨hjne, this.2 hc⟩
  · rw [hlru2]
    intro hc
    exact absurd ((List.Nodup.mem_erase_iff hlnd).1 hc).1 (by simp)

theorem cacheWF_lruAdd (c : BftwCache) (id : Nat) (f : CacheFile)
    (hwf : cacheWF c) (hget : cacheGet c id = some f) (hfd : f.fd ≠ none)
    (hp : f.pincount = 0) (hnid : id ∉ c.lru) :
    cacheWF (bftwLruAdd c id) ∧ id ∈ (bftwLruAdd c id).lru := by
  obtain ⟨hkeys, hlnd, hmem, hinv⟩ := hwf
  have hlru : (bftwLruAdd c id).lru = lruInsertAfter c.lru c.target id := lruAdd_lru c id
  refine ⟨⟨?_, ?_, ?_, ?_⟩, ?_⟩
  · rw [lruAdd_files]; exact hkeys
  · rw [hlru]; exact nodup_lruInsertAfter c.lru c.target id hlnd hnid
  · intro j hj
    rw [hlru, mem_lruInsertAfter] at hj
    rcases hj with rfl | hj
    · exact ⟨f, by rw [cacheGet_lruAdd]; exact hget, hfd⟩
    · obtain ⟨fj, hfj, hfjfd⟩ := hmem j hj
      exact ⟨fj, by rw [cacheGet_lruAdd]; exact hfj, hfjfd⟩
  · intro j fj hfj hfjfd
    rw [cacheGet_lruAdd] at hfj
    rw [hlru, mem_lruInsertAfter]
    by_cases hjne : j = id
    · subst hjne
      rw [hget] at hfj
      cases hfj
      simp [hp]
    · have := hinv j fj hfj hfjfd
      constructor
      · rintro (rfl | hc)
        · exact absurd rfl hjne
        · exact this.1 hc
      · intro hc; exact Or.inr (this.2 hc)
  · rw [hlru, mem_lruInsertAfter]; exact Or.inl rfl

theorem fileClose_lru (c : BftwCache) (id : Nat) :
    (bftwFileClose c id).lru = c.lru.erase id := by
  simp only [bftwFileClose, bftwCacheRemove]
  cases h : cacheGet c id <;> simp [lruRemove_lru, cacheSet_lru]

theorem fileClose_keys (c : BftwCache) (id : Nat) :
    (bftwFileClose c id).files.map Prod.fst = c.files.map Prod.fst := by
  simp only [bftwFileClose, bftwCacheRemove]
  cases h : cacheGet c id
  · simp [lruRemove_files]
  · simp [lruRemove_files, cacheSet_keys]

theorem fileClose_get_ne (c : BftwCache) (id j : Nat) (hj : ¬ j = id) :
    cacheGet (bftwFileClose c id) j = cacheGet c j := by
  simp only [bftwFileClose, bftwCacheRemove]
  cases h : cacheGet c id
  · have : cacheGet (bftwLruRemove c id) j = cacheGet c j := cacheGet_lruRemove c id j
    simpa using this
  · rename_i f
    have h1 : cacheGet (bftwLruRemove (cacheSet c id { f with fd := none, hasDir := false }) id) j =
        cacheGet (cacheSet c id { f with fd := none, hasDir := false }) j :=
      cacheGet_lruRemove _ id j
    have h2 : cacheGet (cacheSet c id { f with fd := none, hasDir := false }) j = cacheGet c j :=
      cacheGet_cacheSet_ne c id j _ hj
    simpa [h2] using h1

theorem fileClose_get_self (c : BftwCache) (id : Nat) (f : CacheFile)
    (h : cacheGet c id = some f) :
    cacheGet (bftwFileClose c id) id = some { f with fd := none, hasDir := false } := by
  simp only [bftwFileClose, bftwCacheRemove, h]
  have h1 : cacheGet (bftwLruRemove (cacheSet c id { f with fd := none, hasDir := false }) id) id =
      cacheGet (cacheSet c id { f with fd := none, hasDir := false }) id :=
    cacheGet_lruRemove _ id id
  have h2 : cacheGet (cacheSet c id { f with fd := none, hasDir := false }) id =
      some { f with fd := none, hasDir := false } :=
    cacheGet_cacheSet_self c id _ f h
  simpa [h2] using h1

theorem cacheWF_fileClose (c : BftwCache) (id : Nat) (hwf : cacheWF c) :
    cacheWF (bftwFileClose c id) ∧ id ∉ (bftwFileClose c id).lru := by
  obtain ⟨hkeys, hlnd, hmem, hinv⟩ := hwf
  refine ⟨⟨?_, ?_, ?_, ?_⟩, ?_⟩
  · rw [fileClose_keys]; exact hkeys
  · rw [fileClose_lru]; exact hlnd.erase id
  · intro j hj
    rw [fileClose_lru] at hj
    have hjne : ¬ j = id := by
      intro he; exact ((List.Nodup.mem_erase_iff hlnd).1 hj).1 (by rw [he])
    obtain ⟨fj, hfj, hfjfd⟩ := hmem j (((List.Nodup.mem_erase_iff hlnd).1 hj).2)
    exact ⟨fj, by rw [fileClose_get_ne c id j hjne]; exact hfj, hfjfd⟩
  · intro j fj hfj hfjfd
    rw [fileClose_lru]
    by_cases hjne : j = id
    · cases hg : cacheGet c id with
      | none =>
        have hnone : cacheGet (bftwFileClose c id) id = none := by
          simp only [bftwFileClose, bftwCacheRemove, hg]
          simpa [hg] using cacheGet_lruRemove c id id
        rw [hjne, hnone] at hfj
        cases hfj
      | some f0 =>
        rw [hjne, fileClose_get_self c id f0 hg] at hfj
        cases hfj
        simp at hfjfd
    · rw [fileClose_get_ne c id j hjne] at hfj
      rw [List.Nodup.mem_erase_iff hlnd]
      have := hinv j fj hfj hfjfd
      constructor
      · intro hc; exact this.1 hc.2
      · intro hc; exact ⟨hjne, this.2 hc⟩
  · rw [fileClose_lru]
    intro hc
    exact absurd ((List.Nodup.mem_erase_iff hlnd).1 hc).1 (by simp)

theorem cacheWF_capacity (c : BftwCache) (x : Nat) (hwf : cacheWF c) :
    cacheWF { c with capacity := x } := hwf

theorem cacheWF_open (c : BftwCache) (id : Nat) (f : CacheFile) (fd : Nat)
    (hwf : cacheWF c) (hget : cacheGet c id = some f) (hfd : f.fd = none)
    (hp : f.pincount = 0) : cacheWF (cacheOpen c id fd) := by
  obtain ⟨hkeys, hlnd, hmem, hinv⟩ := hwf
  have hnid : id ∉ c.lru := by
    intro hc
    obtain ⟨fj, hfj, hfjfd⟩ := hmem id hc
    rw [hget] at hfj; cases hfj; exact hfjfd hfd
  simp only [cacheOpen, hget]
  set f1 : CacheFile := { f with fd := some fd } with hf1
  set c1 := cacheSet c id f1 with hc1
  have hg1self : cacheGet c1 id = some f1 := cacheGet_cacheSet_self c id f1 f hget
  have hg1ne : ∀ j, ¬ j = id → cacheGet c1 j = cacheGet c j := fun j hj =>
    cacheGet_cacheSet_ne c id j f1 hj
  have hc1lru : c1.lru = c.lru := by rw [hc1, cacheSet_lru]
  have hc1keys : c1.files.map Prod.fst = c.files.map Prod.fst := by rw [hc1, cacheSet_keys]
  by_cases hcap : c1.capacity = 0
  · cases htl : c1.lru.getLast? with
    | none =>
      have hadd : bftwCacheAdd c1 id = .error EMFILE := by
        simp [bftwCacheAdd, hcap, bftwCachePop, htl]
      rw [hadd]
      have hempty : c.lru = [] := by
        rw [← hc1lru]; exact List.getLast?_eq_none_iff.mp htl
      have hlru3 : (bftwFileClose c1 id).lru = [] := by
        rw [fileClose_lru, hc1lru, hempty]; rfl
      refine ⟨?_, ?_, ?_, ?_⟩
      · rw [fileClose_keys, hc1keys]; exact hkeys
      · rw [hlru3]; exact List.nodup_nil
      · intro j hj; rw [hlru3] at hj; cases hj
      · intro j fj hfj hfjfd
        rw [hlru3]
        by_cases hjne : j = id
        · rw [hjne, fileClose_get_self c1 id f1 hg1self] at hfj
          cases hfj
          simp at hfjfd
        · rw [fileClose_get_ne c1 id j hjne, hg1ne j hjne] at hfj
          have := hinv j fj hfj hfjfd
          rw [hempty] at this
          simpa using this
    | some tail =>
      have htmem : tail ∈ c.lru := by
        rw [← hc1lru]
        obtain ⟨h, heq⟩ := List.mem_getLast?_eq_getLast (show tail ∈ c1.lru.getLast? from htl)
        rw [heq]
        exact List.getLast_mem h
      have htne : ¬ tail = id := fun he => hnid (he ▸ htmem)
      have hidtl : ¬ id = tail := fun he => htne he.symm
      obtain ⟨ftail, hftail, hftailfd⟩ := hmem tail htmem
      have hadd : bftwCacheAdd c1 id =
          .ok (bftwLruAdd { bftwFileClose c1 tail with
            capacity := (bftwFileClose c1 tail).capacity - 1 } id) := by
        simp [bftwCacheAdd, hcap, bftwCachePop, htl]
      rw [hadd]
      set c3 := bftwFileClose c1 tail with hc3
      set c4 : BftwCache := { c3 with capacity := c3.capacity - 1 } with hc4
      have hg4id : cacheGet c4 id = some f1 := by
        have : cacheGet c3 id = cacheGet c1 id := fileClose_get_ne c1 tail id hidtl
        rw [hg1self] at this
        exact this
      have hg4tail : cacheGet c4 tail = some { ftail with fd := none, hasDir := false } := by
        have h1 : cacheGet c1 tail = cacheGet c tail := hg1ne tail htne
        exact fileClose_get_self c1 tail ftail (by rw [h1]; exact hftail)
      have hg4ne : ∀ j, ¬ j = id → ¬ j = tail → cacheGet c4 j = cacheGet c j := by
        intro j hj ht
        have h1 : cacheGet c3 j = cacheGet c1 j := fileClose_get_ne c1 tail j ht
        rw [hg1ne j hj] at h1
        exact h1
      have hc4lru : c4.lru = c.lru.erase tail := by
        rw [hc4]
        show c3.lru = c.lru.erase tail
        rw [hc3, fileClose_lru, hc1lru]
      have hnid4 : id ∉ c4.lru := fun hc =>
        hnid (List.mem_of_mem_erase (hc4lru ▸ hc))
      have hlruF : (bftwLruAdd c4 id).lru = lruInsertAfter (c.lru.erase tail) c4.target id := by
        rw [lruAdd_lru, hc4lru]
      refine ⟨?_, ?_, ?_, ?_⟩
      · rw [lruAdd_files]
        show (c3.files.map Prod.fst).Nodup
        rw [hc3, fileClose_keys, hc1keys]; exact hkeys
      · rw [hlruF]
        exact nodup_lruInsertAfter _ c4.target id (hlnd.erase tail) (fun hc => hnid (List.mem_of_mem_erase hc))
      · intro j hj
        rw [hlruF, mem_lruInsertAfter] at hj
        rcases hj with rfl | hj
        · exact ⟨f1, by rw [cacheGet_lruAdd]; exact hg4id, by simp [hf1]⟩
        · have hjt : ¬ j = tail := fun he =>
            ((List.Nodup.mem_erase_iff hlnd).1 hj).1 (by rw [he])
          have hjl : j ∈ c.lru := ((List.Nodup.mem_erase_iff hlnd).1 hj).2
          have hjid : ¬ j = id := fun he => hnid (he ▸ hjl)
          obtain ⟨fj, hfj, hfjfd⟩ := hmem j hjl
          exact ⟨fj, by rw [cacheGet_lruAdd, hg4ne j hjid hjt]; exact hfj, hfjfd⟩
      · intro j fj hfj hfjfd
        rw [cacheGet_lruAdd] at hfj
        rw [hlruF, mem_lruInsertAfter]
        by_cases hjid : j = id
        · rw [hjid, hg4id] at hfj
          cases hfj
          rw [hjid]
          simp [hf1, hp]
        · by_cases hjt : j = tail
          · rw [hjt, hg4tail] at hfj
            cases hfj
            simp at hfjfd
          · rw [hg4ne j hjid hjt] at hfj
            have := hinv j fj hfj hfjfd
            rw [List.Nodup.mem_erase_iff hlnd]
            constructor
            · rintro (he | hc)
              · exact absurd he hjid
              · exact this.1 hc.2
            · intro hc; exact Or.inr ⟨hjt, this.2 hc⟩
  · have hadd : bftwCacheAdd c1 id =
        .ok (bftwLruAdd { c1 with capacity := c1.capacity - 1 } id) := by
      simp [bftwCacheAdd, hcap]
    rw [hadd]
    set c2 : BftwCache := { c1 with capacity := c1.capacity - 1 } with hc2
    have hg2 : ∀ j, cacheGet c2 j = cacheGet c1 j := fun j => rfl
    have hc2lru : c2.lru = c.lru := hc1lru
    have hlruF : (bftwLruAdd c2 id).lru = lruInsertAfter c.lru c2.target id := by
      rw [lruAdd_lru, hc2lru]
    refine ⟨?_, ?_, ?_, ?_⟩
    · rw [lruAdd_files]
      show (c1.files.map Prod.fst).Nodup
      rw [hc1keys]; exact hkeys
    · rw [hlruF]; exact nodup_lruInsertAfter _ c2.target id hlnd hnid
    · intro j hj
      rw [hlruF, mem_lruInsertAfter] at hj
      rcases hj with rfl | hj
      · exact ⟨f1, by rw [cacheGet_lruAdd, hg2, hg1self], by simp [hf1]⟩
      · have hjid : ¬ j = id := fun he => hnid (he ▸ hj)
        obtain ⟨fj, hfj, hfjfd⟩ := hmem j hj
        exact ⟨fj, by rw [cacheGet_lruAdd, hg2, hg1ne j hjid]; exact hfj, hfjfd⟩
    · intro j fj hfj hfjfd
      rw [cacheGet_lruAdd, hg2] at hfj
      rw [hlruF, mem_lruInsertAfter]
      by_cases hjid : j = id
      · rw [hjid, hg1self] at hfj
        cases hfj
        rw [hjid]
        simp [hf1, hp]
      · rw [hg1ne j hjid] at hfj
        have := hinv j fj hfj hfjfd
        constructor
        · rintro (he | hc)
          · exact absurd he hjid
          · exact this.1 hc
        · intro hc; exact Or.inr (this.2 hc)

/-- C8: a record holding an open descriptor is on the LRU list exactly
when its pincount is zero (invariant cacheWF), and every operation that
touches that state preserves the invariant: pin takes the record off the
list when the count leaves zero, unpin re-inserts it when the count
returns to zero, bftw_close unlinks it at the same moment the descriptor
is cleared, and installing a fresh descriptor adds it to the list. -/
theorem C8_lru_invariant (c : BftwCache) (id : Nat) (f : CacheFile)
    (hwf : cacheWF c) (hget : cacheGet c id = some f) :
    (f.fd ≠ none →
      cacheWF (bftwCachePin c id) ∧ id ∉ (bftwCachePin c id).lru) ∧
    (f.fd ≠ none → 0 < f.pincount →
      cacheWF (bftwCacheUnpin c id) ∧
      (f.pincount = 1 → id ∈ (bftwCacheUnpin c id).lru)) ∧
    (cacheWF (bftwClose c id) ∧ id ∉ (bftwClose c id).lru ∧
      cacheGet (bftwClose c id) id = some { f with fd := none, hasDir := false }) ∧
    (∀ fd, f.fd = none → f.pincount = 0 → cacheWF (cacheOpen c id fd)) :=
  ⟨fun hfd => cacheWF_pin c id f hwf hget hfd,
   fun hfd hp => cacheWF_unpin c id f hwf hget hfd hp,
   cacheWF_close c id f hwf hget,
   fun fd hfd hp => cacheWF_open c id f fd hwf hget hfd hp⟩

theorem exCache1_wf : cacheWF exCache1 := by
  refine ⟨by decide, by decide, ?_, ?_⟩
  · intro j hj
    have hj0 : j = 0 := by simpa [exCache1] using hj
    subst hj0
    exact ⟨{ fd := some 3, hasDir := false, pincount := 0, depth := 1 }, by decide, by decide⟩
  · intro j fj hfj hfd
    cases j with
    | zero =>
      have h0 : cacheGet exCache1 0 =
          some { fd := some 3, hasDir := false, pincount := 0, depth := 1 } := by decide
      rw [h0] at hfj
      cases hfj
      simp [exCache1]
    | succ n =>
      have hn : cacheGet exCache1 (n + 1) = none := by
        simp [exCache1, cacheGet]
      rw [hn] at hfj
      cases hfj

/-- Witness for C8: pinning the only open record of a concrete well
formed cache keeps the invariant and removes it from the LRU list. -/
theorem C8_witness :
    cacheWF (bftwCachePin exCache1 0) ∧ 0 ∉ (bftwCachePin exCache1 0).lru := by
  exact (C8_lru_invariant exCache1 0 { fd := some 3, hasDir := false, pincount := 0, depth := 1 }
    exCache1_wf (by decide)).1 (by decide)

theorem lruRemove_capacity (c : BftwCache) (id : Nat) :
    (bftwLruRemove c id).capacity = c.capacity := by
  simp only [bftwLruRemove]
  split <;> rfl

theorem lruAdd_capacity (c : BftwCache) (id : Nat) :
    (bftwLruAdd c id).capacity = c.capacity := by
  simp only [bftwLruAdd]
  cases h : cacheGet { c with lru := lruInsertAfter c.lru c.target id } id
  · rfl
  · split
    · split <;> rfl
    · rfl

theorem fileClose_capacity (c : BftwCache) (id : Nat) :
    (bftwFileClose c id).capacity = c.capacity + 1 := by
  simp only [bftwFileClose, bftwCacheRemove]
  cases h : cacheGet c id
  · simp [lruRemove_capacity]
  · simp [lruRemove_capacity, cacheSet_capacity]

theorem cap_le_applyEvent (c : BftwCache) (ev : IoqEvent) :
    c.capacity ≤ (cacheApplyEvent c ev).capacity := by
  cases ev with
  | close => simp [cacheApplyEvent]
  | closedir => simp [cacheApplyEvent]
  | opendirFail => simp [cacheApplyEvent]
  | statDone => simp [cacheApplyEvent]
  | opendirOk id =>
    simp only [cacheApplyEvent]
    cases h : cacheGet { c with capacity := c.capacity + 1 } id with
    | none => simp
    | some f =>
      simp only []
      by_cases hfd : f.fd = none
      · rw [if_pos hfd]
        have hcap : (cacheSet { c with capacity := c.capacity + 1 } id
            { f with fd := some 0, hasDir := true }).capacity = c.capacity + 1 := by
          rw [cacheSet_capacity]
        rw [bftwCacheAdd, hcap]
        rw [if_neg (by omega)]
        simp only []
        rw [lruAdd_capacity]
        simp [hcap]
      · rw [if_neg hfd, cacheSet_capacity]
        simp

theorem drainAll_cap_mono (l : List IoqEvent) (c : BftwCache) :
    c.capacity ≤ (cacheDrainAll c l).capacity := by
  induction l generalizing c with
  | nil => exact Nat.le_refl _
  | cons ev rest ih =>
    calc c.capacity ≤ (cacheApplyEvent c ev).capacity := cap_le_applyEvent c ev
    _ ≤ (cacheDrainAll (cacheApplyEvent c ev) rest).capacity := ih _

theorem drainLoop_of_all_zero (l : List IoqEvent) (c : BftwCache)
    (h : (cacheDrainAll c l).capacity = 0) :
    cacheDrainLoop c l = (cacheDrainAll c l, []) := by
  induction l generalizing c with
  | nil => rfl
  | cons ev rest ih =>
    have h1 : (cacheDrainAll (cacheApplyEvent c ev) rest).capacity = 0 := h
    have h2 : (cacheApplyEvent c ev).capacity = 0 := by
      have := drainAll_cap_mono rest (cacheApplyEvent c ev)
      omega
    simp only [cacheDrainLoop, cacheDrainAll, h2]
    rw [if_neg (by omega)]
    exact ih _ h1

theorem drainLoop_cap_pos (l : List IoqEvent) (c : BftwCache)
    (h : 0 < (cacheDrainAll c l).capacity) (h0 : c.capacity = 0) :
    0 < (cacheDrainLoop c l).1.capacity := by
  induction l generalizing c with
  | nil => simp [cacheDrainAll] at h; omega
  | cons ev rest ih =>
    by_cases h1 : 0 < (cacheApplyEvent c ev).capacity
    · simp only [cacheDrainLoop]
      rw [if_pos h1]
      exact h1
    · simp only [cacheDrainLoop]
      rw [if_neg h1]
      exact ih _ h (by omega)

theorem cachePop_none_iff (c : BftwCache) :
    bftwCachePop c = none ↔ c.lru = [] := by
  simp only [bftwCachePop]
  cases h : c.lru.getLast? with
  | none => simp [List.getLast?_eq_none_iff.mp h]
  | some t =>
    simp only []
    constructor
    · intro hc; cases hc
    · intro hc; rw [hc] at h; cases h

theorem cachePop_cap (c c2 : BftwCache) (h : bftwCachePop c = some c2) :
    0 < c2.capacity := by
  simp only [bftwCachePop] at h
  cases htl : c.lru.getLast? with
  | none => rw [htl] at h; cases h
  | some t =>
    rw [htl] at h
    cases h
    rw [fileClose_capacity]
    omega

/-- C7: bftw_cache_reserve fails, with EMFILE, exactly when the cache has
no capacity, draining every pending ioq completion frees none, and the
LRU list is then empty (everything pinned); in every other case it
returns success with at least one free slot. -/
theorem C7_cache_reserve (c : BftwCache) (pending : List IoqEvent) :
    (bftwCacheReserve c pending = .error EMFILE ↔
      c.capacity = 0 ∧ (cacheDrainAll c pending).capacity = 0 ∧
        (cacheDrainAll c pending).lru = []) ∧
    (∀ e, bftwCacheReserve c pending = .error e → e = EMFILE) ∧
    (∀ c2, bftwCacheReserve c pending = .ok c2 → 0 < c2.capacity) := by
  refine ⟨⟨?_, ?_⟩, ?_, ?_⟩
  · intro herr
    simp only [bftwCacheReserve] at herr
    by_cases hc : 0 < c.capacity
    · rw [if_pos hc] at herr; cases herr
    · rw [if_neg hc] at herr
      have h0 : c.capacity = 0 := by omega
      refine ⟨h0, ?_, ?_⟩
      all_goals {
        by_cases hall : (cacheDrainAll c pending).capacity = 0
        · have hloop := drainLoop_of_all_zero pending c hall
          rw [hloop] at herr
          simp only [] at herr
          by_cases hl : 0 < (cacheDrainAll c pending).capacity
          · omega
          · rw [if_neg hl] at herr
            cases hpop : bftwCachePop (cacheDrainAll c pending) with
            | none =>
              first
              | exact hall
              | exact (cachePop_none_iff _).mp hpop
            | some c3 => rw [hpop] at herr; cases herr
        · have hl := drainLoop_cap_pos pending c (by omega) h0
          rw [if_pos hl] at herr
          cases herr
      }
  · rintro ⟨h0, hall, hlru⟩
    simp only [bftwCacheReserve]
    rw [if_neg (by omega)]
    have hloop := drainLoop_of_all_zero pending c hall
    rw [hloop]
    simp only []
    rw [if_neg (by omega)]
    have hpop : bftwCachePop (cacheDrainAll c pending) = none :=
      (cachePop_none_iff _).mpr hlru
    rw [hpop]
  · intro e herr
    simp only [bftwCacheReserve] at herr
    by_cases hc : 0 < c.capacity
    · rw [if_pos hc] at herr; cases herr
    · rw [if_neg hc] at herr
      by_cases hl : 0 < (cacheDrainLoop c pending).1.capacity
      · rw [if_pos hl] at herr; cases herr
      · rw [if_neg hl] at herr
        cases hpop : bftwCachePop (cacheDrainLoop c pending).1 with
        | none => rw [hpop] at herr; cases herr; rfl
        | some c3 => rw [hpop] at herr; cases herr
  · intro c2 hok
    simp only [bftwCacheReserve] at hok
    by_cases hc : 0 < c.capacity
    · rw [if_pos hc] at hok; cases hok; exact hc
    · rw [if_neg hc] at hok
      by_cases hl : 0 < (cacheDrainLoop c pending).1.capacity
      · rw [if_pos hl] at hok; cases hok; exact hl
      · rw [if_neg hl] at hok
        cases hpop : bftwCachePop (cacheDrainLoop c pending).1 with
        | none => rw [hpop] at hok; cases hok
        | some c3 =>
          rw [hpop] at hok
          cases hok
          exact cachePop_cap _ _ hpop

/-- Witness for C7: a fully pinned zero-capacity cache fails with EMFILE,
and a cache with an evictable record succeeds. -/
theorem C7_witness :
    bftwCacheReserve exCachePinned [] = .error EMFILE ∧
    (∀ c2, bftwCacheReserve exCache1 [] = .ok c2 → 0 < c2.capacity) ∧
    ¬ bftwCacheReserve exCache1 [] = .error EMFILE := by
  refine ⟨(C7_cache_reserve exCachePinned []).1.2 ⟨by decide, by decide, by decide⟩,
    (C7_cache_reserve exCache1 []).2.2,
    fun h => absurd ((C7_cache_reserve exCache1 []).1.1 h).2.2 (by decide)⟩

/-- C3 counterexample: without BFTW_RECOVER, a per-entry stat failure on
the first root terminates the walk before the second root is ever
visited; the callback never returned STOP (it was never invoked), yet the
walk returns -1 with the errno of the failed entry. -/
theorem C3_counterexample :
    bftwWalkModel exFlags0 exCbCont exErrRoots () = (-1, [], EACCES) := by
  decide

/-- C1 counterexample: with BFTW_POST_ORDER set, the regular file a/b is
reachable and PRE-visited exactly once, but it is never POST-visited:
only directories that were descended into receive POST visits. -/
theorem C1_counterexample :
    (prePaths (bftwWalkModel exFlagsPost exCbCont exPostRoots ()).2.1).count ["a", "b"] = 1 ∧
    (postPaths (bftwWalkModel exFlagsPost exCbCont exPostRoots ()).2.1).count ["a", "b"] = 0 ∧
    (postPaths (bftwWalkModel exFlagsPost exCbCont exPostRoots ()).2.1).count ["a"] = 1 := by
  decide

theorem one_le_treeSize (t : FSTree) : 1 ≤ treeSize t := by
  cases t with
  | node info cs => simp [treeSize]

theorem callBack_frame {σ : Type} (flags : BftwFlags) (cb : σ → Ftwbuf → CbRet × σ)
    (st : WalkState σ) (path : List String) (depth : Nat) (typ0 : BfsType)
    (statRes : Except Nat StatInfo) (direrror : Nat)
    (ancestors : List (Nat × Nat)) (visit : BftwVisit) :
    (bftwCallBack flags cb st path depth typ0 statRes direrror ancestors visit).2.2.dirq = st.dirq ∧
    (bftwCallBack flags cb st path depth typ0 statRes direrror ancestors visit).2.2.store = st.store ∧
    (bftwCallBack flags cb st path depth typ0 statRes direrror ancestors visit).2.2.nextId = st.nextId := by
  simp only [bftwCallBack]
  rcases hcb : cb st.user (bftwInitFtwbuf flags visit path depth typ0 statRes direrror ancestors)
    with ⟨r, u⟩
  cases r <;> split_ifs <;> simp [hcb]

theorem callBack_no_stop {σ : Type} (flags : BftwFlags) (cb : σ → Ftwbuf → CbRet × σ)
    (st : WalkState σ) (path : List String) (depth : Nat) (typ0 : BfsType)
    (statRes : Except Nat StatInfo) (direrror : Nat)
    (ancestors : List (Nat × Nat)) (visit : BftwVisit)
    (hrec : flags.recover = true)
    (htame : ∀ u b, (cb u b).1 = CbRet.cont ∨ (cb u b).1 = CbRet.prune) :
    ¬ (bftwCallBack flags cb st path depth typ0 statRes direrror ancestors visit).1 = .stop ∧
    (bftwCallBack flags cb st path depth typ0 statRes direrror ancestors visit).2.2.error = st.error := by
  simp only [bftwCallBack]
  rcases hcb : cb st.user (bftwInitFtwbuf flags visit path depth typ0 statRes direrror ancestors)
    with ⟨r, u⟩
  have hr := htame st.user (bftwInitFtwbuf flags visit path depth typ0 statRes direrror ancestors)
  rw [hcb] at hr
  rcases hr with hr | hr <;> subst hr <;> split_ifs with h1 h2 <;>
    simp_all [hrec, hcb]

theorem visitOne_no_abort {σ : Type} (flags : BftwFlags) (cb : σ → Ftwbuf → CbRet × σ)
    (st : WalkState σ) (cur : Option QEnt) (name : String) (ctree : FSTree)
    (hrec : flags.recover = true)
    (htame : ∀ u b, (cb u b).1 = CbRet.cont ∨ (cb u b).1 = CbRet.prune) :
    (bftwVisitOne flags cb st cur name ctree).1 = false ∧
    (bftwVisitOne flags cb st cur name ctree).2.error = st.error ∧
    ((bftwVisitOne flags cb st cur name ctree).2.dirq = st.dirq ∨
      ∃ q, (bftwVisitOne flags cb st cur name ctree).2.dirq = st.dirq ++ [q] ∧
        q.tree = ctree) := by
  cases cur with
  | none =>
    simp only [bftwVisitOne]
    rcases hc : bftwCallBack flags cb st [name] 0 .unknown ctree.info.stat 0 [] .pre
      with ⟨act, buf, st2⟩
    have hframe := callBack_frame flags cb st [name] 0 .unknown ctree.info.stat 0 [] .pre
    have hns := callBack_no_stop flags cb st [name] 0 .unknown ctree.info.stat 0 [] .pre hrec htame
    rw [hc] at hframe hns
    cases act with
    | stop => exact absurd rfl hns.1
    | prune => exact ⟨rfl, hns.2, Or.inl hframe.1⟩
    | cont =>
      refine ⟨rfl, hns.2,
        Or.inr ⟨{ id := st2.nextId, path := [name], depth := 0, tree := ctree }, ?_, rfl⟩⟩
      show st2.dirq ++ [({ id := st2.nextId, path := [name], depth := 0, tree := ctree } : QEnt)] = _
      rw [show st2.dirq = st.dirq from hframe.1]
  | some d =>
    simp only [bftwVisitOne]
    rcases hc : bftwCallBack flags cb st (d.path ++ [name]) (d.depth + 1) ctree.info.hint
      ctree.info.stat 0 (devinoChain st.store (d.depth + 1) (some d.id)) .pre
      with ⟨act, buf, st2⟩
    have hframe := callBack_frame flags cb st (d.path ++ [name]) (d.depth + 1) ctree.info.hint
      ctree.info.stat 0 (devinoChain st.store (d.depth + 1) (some d.id)) .pre
    have hns := callBack_no_stop flags cb st (d.path ++ [name]) (d.depth + 1) ctree.info.hint
      ctree.info.stat 0 (devinoChain st.store (d.depth + 1) (some d.id)) .pre hrec htame
    rw [hc] at hframe hns
    cases act with
    | stop => exact absurd rfl hns.1
    | prune => exact ⟨rfl, hns.2, Or.inl hframe.1⟩
    | cont =>
      refine ⟨rfl, hns.2,
        Or.inr ⟨({ id := st2.nextId, path := d.path ++ [name], depth := d.depth + 1, tree := ctree } : QEnt), ?_, rfl⟩⟩
      show st2.dirq ++ [({ id := st2.nextId, path := d.path ++ [name], depth := d.depth + 1, tree := ctree } : QEnt)] = _
      rw [show st2.dirq = st.dirq from hframe.1]

theorem visitChildren_no_abort {σ : Type} (flags : BftwFlags) (cb : σ → Ftwbuf → CbRet × σ)
    (hrec : flags.recover = true)
    (htame : ∀ u b, (cb u b).1 = CbRet.cont ∨ (cb u b).1 = CbRet.prune) :
    ∀ (cs : List (String × FSTree)) (st : WalkState σ) (d : QEnt),
    (bftwVisitChildren flags cb st d cs).1 = false ∧
    (bftwVisitChildren flags cb st d cs).2.error = st.error ∧
    ∃ extra, (bftwVisitChildren flags cb st d cs).2.dirq = st.dirq ++ extra ∧
      (extra.map fun q => treeSize q.tree).sum ≤ forestSize cs := by
  intro cs
  induction cs with
  | nil =>
    intro st d
    exact ⟨rfl, rfl, [], by simp [bftwVisitChildren], by simp [forestSize]⟩
  | cons hd rest ih =>
    intro st d
    obtain ⟨n, c⟩ := hd
    obtain ⟨h1, h2, h3⟩ := visitOne_no_abort flags cb st (some d) n c hrec htame
    simp only [bftwVisitChildren]
    rcases hv : bftwVisitOne flags cb st (some d) n c with ⟨ab, st2⟩
    rw [hv] at h1 h2 h3
    simp only [] at h1 h2 h3
    subst h1
    obtain ⟨g1, g2, g3, g4, g5⟩ := ih st2 d
    refine ⟨g1, by rw [g2, h2], ?_⟩
    rcases h3 with h3 | ⟨q, h3, hq⟩
    · refine ⟨g3, ?_, ?_⟩
      · rw [g4, h3]
      · refine le_trans g5 ?_
        have : forestSize ((n, c) :: rest) = treeSize c + forestSize rest := rfl
        omega
    · refine ⟨q :: g3, ?_, ?_⟩
      · rw [g4, h3]; simp
      · have hfs : forestSize ((n, c) :: rest) = treeSize c + forestSize rest := rfl
        have hmap : ((q :: g3).map fun x => treeSize x.tree).sum =
            treeSize q.tree + (g3.map fun x => treeSize x.tree).sum := by
          simp
        rw [hmap, hq, hfs]
        omega


theorem gcCascade_frame {σ : Type} (flags : BftwFlags) (cb : σ → Ftwbuf → CbRet × σ)
    (hrec : flags.recover = true)
    (htame : ∀ u b, (cb u b).1 = CbRet.cont ∨ (cb u b).1 = CbRet.prune) :
    ∀ (fuel : Nat) (start : Option Nat) (first : Bool) (g : GCFlags) (ret : Int)
      (st : WalkState σ),
    (bftwGcCascade flags cb fuel start first g ret st).1 = ret ∧
    (bftwGcCascade flags cb fuel start first g ret st).2.error = st.error ∧
    (bftwGcCascade flags cb fuel start first g ret st).2.dirq = st.dirq := by
  intro fuel
  induction fuel with
  | zero =>
    intro start first g ret st
    cases start <;> exact ⟨rfl, rfl, rfl⟩
  | succ n ih =>
    intro start first g ret st
    cases start with
    | none => exact ⟨rfl, rfl, rfl⟩
    | some id =>
      simp only [bftwGcCascade]
      rcases hg : storeGet st.store id with _ | r
      · exact ⟨rfl, rfl, rfl⟩
      · simp only []
        by_cases h1 : r.refcount - 1 > 0
        · rw [if_pos h1]
          exact ⟨rfl, rfl, rfl⟩
        · rw [if_neg h1]
          by_cases hfb : (if first = true then g.file else g.parents) = true
          · rw [if_pos hfb]
            rcases hc : bftwCallBack flags cb st r.path r.depth r.typ r.info.stat 0
              (devinoChain st.store r.depth r.parent) .post with ⟨act, buf, st2⟩
            have hns := callBack_no_stop flags cb st r.path r.depth r.typ r.info.stat 0
              (devinoChain st.store r.depth r.parent) .post hrec htame
            have hframe := callBack_frame flags cb st r.path r.depth r.typ r.info.stat 0
              (devinoChain st.store r.depth r.parent) .post
            rw [hc] at hns hframe
            cases act with
            | stop => exact absurd rfl hns.1
            | cont =>
              simp only []
              obtain ⟨i1, i2, i3⟩ := ih r.parent false g ret
                { st2 with store := storeRemove st2.store id }
              exact ⟨i1, i2.trans hns.2, i3.trans hframe.1⟩
            | prune =>
              simp only []
              obtain ⟨i1, i2, i3⟩ := ih r.parent false g ret
                { st2 with store := storeRemove st2.store id }
              exact ⟨i1, i2.trans hns.2, i3.trans hframe.1⟩
          · rw [if_neg hfb]
            simp only []
            obtain ⟨i1, i2, i3⟩ := ih r.parent false g ret
              { st with store := storeRemove st.store id }
            exact ⟨i1, i2, i3⟩

theorem gc_frame {σ : Type} (flags : BftwFlags) (cb : σ → Ftwbuf → CbRet × σ)
    (hrec : flags.recover = true)
    (htame : ∀ u b, (cb u b).1 = CbRet.cont ∨ (cb u b).1 = CbRet.prune)
    (st : WalkState σ) (d : QEnt) (e : Nat) :
    (bftwGc flags cb st d e gcAll).1 = 0 ∧
    (bftwGc flags cb st d e gcAll).2.error = st.error ∧
    (bftwGc flags cb st d e gcAll).2.dirq = st.dirq := by
  have hge : gcAll.error = true := rfl
  simp only [bftwGc]
  by_cases he : e ≠ 0
  · rw [if_pos he, if_pos hge]
    rcases hs : storeGet st.store d.id with _ | r
    · simp only []
      exact gcCascade_frame flags cb hrec htame (d.depth + 1) (some d.id) true gcAll 0 st
    · simp only []
      rcases hc : bftwCallBack flags cb st r.path r.depth r.typ r.info.stat e
        (devinoChain st.store r.depth r.parent) .pre with ⟨act, buf, st2⟩
      have hns := callBack_no_stop flags cb st r.path r.depth r.typ r.info.stat e
        (devinoChain st.store r.depth r.parent) .pre hrec htame
      have hframe := callBack_frame flags cb st r.path r.depth r.typ r.info.stat e
        (devinoChain st.store r.depth r.parent) .pre
      rw [hc] at hns hframe
      cases act with
      | stop => exact absurd rfl hns.1
      | cont =>
        simp only []
        obtain ⟨i1, i2, i3⟩ :=
          gcCascade_frame flags cb hrec htame (d.depth + 1) (some d.id) true gcAll 0 st2
        exact ⟨i1, i2.trans hns.2, i3.trans hframe.1⟩
      | prune =>
        simp only []
        obtain ⟨i1, i2, i3⟩ :=
          gcCascade_frame flags cb hrec htame (d.depth + 1) (some d.id) true gcAll 0 st2
        exact ⟨i1, i2.trans hns.2, i3.trans hframe.1⟩
  · rw [if_neg he]
    simp only []
    exact gcCascade_frame flags cb hrec htame (d.depth + 1) (some d.id) true gcAll 0 st

theorem processDir_no_abort {σ : Type} (flags : BftwFlags) (cb : σ → Ftwbuf → CbRet × σ)
    (hrec : flags.recover = true)
    (htame : ∀ u b, (cb u b).1 = CbRet.cont ∨ (cb u b).1 = CbRet.prune)
    (st : WalkState σ) (d : QEnt) :
    (bftwProcessDir flags cb st d).1 = false ∧
    (bftwProcessDir flags cb st d).2.error = st.error ∧
    ∃ extra, (bftwProcessDir flags cb st d).2.dirq = st.dirq ++ extra ∧
      (extra.map fun q => treeSize q.tree).sum ≤ forestSize d.tree.children := by
  simp only [bftwProcessDir]
  rcases ho : d.tree.info.openErr with _ | e
  · simp only []
    obtain ⟨v1, v2, extra, v3, v4⟩ := visitChildren_no_abort flags cb hrec htame
      d.tree.children st d
    rcases hv : bftwVisitChildren flags cb st d d.tree.children with ⟨ab, st2⟩
    rw [hv] at v1 v2 v3
    simp only [] at v1 v2 v3
    subst v1
    simp only []
    obtain ⟨g1, g2, g3⟩ := gc_frame flags cb hrec htame st2 d 0
    rcases hgc : bftwGc flags cb st2 d 0 gcAll with ⟨ret, st3⟩
    rw [hgc] at g1 g2 g3
    simp only [] at g1 g2 g3
    subst g1
    exact ⟨by simp, g2.trans v2, extra, g3.trans v3, v4⟩
  · simp only []
    obtain ⟨g1, g2, g3⟩ := gc_frame flags cb hrec htame st d e
    rcases hgc : bftwGc flags cb st d e gcAll with ⟨ret, st3⟩
    rw [hgc] at g1 g2 g3
    simp only [] at g1 g2 g3
    subst g1
    exact ⟨by simp, g2, [], by simp [g3], by simp⟩

theorem implLoop_no_abort {σ : Type} (flags : BftwFlags) (cb : σ → Ftwbuf → CbRet × σ)
    (hrec : flags.recover = true)
    (htame : ∀ u b, (cb u b).1 = CbRet.cont ∨ (cb u b).1 = CbRet.prune) :
    ∀ (fuel : Nat) (st : WalkState σ), dirqMeasure st < fuel →
    (bftwImplLoop flags cb fuel st).1 = false ∧
    (bftwImplLoop flags cb fuel st).2.error = st.error := by
  intro fuel
  induction fuel with
  | zero =>
    intro st h
    exact absurd h (Nat.not_lt_zero _)
  | succ n ih =>
    intro st h
    simp only [bftwImplLoop]
    rcases hq : st.dirq with _ | ⟨d, rest⟩
    · exact ⟨rfl, rfl⟩
    · simp only []
      obtain ⟨p1, p2, extra, p3, p4⟩ := processDir_no_abort flags cb hrec htame
        { st with dirq := rest } d
      rcases hp : bftwProcessDir flags cb { st with dirq := rest } d with ⟨ab, st2⟩
      rw [hp] at p1 p2 p3
      simp only [] at p1 p2 p3
      subst p1
      simp only []
      have h1 : dirqMeasure st = treeSize d.tree + (rest.map fun q => treeSize q.tree).sum := by
        unfold dirqMeasure
        rw [hq]
        simp
      have h2 : dirqMeasure st2 =
          (rest.map fun q => treeSize q.tree).sum + (extra.map fun q => treeSize q.tree).sum := by
        unfold dirqMeasure
        rw [p3]
        simp
      have h3 : treeSize d.tree = 1 + forestSize d.tree.children := by
        cases d.tree
        rfl
      have hm : dirqMeasure st2 < n := by omega
      obtain ⟨i1, i2⟩ := ih st2 hm
      exact ⟨i1, i2.trans p2⟩

theorem seedRoots_no_abort {σ : Type} (flags : BftwFlags) (cb : σ → Ftwbuf → CbRet × σ)
    (hrec : flags.recover = true)
    (htame : ∀ u b, (cb u b).1 = CbRet.cont ∨ (cb u b).1 = CbRet.prune) :
    ∀ (roots : List (String × FSTree)) (st : WalkState σ),
    (bftwSeedRoots flags cb st roots).1 = false ∧
    (bftwSeedRoots flags cb st roots).2.error = st.error ∧
    ∃ extra, (bftwSeedRoots flags cb st roots).2.dirq = st.dirq ++ extra ∧
      (extra.map fun q => treeSize q.tree).sum ≤ forestSize roots := by
  intro roots
  induction roots with
  | nil =>
    intro st
    exact ⟨rfl, rfl, [], by simp [bftwSeedRoots], by simp [forestSize]⟩
  | cons hd rest ih =>
    intro st
    obtain ⟨n, c⟩ := hd
    obtain ⟨h1, h2, h3⟩ := visitOne_no_abort flags cb st none n c hrec htame
    simp only [bftwSeedRoots]
    rcases hv : bftwVisitOne flags cb st none n c with ⟨ab, st2⟩
    rw [hv] at h1 h2 h3
    simp only [] at h1 h2 h3
    subst h1
    obtain ⟨g1, g2, g3, g4, g5⟩ := ih st2
    refine ⟨g1, by rw [g2, h2], ?_⟩
    rcases h3 with h3 | ⟨q, h3, hq⟩
    · refine ⟨g3, ?_, ?_⟩
      · rw [g4, h3]
      · refine le_trans g5 ?_
        have : forestSize ((n, c) :: rest) = treeSize c + forestSize rest := rfl
        omega
    · refine ⟨q :: g3, ?_, ?_⟩
      · rw [g4, h3]; simp
      · have hfs : forestSize ((n, c) :: rest) = treeSize c + forestSize rest := rfl
        have hmap : ((q :: g3).map fun x => treeSize x.tree).sum =
            treeSize q.tree + (g3.map fun x => treeSize x.tree).sum := by
          simp
        rw [hmap, hq, hfs]
        omega

/-- C3 (amended): with BFTW_RECOVER set and a visitor that only returns
BFTW_CONTINUE or BFTW_PRUNE, per-entry filesystem errors (failed stats,
failed directory opens) never terminate the walk early: the engine loop
runs to completion without aborting, no errno is accumulated, and
bftw_walk returns 0. -/
theorem C3_amended_error_recovery {σ : Type} (flags : BftwFlags)
    (cb : σ → Ftwbuf → CbRet × σ) (roots : List (String × FSTree)) (u : σ)
    (hrec : flags.recover = true)
    (htame : ∀ v b, (cb v b).1 = CbRet.cont ∨ (cb v b).1 = CbRet.prune) :
    (bftwImpl flags cb roots (bftwInitState u)).1 = false ∧
    (bftwImpl flags cb roots (bftwInitState u)).2.error = 0 ∧
    (bftwWalkModel flags cb roots u).1 = 0 := by
  have key : (bftwImpl flags cb roots (bftwInitState u)).1 = false ∧
      (bftwImpl flags cb roots (bftwInitState u)).2.error = 0 := by
    obtain ⟨s1, s2, extra, s3, s4⟩ := seedRoots_no_abort flags cb hrec htame roots
      (bftwInitState u)
    simp only [bftwImpl]
    rcases hs : bftwSeedRoots flags cb (bftwInitState u) roots with ⟨ab, st2⟩
    rw [hs] at s1 s2 s3
    simp only [] at s1 s2 s3
    subst s1
    simp only []
    have hm : dirqMeasure st2 < forestSize roots + 1 := by
      have h2 : dirqMeasure st2 = (extra.map fun q => treeSize q.tree).sum := by
        unfold dirqMeasure
        rw [s3]
        simp [bftwInitState]
      omega
    obtain ⟨i1, i2⟩ := implLoop_no_abort flags cb hrec htame (forestSize roots + 1) st2 hm
    exact ⟨i1, i2.trans s2⟩
  refine ⟨key.1, key.2, ?_⟩
  have herr := key.2
  simp only [bftwWalkModel]
  rcases hi : bftwImpl flags cb roots (bftwInitState u) with ⟨ab2, stf⟩
  rw [hi] at herr
  simp only [] at herr ⊢
  simp [herr]

/-- Witness for C3 on concrete inputs: flags with BFTW_RECOVER, an
always-CONTINUE callback, and a root forest whose first root fails to
stat with EACCES. -/
theorem C3_amended_witness :
    exFlagsRec.recover = true ∧
    (bftwImpl exFlagsRec exCbCont exErrRoots (bftwInitState ())).1 = false ∧
    (bftwWalkModel exFlagsRec exCbCont exErrRoots ()).1 = 0 := by
  have h := C3_amended_error_recovery exFlagsRec exCbCont exErrRoots () rfl
    (fun v b => Or.inl rfl)
  exact ⟨rfl, h.1, h.2.2⟩

theorem initFtwbuf_fields (flags : BftwFlags) (visit : BftwVisit) (path : List String)
    (depth : Nat) (typ0 : BfsType) (statRes : Except Nat StatInfo) (direrror : Nat)
    (ancestors : List (Nat × Nat)) :
    (bftwInitFtwbuf flags visit path depth typ0 statRes direrror ancestors).depth = depth ∧
    (bftwInitFtwbuf flags visit path depth typ0 statRes direrror ancestors).visit = visit ∧
    (bftwInitFtwbuf flags visit path depth typ0 statRes direrror ancestors).path = path := by
  simp only [bftwInitFtwbuf]
  refine ⟨?_, ?_, ?_⟩ <;> (repeat' split) <;> rfl

theorem initFtwbuf_error_typ (flags : BftwFlags) (visit : BftwVisit) (path : List String)
    (depth : Nat) (typ0 : BfsType) (statRes : Except Nat StatInfo) (direrror : Nat)
    (ancestors : List (Nat × Nat)) (he : direrror ≠ 0) :
    (bftwInitFtwbuf flags visit path depth typ0 statRes direrror ancestors).typ = .error := by
  unfold bftwInitFtwbuf
  rw [if_pos he]

theorem idsCallback_calls {δ : Type} (p : IdsParams) (delegate : δ → Ftwbuf → CbRet × δ)
    (s : IdsState δ) (buf : Ftwbuf) :
    (idsCallback p delegate s buf).2.calls = s.calls ∨
    ∃ b, (idsCallback p delegate s buf).2.calls = s.calls ++ [b] ∧
      b.depth = buf.depth ∧ b.typ = buf.typ ∧
      (b.typ = .error → p.minDepth ≤ b.depth + 1) ∧
      (¬ b.typ = .error → p.minDepth ≤ b.depth) := by
  simp only [idsCallback]
  set b := if p.forceVisit = true then { buf with visit := p.visit } else buf with hb
  have hbd : b.depth = buf.depth := by
    rw [hb]; split <;> rfl
  have hbt : b.typ = buf.typ := by
    rw [hb]; split <;> rfl
  by_cases he : b.typ = .error
  · rw [if_pos he]
    by_cases hm : b.depth + 1 ≥ p.minDepth
    · rw [if_pos hm]
      rcases hd : delegate s.duser b with ⟨r, d2⟩
      simp only []
      exact Or.inr ⟨b, rfl, hbd, hbt, fun _ => hm, fun hne => absurd he hne⟩
    · rw [if_neg hm]
      exact Or.inl rfl
  · rw [if_neg he]
    by_cases hlt : b.depth < p.minDepth
    · rw [if_pos hlt]
      split <;> exact Or.inl rfl
    · rw [if_neg hlt]
      by_cases hpp : p.visit = .post ∧ b.path ∈ s.pruned
      · rw [if_pos hpp]
        exact Or.inl rfl
      · rw [if_neg hpp]
        by_cases hv : b.visit = p.visit
        · rw [if_pos hv]
          rcases hd : delegate s.duser b with ⟨r, d2⟩
          simp only []
          cases r <;> simp only [] <;>
            first
            | exact Or.inr ⟨b, rfl, hbd, hbt, fun habs => absurd habs he,
                fun _ => Nat.le_of_not_lt hlt⟩
            | (split <;>
                exact Or.inr ⟨b, rfl, hbd, hbt, fun habs => absurd habs he,
                  fun _ => Nat.le_of_not_lt hlt⟩)
        · rw [if_neg hv]
          simp only []
          split <;> exact Or.inl rfl

theorem idsCallback_cont_upper {δ : Type} (p : IdsParams) (delegate : δ → Ftwbuf → CbRet × δ)
    (s : IdsState δ) (buf : Ftwbuf)
    (hwin : p.minDepth < p.maxDepth)
    (hdir : buf.typ = .dir)
    (hc : (idsCallback p delegate s buf).1 = .cont) :
    buf.depth + 1 < p.maxDepth := by
  simp only [idsCallback] at hc
  set b := if p.forceVisit = true then { buf with visit := p.visit } else buf with hb
  have hbd : b.depth = buf.depth := by
    rw [hb]; split <;> rfl
  have hbt : b.typ = buf.typ := by
    rw [hb]; split <;> rfl
  have hbdir : b.typ = .dir := hbt.trans hdir
  have hne : ¬ b.typ = .error := by rw [hbdir]; exact fun h => nomatch h
  rw [if_neg hne] at hc
  by_cases hlt : b.depth < p.minDepth
  · omega
  · rw [if_neg hlt] at hc
    by_cases hpp : p.visit = .post ∧ b.path ∈ s.pruned
    · rw [if_pos hpp] at hc
      simp at hc
    · rw [if_neg hpp] at hc
      by_cases hv : b.visit = p.visit
      · rw [if_pos hv] at hc
        rcases hd : delegate s.duser b with ⟨r, d2⟩
        rw [hd] at hc
        simp only [] at hc
        cases r with
        | cont =>
          simp only [] at hc
          by_cases hmx : b.typ = .dir ∧ b.depth + 1 ≥ p.maxDepth
          · rw [if_pos hmx] at hc
            simp at hc
          · have : ¬ b.depth + 1 ≥ p.maxDepth := fun hge => hmx ⟨hbdir, hge⟩
            omega
        | prune =>
          simp only [] at hc
          split at hc <;> simp at hc
        | stop => simp at hc
        | invalid => simp at hc
      · rw [if_neg hv] at hc
        simp only [] at hc
        by_cases hmx : b.typ = .dir ∧ b.depth + 1 ≥ p.maxDepth
        · rw [if_pos hmx] at hc
          simp at hc
        · have : ¬ b.depth + 1 ≥ p.maxDepth := fun hge => hmx ⟨hbdir, hge⟩
          omega

theorem callBack_ids {δ : Type} (flags : BftwFlags) (p : IdsParams)
    (delegate : δ → Ftwbuf → CbRet × δ) (st : WalkState (IdsState δ))
    (path : List String) (depth : Nat) (typ0 : BfsType) (statRes : Except Nat StatInfo)
    (direrror : Nat) (anc : List (Nat × Nat)) (visit : BftwVisit)
    (hwin : p.minDepth < p.maxDepth)
    (hok : depth < p.maxDepth ∨
      (bftwInitFtwbuf flags visit path depth typ0 statRes direrror anc).typ = .error) :
    ((bftwCallBack flags (idsCallback p delegate) st path depth typ0 statRes direrror anc
        visit).2.2.user.calls = st.user.calls ∨
      ∃ b, (bftwCallBack flags (idsCallback p delegate) st path depth typ0 statRes direrror
          anc visit).2.2.user.calls = st.user.calls ++ [b] ∧ idsWindowOK p b) ∧
    ((bftwCallBack flags (idsCallback p delegate) st path depth typ0 statRes direrror anc
        visit).1 = .cont → depth + 1 < p.maxDepth) := by
  have hfld := initFtwbuf_fields flags visit path depth typ0 statRes direrror anc
  simp only [bftwCallBack]
  set buf := bftwInitFtwbuf flags visit path depth typ0 statRes direrror anc with hbuf
  by_cases h1 : visit = .post ∧ ¬ flags.postOrder = true
  · rw [if_pos h1]
    exact ⟨Or.inl rfl, fun h => nomatch h⟩
  · rw [if_neg h1]
    by_cases h2 : buf.typ = .error ∧ ¬ flags.recover = true
    · rw [if_pos h2]
      exact ⟨Or.inl rfl, fun h => nomatch h⟩
    · rw [if_neg h2]
      rcases hcb : idsCallback p delegate st.user buf with ⟨ret, u⟩
      simp only []
      have hcalls := idsCallback_calls p delegate st.user buf
      rw [hcb] at hcalls
      simp only [] at hcalls
      have hwincall : u.calls = st.user.calls ∨
          ∃ b, u.calls = st.user.calls ++ [b] ∧ idsWindowOK p b := by
        rcases hcalls with h | ⟨b, hb1, hb2, hb3, hb4, hb5⟩
        · exact Or.inl h
        · refine Or.inr ⟨b, hb1, hb4, fun hne => ⟨hb5 hne, ?_⟩⟩
          rcases hok with hd | herr
          · rw [hb2, hfld.1]
            exact hd
          · exact absurd (hb3.trans herr) hne
      cases ret with
      | cont =>
        refine ⟨hwincall, fun h => ?_⟩
        by_cases hC : ¬ visit = .pre ∨ ¬ buf.typ = .dir
        · rw [if_pos hC] at h
          exact nomatch h
        · rcases not_or.mp hC with ⟨hv, ht⟩
          have hdir := not_not.mp ht
          have hc2 : (idsCallback p delegate st.user buf).1 = .cont := by rw [hcb]
          have := idsCallback_cont_upper p delegate st.user buf hwin hdir hc2
          rw [hfld.1] at this
          exact this
      | prune => exact ⟨hwincall, fun h => nomatch h⟩
      | stop => exact ⟨hwincall, fun h => nomatch h⟩
      | invalid => exact ⟨hwincall, fun h => nomatch h⟩

theorem visitOne_ids {δ : Type} (flags : BftwFlags) (p : IdsParams)
    (delegate : δ → Ftwbuf → CbRet × δ) (st : WalkState (IdsState δ))
    (cur : Option QEnt) (name : String) (ctree : FSTree)
    (hwin : p.minDepth < p.maxDepth)
    (hdep : (match cur with | some d => d.depth + 1 | none => 0) < p.maxDepth) :
    ((bftwVisitOne flags (idsCallback p delegate) st cur name ctree).2.user.calls =
        st.user.calls ∨
      ∃ b, (bftwVisitOne flags (idsCallback p delegate) st cur name ctree).2.user.calls =
        st.user.calls ++ [b] ∧ idsWindowOK p b) ∧
    ((bftwVisitOne flags (idsCallback p delegate) st cur name ctree).2.dirq = st.dirq ∨
      ∃ q, (bftwVisitOne flags (idsCallback p delegate) st cur name ctree).2.dirq =
        st.dirq ++ [q] ∧ q.depth + 1 < p.maxDepth) := by
  cases cur with
  | none =>
    simp only [bftwVisitOne]
    rcases hc : bftwCallBack flags (idsCallback p delegate) st [name] 0 .unknown
      ctree.info.stat 0 [] .pre with ⟨act, buf, st2⟩
    have hframe := callBack_frame flags (idsCallback p delegate) st [name] 0 .unknown
      ctree.info.stat 0 [] .pre
    have hids := callBack_ids flags p delegate st [name] 0 .unknown
      ctree.info.stat 0 [] .pre hwin (Or.inl hdep)
    rw [hc] at hframe hids
    cases act with
    | stop => exact ⟨hids.1, Or.inl hframe.1⟩
    | prune => exact ⟨hids.1, Or.inl hframe.1⟩
    | cont =>
      refine ⟨hids.1, Or.inr
        ⟨({ id := st2.nextId, path := [name], depth := 0, tree := ctree } : QEnt), ?_,
          hids.2 rfl⟩⟩
      show st2.dirq ++ [({ id := st2.nextId, path := [name], depth := 0, tree := ctree } : QEnt)] = _
      rw [show st2.dirq = st.dirq from hframe.1]
  | some d =>
    simp only [bftwVisitOne]
    rcases hc : bftwCallBack flags (idsCallback p delegate) st (d.path ++ [name]) (d.depth + 1)
      ctree.info.hint ctree.info.stat 0 (devinoChain st.store (d.depth + 1) (some d.id)) .pre
      with ⟨act, buf, st2⟩
    have hframe := callBack_frame flags (idsCallback p delegate) st (d.path ++ [name])
      (d.depth + 1) ctree.info.hint ctree.info.stat 0
      (devinoChain st.store (d.depth + 1) (some d.id)) .pre
    have hids := callBack_ids flags p delegate st (d.path ++ [name]) (d.depth + 1)
      ctree.info.hint ctree.info.stat 0 (devinoChain st.store (d.depth + 1) (some d.id)) .pre
      hwin (Or.inl hdep)
    rw [hc] at hframe hids
    cases act with
    | stop => exact ⟨hids.1, Or.inl hframe.1⟩
    | prune => exact ⟨hids.1, Or.inl hframe.1⟩
    | cont =>
      refine ⟨hids.1, Or.inr
        ⟨({ id := st2.nextId, path := d.path ++ [name], depth := d.depth + 1, tree := ctree } : QEnt), ?_,
          hids.2 rfl⟩⟩
      show st2.dirq ++ [({ id := st2.nextId, path := d.path ++ [name], depth := d.depth + 1, tree := ctree } : QEnt)] = _
      rw [show st2.dirq = st.dirq from hframe.1]

theorem visitChildren_ids {δ : Type} (flags : BftwFlags) (p : IdsParams)
    (delegate : δ → Ftwbuf → CbRet × δ)
    (hwin : p.minDepth < p.maxDepth) :
    ∀ (cs : List (String × FSTree)) (st : WalkState (IdsState δ)) (d : QEnt),
    d.depth + 1 < p.maxDepth →
    (∃ newc, (bftwVisitChildren flags (idsCallback p delegate) st d cs).2.user.calls =
        st.user.calls ++ newc ∧ ∀ b ∈ newc, idsWindowOK p b) ∧
    (∃ extra, (bftwVisitChildren flags (idsCallback p delegate) st d cs).2.dirq =
        st.dirq ++ extra ∧ ∀ q ∈ extra, q.depth + 1 < p.maxDepth) := by
  intro cs
  induction cs with
  | nil =>
    intro st d hd
    exact ⟨⟨[], by simp [bftwVisitChildren], by simp⟩,
      ⟨[], by simp [bftwVisitChildren], by simp⟩⟩
  | cons c0 rest ih =>
    intro st d hd
    obtain ⟨n, c⟩ := c0
    obtain ⟨h1, h2⟩ := visitOne_ids flags p delegate st (some d) n c hwin hd
    simp only [bftwVisitChildren]
    rcases hv : bftwVisitOne flags (idsCallback p delegate) st (some d) n c with ⟨ab, st2⟩
    rw [hv] at h1 h2
    simp only [] at h1 h2
    cases ab with
    | true =>
      simp only []
      refine ⟨?_, ?_⟩
      · rcases h1 with h | ⟨b, hb, hw⟩
        · exact ⟨[], by simp [h], by simp⟩
        · exact ⟨[b], by simp [hb], by simp [hw]⟩
      · rcases h2 with h | ⟨q, hq, hqd⟩
        · exact ⟨[], by simp [h], by simp⟩
        · exact ⟨[q], by simp [hq], by simp [hqd]⟩
    | false =>
      simp only []
      obtain ⟨⟨newc2, g1, g2⟩, ⟨extra2, g3, g4⟩⟩ := ih st2 d hd
      refine ⟨?_, ?_⟩
      · rcases h1 with h | ⟨b, hb, hw⟩
        · exact ⟨newc2, by rw [g1, h], g2⟩
        · refine ⟨b :: newc2, by rw [g1, hb]; simp, ?_⟩
          intro x hx
          rcases List.mem_cons.mp hx with rfl | hx
          · exact hw
          · exact g2 x hx
      · rcases h2 with h | ⟨q, hq, hqd⟩
        · exact ⟨extra2, by rw [g3, h], g4⟩
        · refine ⟨q :: extra2, by rw [g3, hq]; simp, ?_⟩
          intro x hx
          rcases List.mem_cons.mp hx with rfl | hx
          · exact hqd
          · exact g4 x hx

theorem callBack_post_skip {σ : Type} (flags : BftwFlags) (cb : σ → Ftwbuf → CbRet × σ)
    (st : WalkState σ) (path : List String) (depth : Nat) (typ0 : BfsType)
    (statRes : Except Nat StatInfo) (direrror : Nat) (anc : List (Nat × Nat))
    (hpo : flags.postOrder = false) :
    bftwCallBack flags cb st path depth typ0 statRes direrror anc .post =
      (.prune, bftwInitFtwbuf flags .post path depth typ0 statRes direrror anc, st) := by
  simp [bftwCallBack, hpo]

theorem gcCascade_nopost {σ : Type} (flags : BftwFlags) (cb : σ → Ftwbuf → CbRet × σ)
    (hpo : flags.postOrder = false) :
    ∀ (fuel : Nat) (start : Option Nat) (first : Bool) (g : GCFlags) (ret : Int)
      (st : WalkState σ),
    (bftwGcCascade flags cb fuel start first g ret st).1 = ret ∧
    (bftwGcCascade flags cb fuel start first g ret st).2.user = st.user ∧
    (bftwGcCascade flags cb fuel start first g ret st).2.dirq = st.dirq ∧
    (bftwGcCascade flags cb fuel start first g ret st).2.error = st.error ∧
    (bftwGcCascade flags cb fuel start first g ret st).2.trace = st.trace := by
  intro fuel
  induction fuel with
  | zero =>
    intro start first g ret st
    cases start <;> exact ⟨rfl, rfl, rfl, rfl, rfl⟩
  | succ n ih =>
    intro start first g ret st
    cases start with
    | none => exact ⟨rfl, rfl, rfl, rfl, rfl⟩
    | some id =>
      simp only [bftwGcCascade]
      rcases hg : storeGet st.store id with _ | r
      · exact ⟨rfl, rfl, rfl, rfl, rfl⟩
      · simp only []
        by_cases h1 : r.refcount - 1 > 0
        · rw [if_pos h1]
          exact ⟨rfl, rfl, rfl, rfl, rfl⟩
        · rw [if_neg h1]
          by_cases hfb : (if first = true then g.file else g.parents) = true
          · rw [if_pos hfb]
            rw [callBack_post_skip flags cb st r.path r.depth r.typ r.info.stat 0
              (devinoChain st.store r.depth r.parent) hpo]
            simp only []
            exact ih r.parent false g ret { st with store := storeRemove st.store id }
          · rw [if_neg hfb]
            simp only []
            exact ih r.parent false g ret { st with store := storeRemove st.store id }

theorem gc_ids {δ : Type} (flags : BftwFlags) (p : IdsParams)
    (delegate : δ → Ftwbuf → CbRet × δ) (st : WalkState (IdsState δ)) (d : QEnt) (e : Nat)
    (hpo : flags.postOrder = false) (hwin : p.minDepth < p.maxDepth) :
    ((bftwGc flags (idsCallback p delegate) st d e gcAll).2.user.calls = st.user.calls ∨
      ∃ b, (bftwGc flags (idsCallback p delegate) st d e gcAll).2.user.calls =
        st.user.calls ++ [b] ∧ idsWindowOK p b) ∧
    (bftwGc flags (idsCallback p delegate) st d e gcAll).2.dirq = st.dirq := by
  have hge : gcAll.error = true := rfl
  simp only [bftwGc]
  by_cases he : e ≠ 0
  · rw [if_pos he, if_pos hge]
    rcases hs : storeGet st.store d.id with _ | r
    · simp only []
      obtain ⟨i1, i2, i3, i4, i5⟩ := gcCascade_nopost flags (idsCallback p delegate) hpo
        (d.depth + 1) (some d.id) true gcAll 0 st
      exact ⟨Or.inl (by rw [i2]), i3⟩
    · simp only []
      rcases hc : bftwCallBack flags (idsCallback p delegate) st r.path r.depth r.typ
        r.info.stat e (devinoChain st.store r.depth r.parent) .pre with ⟨act, buf, st2⟩
      have hids := callBack_ids flags p delegate st r.path r.depth r.typ r.info.stat e
        (devinoChain st.store r.depth r.parent) .pre hwin
        (Or.inr (initFtwbuf_error_typ flags .pre r.path r.depth r.typ r.info.stat e
          (devinoChain st.store r.depth r.parent) he))
      have hframe := callBack_frame flags (idsCallback p delegate) st r.path r.depth r.typ
        r.info.stat e (devinoChain st.store r.depth r.parent) .pre
      rw [hc] at hids hframe
      cases act with
      | stop =>
        simp only []
        obtain ⟨i1, i2, i3, i4, i5⟩ := gcCascade_nopost flags (idsCallback p delegate) hpo
          (d.depth + 1) (some d.id) true gcNone (-1) st2
        refine ⟨?_, by rw [i3]; exact hframe.1⟩
        rcases hids.1 with h | ⟨b, hb, hw⟩
        · exact Or.inl (by rw [i2]; exact h)
        · exact Or.inr ⟨b, by rw [i2]; exact hb, hw⟩
      | cont =>
        simp only []
        obtain ⟨i1, i2, i3, i4, i5⟩ := gcCascade_nopost flags (idsCallback p delegate) hpo
          (d.depth + 1) (some d.id) true gcAll 0 st2
        refine ⟨?_, by rw [i3]; exact hframe.1⟩
        rcases hids.1 with h | ⟨b, hb, hw⟩
        · exact Or.inl (by rw [i2]; exact h)
        · exact Or.inr ⟨b, by rw [i2]; exact hb, hw⟩
      | prune =>
        simp only []
        obtain ⟨i1, i2, i3, i4, i5⟩ := gcCascade_nopost flags (idsCallback p delegate) hpo
          (d.depth + 1) (some d.id) true gcAll 0 st2
        refine ⟨?_, by rw [i3]; exact hframe.1⟩
        rcases hids.1 with h | ⟨b, hb, hw⟩
        · exact Or.inl (by rw [i2]; exact h)
        · exact Or.inr ⟨b, by rw [i2]; exact hb, hw⟩
  · rw [if_neg he]
    simp only []
    obtain ⟨i1, i2, i3, i4, i5⟩ := gcCascade_nopost flags (idsCallback p delegate) hpo
      (d.depth + 1) (some d.id) true gcAll 0 st
    exact ⟨Or.inl (by rw [i2]), i3⟩

theorem processDir_ids {δ : Type} (flags : BftwFlags) (p : IdsParams)
    (delegate : δ → Ftwbuf → CbRet × δ) (st : WalkState (IdsState δ)) (d : QEnt)
    (hpo : flags.postOrder = false) (hwin : p.minDepth < p.maxDepth)
    (hd : d.depth + 1 < p.maxDepth) :
    (∃ newc, (bftwProcessDir flags (idsCallback p delegate) st d).2.user.calls =
        st.user.calls ++ newc ∧ ∀ b ∈ newc, idsWindowOK p b) ∧
    (∃ extra, (bftwProcessDir flags (idsCallback p delegate) st d).2.dirq =
        st.dirq ++ extra ∧ ∀ q ∈ extra, q.depth + 1 < p.maxDepth) := by
  simp only [bftwProcessDir]
  rcases ho : d.tree.info.openErr with _ | e
  · simp only []
    obtain ⟨⟨newc1, v1, v2⟩, ⟨extra1, v3, v4⟩⟩ := visitChildren_ids flags p delegate hwin
      d.tree.children st d hd
    rcases hv : bftwVisitChildren flags (idsCallback p delegate) st d d.tree.children
      with ⟨ab, st2⟩
    rw [hv] at v1 v3
    simp only [] at v1 v3
    cases ab with
    | true =>
      simp only []
      exact ⟨⟨newc1, v1, v2⟩, ⟨extra1, v3, v4⟩⟩
    | false =>
      simp only []
      obtain ⟨g1, g2⟩ := gc_ids flags p delegate st2 d 0 hpo hwin
      rcases hgc : bftwGc flags (idsCallback p delegate) st2 d 0 gcAll with ⟨ret, st3⟩
      rw [hgc] at g1 g2
      simp only [] at g1 g2
      refine ⟨?_, ⟨extra1, g2.trans v3, v4⟩⟩
      rcases g1 with h | ⟨b, hb, hw⟩
      · exact ⟨newc1, h.trans v1, v2⟩
      · refine ⟨newc1 ++ [b], by rw [hb, v1]; simp, ?_⟩
        intro x hx
        rcases List.mem_append.mp hx with hx | hx
        · exact v2 x hx
        · rcases List.mem_singleton.mp hx with rfl
          exact hw
  · simp only []
    obtain ⟨g1, g2⟩ := gc_ids flags p delegate st d e hpo hwin
    rcases hgc : bftwGc flags (idsCallback p delegate) st d e gcAll with ⟨ret, st3⟩
    rw [hgc] at g1 g2
    simp only [] at g1 g2
    refine ⟨?_, ⟨[], by simp [g2], by simp⟩⟩
    rcases g1 with h | ⟨b, hb, hw⟩
    · exact ⟨[], by simp [h], by simp⟩
    · exact ⟨[b], hb, by simp [hw]⟩

theorem implLoop_ids {δ : Type} (flags : BftwFlags) (p : IdsParams)
    (delegate : δ → Ftwbuf → CbRet × δ)
    (hpo : flags.postOrder = false) (hwin : p.minDepth < p.maxDepth) :
    ∀ (fuel : Nat) (st : WalkState (IdsState δ)),
    (∀ q ∈ st.dirq, q.depth + 1 < p.maxDepth) →
    ∃ newc, (bftwImplLoop flags (idsCallback p delegate) fuel st).2.user.calls =
      st.user.calls ++ newc ∧ ∀ b ∈ newc, idsWindowOK p b := by
  intro fuel
  induction fuel with
  | zero =>
    intro st hq
    exact ⟨[], by simp [bftwImplLoop], by simp⟩
  | succ n ih =>
    intro st hq
    simp only [bftwImplLoop]
    rcases hdq : st.dirq with _ | ⟨d, rest⟩
    · exact ⟨[], by simp, by simp⟩
    · simp only []
      have hd : d.depth + 1 < p.maxDepth := hq d (by rw [hdq]; exact List.mem_cons_self d rest)
      obtain ⟨⟨newc1, p1, p2⟩, ⟨extra1, p3, p4⟩⟩ := processDir_ids flags p delegate
        { st with dirq := rest } d hpo hwin hd
      rcases hp : bftwProcessDir flags (idsCallback p delegate) { st with dirq := rest } d
        with ⟨ab, st2⟩
      rw [hp] at p1 p3
      simp only [] at p1 p3
      cases ab with
      | true =>
        simp only []
        exact ⟨newc1, p1, p2⟩
      | false =>
        simp only []
        have hq2 : ∀ q ∈ st2.dirq, q.depth + 1 < p.maxDepth := by
          intro q hmem
          rw [p3] at hmem
          rcases List.mem_append.mp hmem with hmem | hmem
          · exact hq q (by rw [hdq]; exact List.mem_cons_of_mem d hmem)
          · exact p4 q hmem
        obtain ⟨newc2, i1, i2⟩ := ih st2 hq2
        refine ⟨newc1 ++ newc2, by rw [i1, p1]; simp, ?_⟩
        intro x hx
        rcases List.mem_append.mp hx with hx | hx
        · exact p2 x hx
        · exact i2 x hx

theorem seedRoots_ids {δ : Type} (flags : BftwFlags) (p : IdsParams)
    (delegate : δ → Ftwbuf → CbRet × δ)
    (hwin : p.minDepth < p.maxDepth) :
    ∀ (roots : List (String × FSTree)) (st : WalkState (IdsState δ)),
    (∃ newc, (bftwSeedRoots flags (idsCallback p delegate) st roots).2.user.calls =
        st.user.calls ++ newc ∧ ∀ b ∈ newc, idsWindowOK p b) ∧
    (∃ extra, (bftwSeedRoots flags (idsCallback p delegate) st roots).2.dirq =
        st.dirq ++ extra ∧ ∀ q ∈ extra, q.depth + 1 < p.maxDepth) := by
  intro roots
  induction roots with
  | nil =>
    intro st
    exact ⟨⟨[], by simp [bftwSeedRoots], by simp⟩, ⟨[], by simp [bftwSeedRoots], by simp⟩⟩
  | cons c0 rest ih =>
    intro st
    obtain ⟨n, c⟩ := c0
    obtain ⟨h1, h2⟩ := visitOne_ids flags p delegate st none n c hwin
      (show 0 < p.maxDepth by omega)
    simp only [bftwSeedRoots]
    rcases hv : bftwVisitOne flags (idsCallback p delegate) st none n c with ⟨ab, st2⟩
    rw [hv] at h1 h2
    simp only [] at h1 h2
    cases ab with
    | true =>
      simp only []
      refine ⟨?_, ?_⟩
      · rcases h1 with h | ⟨b, hb, hw⟩
        · exact ⟨[], by simp [h], by simp⟩
        · exact ⟨[b], by simp [hb], by simp [hw]⟩
      · rcases h2 with h | ⟨q, hq, hqd⟩
        · exact ⟨[], by simp [h], by simp⟩
        · exact ⟨[q], by simp [hq], by simp [hqd]⟩
    | false =>
      simp only []
      obtain ⟨⟨newc2, g1, g2⟩, ⟨extra2, g3, g4⟩⟩ := ih st2
      refine ⟨?_, ?_⟩
      · rcases h1 with h | ⟨b, hb, hw⟩
        · exact ⟨newc2, by rw [g1, h], g2⟩
        · refine ⟨b :: newc2, by rw [g1, hb]; simp, ?_⟩
          intro x hx
          rcases List.mem_cons.mp hx with rfl | hx
          · exact hw
          · exact g2 x hx
      · rcases h2 with h | ⟨q, hq, hqd⟩
        · exact ⟨extra2, by rw [g3, h], g4⟩
        · refine ⟨q :: extra2, by rw [g3, hq]; simp, ?_⟩
          intro x hx
          rcases List.mem_cons.mp hx with rfl | hx
          · exact hqd
          · exact g4 x hx

/-- C6 counterexample: with the window (min_depth, max_depth) = (2, 3),
bftw_ids_callback hands an ERROR entry of depth 1 to the delegate even
though depth 1 is outside [min_depth, max_depth): the recorded delegate
call list gains that very entry. -/
theorem C6_counterexample :
    exErrBuf.depth < exIdsParams.minDepth ∧
    (idsCallback exIdsParams exDelegate exIdsState exErrBuf).2.calls = [exErrBuf] := by
  exact ⟨by decide, rfl⟩

/-- C6 (amended): the BFS_ERROR branch of bftw_ids_callback delegates
exactly when depth + 1 >= min_depth -- one level above the window -- and
prunes below that; and over a whole engine iteration every recorded
delegate call is either an ERROR entry with depth + 1 >= min_depth or an
ordinary entry with min_depth <= depth < max_depth. -/
theorem C6_amended_depth_window {δ : Type} (flags : BftwFlags) (p : IdsParams)
    (delegate : δ → Ftwbuf → CbRet × δ) (roots : List (String × FSTree))
    (s0 : IdsState δ) (s : IdsState δ) (buf : Ftwbuf)
    (hpo : flags.postOrder = false) (hwin : p.minDepth < p.maxDepth)
    (herr : buf.typ = .error) :
    (p.minDepth ≤ buf.depth + 1 →
      (idsCallback p delegate s buf).2.calls =
        s.calls ++ [if p.forceVisit then { buf with visit := p.visit } else buf]) ∧
    (buf.depth + 1 < p.minDepth → idsCallback p delegate s buf = (.prune, s)) ∧
    (∃ newc, (bftwImpl flags (idsCallback p delegate) roots
        (bftwInitState s0)).2.user.calls = s0.calls ++ newc ∧
      ∀ b ∈ newc, idsWindowOK p b) := by
  refine ⟨?_, ?_, ?_⟩
  · intro hm
    simp only [idsCallback]
    set b := if p.forceVisit = true then { buf with visit := p.visit } else buf with hb
    have hbt : b.typ = buf.typ := by
      rw [hb]; split <;> rfl
    have hbd : b.depth = buf.depth := by
      rw [hb]; split <;> rfl
    rw [if_pos (hbt.trans herr), if_pos (show b.depth + 1 ≥ p.minDepth by omega)]
  · intro hm
    simp only [idsCallback]
    set b := if p.forceVisit = true then { buf with visit := p.visit } else buf with hb
    have hbt : b.typ = buf.typ := by
      rw [hb]; split <;> rfl
    have hbd : b.depth = buf.depth := by
      rw [hb]; split <;> rfl
    rw [if_pos (hbt.trans herr), if_neg (show ¬ b.depth + 1 ≥ p.minDepth by omega)]
  · obtain ⟨⟨newc1, s1, s2⟩, ⟨extra1, s3, s4⟩⟩ := seedRoots_ids flags p delegate hwin
      roots (bftwInitState s0)
    simp only [bftwImpl]
    rcases hs : bftwSeedRoots flags (idsCallback p delegate) (bftwInitState s0) roots
      with ⟨ab, st2⟩
    rw [hs] at s1 s3
    simp only [] at s1 s3
    cases ab with
    | true =>
      simp only []
      exact ⟨newc1, s1, s2⟩
    | false =>
      simp only []
      have hq : ∀ q ∈ st2.dirq, q.depth + 1 < p.maxDepth := by
        intro q hmem
        rw [s3] at hmem
        simp only [bftwInitState, List.nil_append] at hmem
        exact s4 q hmem
      obtain ⟨newc2, i1, i2⟩ := implLoop_ids flags p delegate hpo hwin
        (forestSize roots + 1) st2 hq
      refine ⟨newc1 ++ newc2, by rw [i1, s1]; simp [bftwInitState], ?_⟩
      intro x hx
      rcases List.mem_append.mp hx with hx | hx
      · exact s2 x hx
      · exact i2 x hx

/-- Witness for C6 at the concrete window (2, 3): the depth-1 ERROR entry
is delegated (2 <= 1 + 1), and a full engine iteration over the example
forest only records in-window or above-window-error calls. -/
theorem C6_amended_witness :
    exIdsParams.minDepth < exIdsParams.maxDepth ∧
    (idsCallback exIdsParams exDelegate exIdsState exErrBuf).2.calls =
      exIdsState.calls ++ [exErrBuf] ∧
    ∃ newc, (bftwImpl exFlags0 (idsCallback exIdsParams exDelegate) exWitRoots
        (bftwInitState exIdsState)).2.user.calls = exIdsState.calls ++ newc ∧
      ∀ b ∈ newc, idsWindowOK exIdsParams b := by
  have h := C6_amended_depth_window exFlags0 exIdsParams exDelegate exWitRoots
    exIdsState exIdsState exErrBuf rfl (by decide) rfl
  refine ⟨by decide, ?_, h.2.2⟩
  have h1 := h.1 (by decide)
  simpa using h1

theorem storeGet_cons (p : Nat × BftwRec) (s : List (Nat × BftwRec)) (i : Nat) :
    storeGet (p :: s) i = if p.1 = i then some p.2 else storeGet s i := by
  by_cases h : p.1 = i
  · simp [storeGet, List.find?, h]
  · simp [storeGet, List.find?, h]

theorem storeGet_mem {s : List (Nat × BftwRec)} {i : Nat} {r : BftwRec}
    (h : storeGet s i = some r) : (i, r) ∈ s := by
  induction s with
  | nil => simp [storeGet] at h
  | cons p rest ih =>
    rw [storeGet_cons] at h
    by_cases hp : p.1 = i
    · rw [if_pos hp] at h
      have hpr : p = (i, r) := by
        cases p
        simp_all
      rw [hpr]
      exact List.mem_cons_self _ _
    · rw [if_neg hp] at h
      exact List.mem_cons_of_mem p (ih h)

theorem mem_storeGet {s : List (Nat × BftwRec)} {i : Nat} {r : BftwRec}
    (hmem : (i, r) ∈ s) (hnd : (s.map Prod.fst).Nodup) : storeGet s i = some r := by
  induction s with
  | nil => simp at hmem
  | cons p rest ih =>
    rw [storeGet_cons]
    rcases List.mem_cons.mp hmem with heq | hmem2
    · rw [if_pos (by rw [← heq])]
      rw [← heq]
    · have hp : ¬ p.1 = i := by
        intro hpi
        have : i ∈ rest.map Prod.fst := List.mem_map.mpr ⟨(i, r), hmem2, rfl⟩
        rw [List.map_cons] at hnd
        exact (List.nodup_cons.mp hnd).1 (hpi ▸ this)
      rw [if_neg hp]
      exact ih hmem2 (List.nodup_cons.mp (by rw [List.map_cons] at hnd; exact hnd)).2

theorem storeSet_ids (s : List (Nat × BftwRec)) (i : Nat) (r : BftwRec) :
    (storeSet s i r).map Prod.fst = s.map Prod.fst := by
  induction s with
  | nil => rfl
  | cons p rest ih =>
    simp only [storeSet, List.map_cons] at ih ⊢
    by_cases h : p.1 = i
    · rw [if_pos h, ih]
      simp [h]
    · rw [if_neg h, ih]

theorem storeGet_set_self {s : List (Nat × BftwRec)} {i : Nat} {r0 : BftwRec}
    (h : storeGet s i = some r0) (r : BftwRec) :
    storeGet (storeSet s i r) i = some r := by
  induction s with
  | nil => simp [storeGet] at h
  | cons p rest ih =>
    rw [storeGet_cons] at h
    simp only [storeSet, List.map_cons]
    by_cases hp : p.1 = i
    · rw [if_pos hp, storeGet_cons, if_pos rfl]
    · rw [if_neg hp, storeGet_cons, if_neg hp]
      rw [if_neg hp] at h
      exact ih h

theorem storeGet_set_other (s : List (Nat × BftwRec)) (i : Nat) (r : BftwRec)
    {j : Nat} (hj : ¬ j = i) : storeGet (storeSet s i r) j = storeGet s j := by
  induction s with
  | nil => rfl
  | cons p rest ih =>
    simp only [storeSet, List.map_cons]
    by_cases hp : p.1 = i
    · rw [if_pos hp, storeGet_cons, storeGet_cons, if_neg (by simpa using fun h => hj h.symm),
        if_neg (by rw [hp]; exact fun h => hj h.symm)]
      exact ih
    · rw [if_neg hp, storeGet_cons, storeGet_cons]
      by_cases hpj : p.1 = j
      · rw [if_pos hpj, if_pos hpj]
      · rw [if_neg hpj, if_neg hpj]
        exact ih

theorem storeRemove_sublist (s : List (Nat × BftwRec)) (i : Nat) :
    (storeRemove s i).Sublist s := List.filter_sublist s

theorem storeGet_remove_self (s : List (Nat × BftwRec)) (i : Nat) :
    storeGet (storeRemove s i) i = none := by
  induction s with
  | nil => rfl
  | cons p rest ih =>
    by_cases hp : p.1 = i
    · simp only [storeRemove, List.filter_cons, hp]
      simpa [storeRemove] using ih
    · simp only [storeRemove, List.filter_cons, decide_eq_true_eq]
      rw [if_pos (by simp [hp]), storeGet_cons, if_neg hp]
      simpa [storeRemove] using ih

theorem storeGet_remove_other (s : List (Nat × BftwRec)) (i : Nat) {j : Nat}
    (hj : ¬ j = i) : storeGet (storeRemove s i) j = storeGet s j := by
  induction s with
  | nil => rfl
  | cons p rest ih =>
    by_cases hp : p.1 = i
    · simp only [storeRemove, List.filter_cons]
      rw [if_neg (by simp [hp]), storeGet_cons, if_neg (by rw [hp]; exact fun h => hj h.symm)]
      simpa [storeRemove] using ih
    · simp only [storeRemove, List.filter_cons]
      rw [if_pos (by simp [hp]), storeGet_cons, storeGet_cons]
      by_cases hpj : p.1 = j
      · rw [if_pos hpj, if_pos hpj]
      · rw [if_neg hpj, if_neg hpj]
        simpa [storeRemove] using ih

theorem storeRemove_ids_nodup {s : List (Nat × BftwRec)} (i : Nat)
    (h : (s.map Prod.fst).Nodup) : ((storeRemove s i).map Prod.fst).Nodup :=
  ((storeRemove_sublist s i).map Prod.fst).nodup h

theorem storeIncRef_none (s : List (Nat × BftwRec)) : storeIncRef s none = s := rfl

theorem storeIncRef_ids (s : List (Nat × BftwRec)) (po : Option Nat) :
    (storeIncRef s po).map Prod.fst = s.map Prod.fst := by
  cases po with
  | none => rfl
  | some pid =>
    induction s with
    | nil => rfl
    | cons p rest ih =>
      simp only [storeIncRef, List.map_cons] at ih ⊢
      by_cases h : p.1 = pid
      · rw [if_pos h, ih]
        simp [h]
      · rw [if_neg h, ih]

theorem storeGet_incRef_self {s : List (Nat × BftwRec)} {pid : Nat} {r : BftwRec}
    (h : storeGet s pid = some r) :
    storeGet (storeIncRef s (some pid)) pid =
      some { r with refcount := r.refcount + 1 } := by
  induction s with
  | nil => simp [storeGet] at h
  | cons p rest ih =>
    rw [storeGet_cons] at h
    simp only [storeIncRef]
    by_cases hp : p.1 = pid
    · rw [if_pos hp] at h
      obtain ⟨h2⟩ := h
      rw [List.map_cons, if_pos hp, storeGet_cons, if_pos rfl]
    · rw [if_neg hp] at h
      rw [List.map_cons, if_neg hp, storeGet_cons, if_neg hp]
      simpa [storeIncRef] using ih h

theorem storeGet_incRef_other (s : List (Nat × BftwRec)) (pid : Nat) {j : Nat}
    (hj : ¬ j = pid) : storeGet (storeIncRef s (some pid)) j = storeGet s j := by
  induction s with
  | nil => rfl
  | cons p rest ih =>
    simp only [storeIncRef, List.map_cons]
    by_cases hp : p.1 = pid
    · rw [if_pos hp, storeGet_cons, storeGet_cons,
        if_neg (by simpa using fun h => hj h.symm),
        if_neg (by rw [hp]; exact fun h => hj h.symm)]
      simpa [storeIncRef] using ih
    · rw [if_neg hp, storeGet_cons, storeGet_cons]
      by_cases hpj : p.1 = j
      · rw [if_pos hpj, if_pos hpj]
      · rw [if_neg hpj, if_neg hpj]
        simpa [storeIncRef] using ih

theorem storeKids_set {s : List (Nat × BftwRec)} {i : Nat} {r : BftwRec}
    (h : ∀ pr ∈ s, pr.1 = i → pr.2.parent = r.parent) (j : Nat) :
    storeKids (storeSet s i r) j = storeKids s j := by
  induction s with
  | nil => rfl
  | cons p rest ih =>
    have hrest := fun pr hm => h pr (List.mem_cons_of_mem p hm)
    simp only [storeSet, List.map_cons, storeKids, List.filter_cons] at ih ⊢
    by_cases hp : p.1 = i
    · rw [if_pos hp]
      have hpar : r.parent = p.2.parent := (h p (List.mem_cons_self p rest) hp).symm
      by_cases hj : p.2.parent = some j
      · rw [if_pos (by simpa [hpar] using hj), if_pos (by simpa using hj)]
        simpa [storeKids, storeSet] using ih hrest
      · rw [if_neg (by simpa [hpar] using hj), if_neg (by simpa using hj)]
        simpa [storeKids, storeSet] using ih hrest
    · rw [if_neg hp]
      by_cases hj : p.2.parent = some j
      · rw [if_pos (by simpa using hj), if_pos (by simpa using hj)]
        simpa [storeKids, storeSet] using ih hrest
      · rw [if_neg (by simpa using hj), if_neg (by simpa using hj)]
        simpa [storeKids, storeSet] using ih hrest

theorem storeKids_incRef (s : List (Nat × BftwRec)) (po : Option Nat) (j : Nat) :
    storeKids (storeIncRef s po) j = storeKids s j := by
  cases po with
  | none => rfl
  | some pid =>
    induction s with
    | nil => rfl
    | cons p rest ih =>
      simp only [storeIncRef, List.map_cons, storeKids, List.filter_cons] at ih ⊢
      by_cases hp : p.1 = pid
      · rw [if_pos hp]
        by_cases hj : p.2.parent = some j
        · rw [if_pos (by simpa using hj), if_pos (by simpa using hj)]
          simpa [storeKids, storeIncRef] using ih
        · rw [if_neg (by simpa using hj), if_neg (by simpa using hj)]
          simpa [storeKids, storeIncRef] using ih
      · rw [if_neg hp]
        by_cases hj : p.2.parent = some j
        · rw [if_pos (by simpa using hj), if_pos (by simpa using hj)]
          simpa [storeKids, storeIncRef] using ih
        · rw [if_neg (by simpa using hj), if_neg (by simpa using hj)]
          simpa [storeKids, storeIncRef] using ih

theorem storeKids_append (s : List (Nat × BftwRec)) (nid : Nat) (r : BftwRec) (j : Nat) :
    storeKids (s ++ [(nid, r)]) j =
      storeKids s j + (if r.parent = some j then 1 else 0) := by
  simp only [storeKids, List.filter_append]
  rw [List.length_append]
  congr 1
  by_cases hj : r.parent = some j
  · rw [if_pos hj]
    simp [List.filter, hj]
  · rw [if_neg hj]
    simp [List.filter, hj]

theorem storeKids_remove_ne {s : List (Nat × BftwRec)} {i : Nat} {j : Nat}
    (h : ∀ pr ∈ s, pr.1 = i → ¬ pr.2.parent = some j) :
    storeKids (storeRemove s i) j = storeKids s j := by
  induction s with
  | nil => rfl
  | cons p rest ih =>
    have hrest := fun pr hm => h pr (List.mem_cons_of_mem p hm)
    have ih2 := ih hrest
    by_cases hp : p.1 = i
    · have hnj := h p (List.mem_cons_self p rest) hp
      simp only [storeRemove, storeKids, List.filter_cons] at ih2 ⊢
      rw [if_neg (by simp [hp]), if_neg (by simpa using hnj)]
      exact ih2
    · by_cases hj : p.2.parent = some j
      · simp only [storeRemove, storeKids, List.filter_cons] at ih2 ⊢
        rw [if_pos (by simp [hp]), List.filter_cons, if_pos (by simpa using hj),
          if_pos (by simpa using hj)]
        simpa using ih2
      · simp only [storeRemove, storeKids, List.filter_cons] at ih2 ⊢
        rw [if_pos (by simp [hp]), List.filter_cons, if_neg (by simpa using hj),
          if_neg (by simpa using hj)]
        exact ih2

theorem storeKids_remove_parent {s : List (Nat × BftwRec)} {i : Nat} {r : BftwRec} {j : Nat}
    (hnd : (s.map Prod.fst).Nodup) (hmem : (i, r) ∈ s) (hpar : r.parent = some j) :
    storeKids (storeRemove s i) j + 1 = storeKids s j := by
  induction s with
  | nil => simp at hmem
  | cons p rest ih =>
    rw [List.map_cons, List.nodup_cons] at hnd
    rcases List.mem_cons.mp hmem with heq | hmem2
    · have hp : p.1 = i := by rw [← heq]
      have hp2 : p.2 = r := by rw [← heq]
      have hrest : ∀ pr ∈ rest, pr.1 = i → ¬ pr.2.parent = some j := by
        intro pr hm hpi _
        apply hnd.1
        rw [hp]
        exact List.mem_map.mpr ⟨pr, hm, hpi⟩
      have hkr := storeKids_remove_ne hrest
      simp only [storeRemove, storeKids, List.filter_cons] at hkr ⊢
      rw [if_neg (by simp [hp]), hkr, if_pos (by simp [hp2, hpar])]
      simp
    · by_cases hp : p.1 = i
      · exfalso
        apply hnd.1
        rw [hp]
        exact List.mem_map.mpr ⟨(i, r), hmem2, rfl⟩
      · have ih2 := ih hnd.2 hmem2
        by_cases hj : p.2.parent = some j
        · simp only [storeRemove, storeKids, List.filter_cons] at ih2 ⊢
          rw [if_pos (by simp [hp]), List.filter_cons, if_pos (by simpa using hj),
            if_pos (by simpa using hj)]
          simp only [List.length_cons]
          omega
        · simp only [storeRemove, storeKids, List.filter_cons] at ih2 ⊢
          rw [if_pos (by simp [hp]), List.filter_cons, if_neg (by simpa using hj),
            if_neg (by simpa using hj)]
          exact ih2

theorem storePaths_set {s : List (Nat × BftwRec)} {i : Nat} {r : BftwRec}
    (h : ∀ pr ∈ s, pr.1 = i → pr.2.path = r.path) :
    storePaths (storeSet s i r) = storePaths s := by
  induction s with
  | nil => rfl
  | cons p rest ih =>
    have hrest := fun pr hm => h pr (List.mem_cons_of_mem p hm)
    simp only [storeSet, storePaths, List.map_cons] at ih ⊢
    by_cases hp : p.1 = i
    · rw [if_pos hp]
      have := h p (List.mem_cons_self p rest) hp
      simp only [this]
      congr 1
      simpa [storeSet, storePaths] using ih hrest
    · rw [if_neg hp]
      congr 1
      simpa [storeSet, storePaths] using ih hrest

theorem storePaths_incRef (s : List (Nat × BftwRec)) (po : Option Nat) :
    storePaths (storeIncRef s po) = storePaths s := by
  cases po with
  | none => rfl
  | some pid =>
    induction s with
    | nil => rfl
    | cons p rest ih =>
      simp only [storeIncRef, storePaths, List.map_cons] at ih ⊢
      by_cases hp : p.1 = pid
      · rw [if_pos hp]
        congr 1
      · rw [if_neg hp]
        congr 1

theorem storePaths_append (s : List (Nat × BftwRec)) (nid : Nat) (r : BftwRec) :
    storePaths (s ++ [(nid, r)]) = storePaths s ++ [r.path] := by
  simp [storePaths]

theorem storePaths_remove_count {s : List (Nat × BftwRec)} {i : Nat} {r : BftwRec}
    (hnd : (s.map Prod.fst).Nodup) (hmem : (i, r) ∈ s) (p : List String) :
    (storePaths (storeRemove s i)).count p + (if r.path = p then 1 else 0) =
      (storePaths s).count p := by
  induction s with
  | nil => simp at hmem
  | cons q rest ih =>
    rw [List.map_cons, List.nodup_cons] at hnd
    rcases List.mem_cons.mp hmem with heq | hmem2
    · have hp : q.1 = i := by rw [← heq]
      have hp2 : q.2 = r := by rw [← heq]
      have hnone : storeRemove rest i = rest := by
        apply List.filter_eq_self.mpr
        intro pr hm
        simp only [decide_eq_true_eq]
        intro hpi
        apply hnd.1
        rw [hp]
        exact List.mem_map.mpr ⟨pr, hm, hpi⟩
      simp only [storeRemove, storePaths, List.filter_cons]
      rw [if_neg (by simp [hp])]
      simp only [storeRemove] at hnone
      rw [hnone]
      simp only [List.map_cons, List.count_cons, hp2, beq_iff_eq]
    · by_cases hp : q.1 = i
      · exfalso
        apply hnd.1
        rw [hp]
        exact List.mem_map.mpr ⟨(i, r), hmem2, rfl⟩
      · have ih2 := ih hnd.2 hmem2
        simp only [storeRemove, storePaths, List.filter_cons] at ih2 ⊢
        rw [if_pos (by simp [hp])]
        simp only [List.map_cons, List.count_cons, beq_iff_eq]
        omega

theorem prePaths_append (t1 t2 : List Event) :
    prePaths (t1 ++ t2) = prePaths t1 ++ prePaths t2 := by
  simp [prePaths]

theorem postPaths_append (t1 t2 : List Event) :
    postPaths (t1 ++ t2) = postPaths t1 ++ postPaths t2 := by
  simp [postPaths]

theorem postAfterPre_snoc {tr : List Event} {ev : Event} (h : postAfterPre tr)
    (hev : ev.visit = .post → ev.path ∈ prePaths tr) : postAfterPre (tr ++ [ev]) := by
  intro t1 e t2 heq hpost
  rcases List.eq_nil_or_concat t2 with rfl | ⟨l2, a, rfl⟩
  · have hinj := List.append_inj' heq (by simp)
    obtain ⟨h1, h2⟩ := hinj
    obtain ⟨h3⟩ := h2
    rw [← h1]
    exact hev hpost
  · have heq2 : tr ++ [ev] = (t1 ++ e :: l2) ++ [a] := by
      rw [heq]
      simp
    have hinj := List.append_inj' heq2 (by simp)
    exact h t1 e l2 hinj.1 hpost

theorem mem_storeSet_self {s : List (Nat × BftwRec)} {i : Nat} {r : BftwRec}
    {pr : Nat × BftwRec} (h : pr ∈ storeSet s i r) (hf : pr.1 = i) : pr = (i, r) := by
  obtain ⟨q, hq, hmap⟩ := List.mem_map.mp h
  by_cases hqi : q.1 = i
  · rw [if_pos hqi] at hmap
    exact hmap.symm
  · rw [if_neg hqi] at hmap
    rw [← hmap] at hf
    exact absurd hf hqi

theorem mem_storeSet_other {s : List (Nat × BftwRec)} {i : Nat} {r : BftwRec}
    {pr : Nat × BftwRec} (h : pr ∈ storeSet s i r) (hf : ¬ pr.1 = i) : pr ∈ s := by
  obtain ⟨q, hq, hmap⟩ := List.mem_map.mp h
  by_cases hqi : q.1 = i
  · rw [if_pos hqi] at hmap
    rw [← hmap] at hf
    exact absurd rfl hf
  · rw [if_neg hqi] at hmap
    exact hmap ▸ hq

theorem mem_storeRemove {s : List (Nat × BftwRec)} {i : Nat} {pr : Nat × BftwRec}
    (h : pr ∈ storeRemove s i) : pr ∈ s ∧ ¬ pr.1 = i := by
  have := List.mem_filter.mp h
  exact ⟨this.1, by simpa using this.2⟩

theorem mem_storeIncRef_self {s : List (Nat × BftwRec)} {pid : Nat}
    {pr : Nat × BftwRec} (h : pr ∈ storeIncRef s (some pid)) (hf : pr.1 = pid) :
    ∃ r0, (pid, r0) ∈ s ∧ pr = (pid, { r0 with refcount := r0.refcount + 1 }) := by
  obtain ⟨q, hq, hmap⟩ := List.mem_map.mp h
  by_cases hqi : q.1 = pid
  · rw [if_pos hqi] at hmap
    refine ⟨q.2, ?_, hmap.symm⟩
    have : q = (pid, q.2) := by
      cases q
      simp_all
    rw [← this]
    exact hq
  · rw [if_neg hqi] at hmap
    rw [← hmap] at hf
    exact absurd hf hqi

theorem mem_storeIncRef_other {s : List (Nat × BftwRec)} {pid : Nat}
    {pr : Nat × BftwRec} (h : pr ∈ storeIncRef s (some pid)) (hf : ¬ pr.1 = pid) :
    pr ∈ s := by
  obtain ⟨q, hq, hmap⟩ := List.mem_map.mp h
  by_cases hqi : q.1 = pid
  · rw [if_pos hqi] at hmap
    rw [← hmap] at hf
    exact absurd rfl hf
  · rw [if_neg hqi] at hmap
    exact hmap ▸ hq

theorem storeKids_pos_of_mem {s : List (Nat × BftwRec)} {i : Nat} {r : BftwRec} {j : Nat}
    (hmem : (i, r) ∈ s) (hpar : r.parent = some j) : 1 ≤ storeKids s j := by
  have hmf : (i, r) ∈ s.filter fun pr => pr.2.parent = some j :=
    List.mem_filter.mpr ⟨hmem, by simpa using hpar⟩
  have := List.length_pos.mpr (List.ne_nil_of_mem hmf)
  simpa [storeKids] using this

theorem walkWF_decr {st : WalkState Unit} {i : Nat} {r : BftwRec}
    (hwf : WalkWF st (some i)) (hr : storeGet st.store i = some r)
    (hpos : 1 ≤ storeKids st.store i)
    (hrc : r.refcount = 1 + storeKids st.store i) :
    WalkWF { st with store := storeSet st.store i { r with refcount := r.refcount - 1 } }
      none := by
  obtain ⟨hni, -⟩ := hwf.refCur i rfl
  have hparpres : ∀ pr ∈ st.store, pr.1 = i →
      pr.2.parent = ({ r with refcount := r.refcount - 1 } : BftwRec).parent := by
    intro pr hm hf
    have : storeGet st.store pr.1 = some pr.2 := by
      have hpr : pr = (pr.1, pr.2) := rfl
      exact mem_storeGet (by rw [← hpr]; exact hm) hwf.idsNodup
    rw [hf, hr] at this
    obtain ⟨h2⟩ := this
    rfl
  constructor
  case idsNodup => rw [storeSet_ids]; exact hwf.idsNodup
  case idsLt =>
    intro pr hm
    by_cases hf : pr.1 = i
    · rw [mem_storeSet_self hm hf]
      exact hwf.idsLt (i, r) (storeGet_mem hr)
    · exact hwf.idsLt pr (mem_storeSet_other hm hf)
  case dirqSub =>
    intro q hq
    obtain ⟨rq, hrq, hdq⟩ := hwf.dirqSub q hq
    have hqi : ¬ q.id = i := by
      intro h
      exact hni (h ▸ List.mem_map.mpr ⟨q, hq, rfl⟩)
    exact ⟨rq, by rw [storeGet_set_other _ _ _ hqi]; exact hrq, hdq⟩
  case dirqClean => exact hwf.dirqClean
  case dirqIdsNodup => exact hwf.dirqIdsNodup
  case refQueued =>
    intro q hq rq hrq
    have hqi : ¬ q.id = i := by
      intro h
      exact hni (h ▸ List.mem_map.mpr ⟨q, hq, rfl⟩)
    rw [storeGet_set_other _ _ _ hqi] at hrq
    obtain ⟨h1, h2, -⟩ := hwf.refQueued q hq rq hrq
    exact ⟨h1, by rw [storeKids_set hparpres]; exact h2, by simp⟩
  case refLive =>
    intro pr hm hq hc
    rw [storeKids_set hparpres]
    by_cases hf : pr.1 = i
    · rw [mem_storeSet_self hm hf]
      simp only [hf]
      constructor
      · omega
      · exact hpos
    · have hm2 := mem_storeSet_other hm hf
      exact hwf.refLive pr hm2 hq (by simpa using fun h => hf h.symm)
  case refCur =>
    intro j hj
    exact absurd hj (by simp)
  case parentOk =>
    intro pr hm pid hpid
    by_cases hf : pr.1 = i
    · have hpr := mem_storeSet_self hm hf
      rw [hpr] at hpid
      obtain ⟨rp, hrp, hdep⟩ := hwf.parentOk (i, r) (storeGet_mem hr) pid hpid
      have hpidi : ¬ pid = i := by
        intro h
        rw [h, hr] at hrp
        obtain ⟨h2⟩ := hrp
        simp at hdep
      refine ⟨rp, by rw [storeGet_set_other _ _ _ hpidi]; exact hrp, ?_⟩
      rw [hpr]
      exact hdep
    · have hm2 := mem_storeSet_other hm hf
      obtain ⟨rp, hrp, hdep⟩ := hwf.parentOk pr hm2 pid hpid
      by_cases hpidi : pid = i
      · subst hpidi
        rw [hr] at hrp
        obtain ⟨h2⟩ := hrp
        exact ⟨{ r with refcount := r.refcount - 1 },
          storeGet_set_self hr _, hdep⟩
      · exact ⟨rp, by rw [storeGet_set_other _ _ _ hpidi]; exact hrp, hdep⟩
  case recClean =>
    intro pr hm
    by_cases hf : pr.1 = i
    · rw [mem_storeSet_self hm hf]
      exact hwf.recClean (i, r) (storeGet_mem hr)
    · exact hwf.recClean pr (mem_storeSet_other hm hf)
  case prePosted =>
    intro pr hm
    by_cases hf : pr.1 = i
    · rw [mem_storeSet_self hm hf]
      exact hwf.prePosted (i, r) (storeGet_mem hr)
    · exact hwf.prePosted pr (mem_storeSet_other hm hf)
  case ordered => exact hwf.ordered
  case err0 => exact hwf.err0

theorem walkWF_free {st : WalkState Unit} {i : Nat} {r : BftwRec}
    (hwf : WalkWF st (some i)) (hr : storeGet st.store i = some r)
    (hkids : storeKids st.store i = 0) {tr2 : List Event}
    (hpre : prePaths tr2 = prePaths st.trace)
    (hord : postAfterPre tr2) :
    WalkWF { st with store := storeRemove st.store i, trace := tr2 }
      r.parent := by
  obtain ⟨hni, -⟩ := hwf.refCur i rfl
  have hifst : ∀ pr ∈ st.store, pr.1 = i → pr.2 = r := by
    intro pr hm hf
    have : storeGet st.store pr.1 = some pr.2 := by
      have hpr : pr = (pr.1, pr.2) := rfl
      exact mem_storeGet (by rw [← hpr]; exact hm) hwf.idsNodup
    rw [hf, hr] at this
    exact (Option.some.inj this).symm
  have hnotparent : ∀ j, r.parent = some j → 1 ≤ storeKids st.store j := by
    intro j hj
    exact storeKids_pos_of_mem (storeGet_mem hr) hj
  have hqueuedne : ∀ q ∈ st.dirq, ¬ q.id = i := by
    intro q hq h
    exact hni (h ▸ List.mem_map.mpr ⟨q, hq, rfl⟩)
  have hqueuedkids : ∀ q ∈ st.dirq, ∀ rq, storeGet st.store q.id = some rq →
      ¬ r.parent = some q.id := by
    intro q hq rq hrq hpar
    obtain ⟨-, h2, -⟩ := hwf.refQueued q hq rq hrq
    have := hnotparent q.id hpar
    omega
  constructor
  case idsNodup => exact storeRemove_ids_nodup i hwf.idsNodup
  case idsLt =>
    intro pr hm
    exact hwf.idsLt pr (mem_storeRemove hm).1
  case dirqSub =>
    intro q hq
    obtain ⟨rq, hrq, hdq⟩ := hwf.dirqSub q hq
    exact ⟨rq, by rw [storeGet_remove_other _ _ (hqueuedne q hq)]; exact hrq, hdq⟩
  case dirqClean => exact hwf.dirqClean
  case dirqIdsNodup => exact hwf.dirqIdsNodup
  case refQueued =>
    intro q hq rq hrq
    rw [storeGet_remove_other _ _ (hqueuedne q hq)] at hrq
    obtain ⟨h1, h2, -⟩ := hwf.refQueued q hq rq hrq
    refine ⟨h1, ?_, hqueuedkids q hq rq hrq⟩
    rw [storeKids_remove_ne]
    · exact h2
    · intro pr hm hf hpar
      rw [hifst pr hm hf] at hpar
      exact hqueuedkids q hq rq hrq hpar
  case refLive =>
    intro pr hm hq hc
    obtain ⟨hm2, hfne⟩ := mem_storeRemove hm
    have hkeq : storeKids (storeRemove st.store i) pr.1 = storeKids st.store pr.1 := by
      apply storeKids_remove_ne
      intro pr2 hm2b hf2 hpar2
      rw [hifst pr2 hm2b hf2] at hpar2
      exact hc (by rw [hpar2])
    rw [hkeq]
    exact hwf.refLive pr hm2 hq (by simpa using fun h => hfne h.symm)
  case refCur =>
    intro pid hpid
    obtain ⟨rp, hrp, hdep⟩ := hwf.parentOk (i, r) (storeGet_mem hr) pid hpid
    have hpidi : ¬ pid = i := by
      intro h
      rw [h, hr] at hrp
      obtain ⟨h2⟩ := hrp
      simp at hdep
    have hpidnq : pid ∉ dirqIds st := by
      intro hmem
      obtain ⟨q, hq, hqid⟩ := List.mem_map.mp hmem
      obtain ⟨-, h2, -⟩ := hwf.refQueued q hq rp (by rw [hqid]; exact hrp)
      have := hnotparent pid hpid
      rw [← hqid] at this
      omega
    refine ⟨hpidnq, rp, by rw [storeGet_remove_other _ _ hpidi]; exact hrp, ?_⟩
    have hlive := hwf.refLive (pid, rp) (storeGet_mem hrp) hpidnq
      (by simpa using fun h => hpidi h.symm)
    simp only [] at hlive
    have hkr := storeKids_remove_parent hwf.idsNodup (storeGet_mem hr) hpid
    simp only []
    omega
  case parentOk =>
    intro pr hm pid hpid
    obtain ⟨hm2, hfne⟩ := mem_storeRemove hm
    obtain ⟨rp, hrp, hdep⟩ := hwf.parentOk pr hm2 pid hpid
    have hpidi : ¬ pid = i := by
      intro h
      have : 1 ≤ storeKids st.store i :=
        storeKids_pos_of_mem (show (pr.1, pr.2) ∈ st.store from hm2) (by rw [h] at hpid; exact hpid)
      omega
    exact ⟨rp, by rw [storeGet_remove_other _ _ hpidi]; exact hrp, hdep⟩
  case recClean =>
    intro pr hm
    exact hwf.recClean pr (mem_storeRemove hm).1
  case prePosted =>
    intro pr hm
    have := hwf.prePosted pr (mem_storeRemove hm).1
    show pr.2.path ∈ prePaths tr2
    rw [hpre]
    exact this
  case ordered => exact hord
  case err0 => exact hwf.err0

theorem initFtwbuf_anc (flags : BftwFlags) (hdc : flags.detectCycles = false)
    (v : BftwVisit) (path : List String) (depth : Nat) (typ0 : BfsType)
    (statRes : Except Nat StatInfo) (e : Nat) (anc : List (Nat × Nat)) :
    bftwInitFtwbuf flags v path depth typ0 statRes e anc =
      bftwInitFtwbuf flags v path depth typ0 statRes e [] := by
  simp only [bftwInitFtwbuf, hdc]
  repeat' split
  all_goals simp_all

theorem initFtwbuf_dir (flags : BftwFlags) (v : BftwVisit) (path : List String)
    (depth : Nat) (si : StatInfo) (anc : List (Nat × Nat))
    (hdc : flags.detectCycles = false) (hsi : si.typ = .dir) :
    (bftwInitFtwbuf flags v path depth .dir (Except.ok si) 0 anc).typ = .dir ∧
    (bftwInitFtwbuf flags v path depth .dir (Except.ok si) 0 anc).error = 0 := by
  by_cases hstat : flags.stat = true <;>
    simp [bftwInitFtwbuf, bftwMustStat, hdc, hsi, hstat]

theorem initFtwbuf_clean (flags : BftwFlags) (path : List String) (depth : Nat)
    (typ0 : BfsType) (si : StatInfo) (anc : List (Nat × Nat))
    (hdc : flags.detectCycles = false)
    (htyp : typ0 = .unknown ∨ typ0 = si.typ) :
    (bftwInitFtwbuf flags .pre path depth typ0 (Except.ok si) 0 anc).typ = si.typ ∧
    (bftwInitFtwbuf flags .pre path depth typ0 (Except.ok si) 0 anc).error = 0 := by
  rcases htyp with h | h
  · subst h
    simp [bftwInitFtwbuf, bftwMustStat, hdc]
  · subst h
    by_cases hm : bftwMustStat flags depth si.typ = true <;>
      simp [bftwInitFtwbuf, hm, hdc] <;> (repeat' split) <;> simp_all

theorem callBack_post_fire (flags : BftwFlags) (f : Ftwbuf → CbRet)
    (hdc : flags.detectCycles = false) (hpo : flags.postOrder = true)
    (htame : ∀ b, f b = CbRet.cont ∨ f b = CbRet.prune)
    (st : WalkState Unit) (path : List String) (depth : Nat) (si : StatInfo)
    (hsi : si.typ = .dir) (anc : List (Nat × Nat)) :
    bftwCallBack flags (pureCb f) st path depth .dir (Except.ok si) 0 anc .post =
      (.prune, bftwInitFtwbuf flags .post path depth .dir (.ok si) 0 anc,
        { st with trace := st.trace ++
            [{ path := path, visit := .post, typ := .dir, error := 0 }] }) := by
  obtain ⟨ht, he⟩ := initFtwbuf_dir flags .post path depth si anc hdc hsi
  have hp := (initFtwbuf_fields flags .post path depth .dir (Except.ok si) 0 anc).2.2
  simp only [bftwCallBack]
  rw [if_neg (by simp [hpo])]
  rw [if_neg (by simp [ht])]
  rcases hf : f (bftwInitFtwbuf flags .post path depth .dir (Except.ok si) 0 anc)
    with _ | _ | _ | _
  · simp [pureCb, hf, hp, ht, he]
  · simp [pureCb, hf, hp, ht, he]
  · have hcontra := htame (bftwInitFtwbuf flags .post path depth .dir (Except.ok si) 0 anc)
    rw [hf] at hcontra
    rcases hcontra with h | h <;> exact absurd h (by simp)
  · have hcontra := htame (bftwInitFtwbuf flags .post path depth .dir (Except.ok si) 0 anc)
    rw [hf] at hcontra
    rcases hcontra with h | h <;> exact absurd h (by simp)


theorem gcCascade_clean (flags : BftwFlags) (f : Ftwbuf → CbRet)
    (hdc : flags.detectCycles = false)
    (htame : ∀ b, f b = CbRet.cont ∨ f b = CbRet.prune) :
    ∀ (fuel : Nat) (start : Option Nat) (first : Bool) (ret : Int) (st : WalkState Unit),
    WalkWF st start →
    (∀ i, start = some i → ∃ r, storeGet st.store i = some r ∧ r.depth < fuel) →
    (bftwGcCascade flags (pureCb f) fuel start first gcAll ret st).1 = ret ∧
    WalkWF (bftwGcCascade flags (pureCb f) fuel start first gcAll ret st).2 none ∧
    (bftwGcCascade flags (pureCb f) fuel start first gcAll ret st).2.dirq = st.dirq ∧
    (bftwGcCascade flags (pureCb f) fuel start first gcAll ret st).2.nextId = st.nextId ∧
    prePaths (bftwGcCascade flags (pureCb f) fuel start first gcAll ret st).2.trace =
      prePaths st.trace ∧
    (flags.postOrder = false →
      (bftwGcCascade flags (pureCb f) fuel start first gcAll ret st).2.trace = st.trace) ∧
    (flags.postOrder = true → ∀ p,
      (postPaths (bftwGcCascade flags (pureCb f) fuel start first gcAll ret
          st).2.trace).count p +
        (storePaths (bftwGcCascade flags (pureCb f) fuel start first gcAll ret
          st).2.store).count p =
      (postPaths st.trace).count p + (storePaths st.store).count p) := by
  intro fuel
  induction fuel with
  | zero =>
    intro start first ret st hwf hdep
    cases start with
    | none => exact ⟨rfl, hwf, rfl, rfl, rfl, fun _ => rfl, fun _ p => rfl⟩
    | some i =>
      obtain ⟨r, hr, hlt⟩ := hdep i rfl
      exact absurd hlt (Nat.not_lt_zero _)
  | succ n ih =>
    intro start first ret st hwf hdep
    cases start with
    | none => exact ⟨rfl, hwf, rfl, rfl, rfl, fun _ => rfl, fun _ p => rfl⟩
    | some i =>
      obtain ⟨r, hr, hdepth⟩ := hdep i rfl
      obtain ⟨hni, r2, hr2, hrc⟩ := hwf.refCur i rfl
      rw [hr] at hr2
      obtain ⟨hre⟩ := hr2
      simp only [bftwGcCascade]
      rw [hr]
      simp only []
      by_cases hpos : r.refcount - 1 > 0
      · rw [if_pos hpos]
        have hkpos : 1 ≤ storeKids st.store i := by omega
        have hwf2 := walkWF_decr hwf hr hkpos hrc
        have hsp : storePaths (storeSet st.store i { r with refcount := r.refcount - 1 }) =
            storePaths st.store := by
          apply storePaths_set
          intro pr hm hf2
          have hg : storeGet st.store pr.1 = some pr.2 :=
            mem_storeGet (show (pr.1, pr.2) ∈ st.store from hm) hwf.idsNodup
          rw [hf2, hr] at hg
          obtain ⟨h2⟩ := hg
          rfl
        refine ⟨rfl, hwf2, rfl, rfl, rfl, fun _ => rfl, fun _ p => ?_⟩
        simp only [hsp]
      · rw [if_neg hpos]
        have hkids : storeKids st.store i = 0 := by omega
        have hfire : (if first = true then gcAll.file else gcAll.parents) = true := by
          cases first <;> rfl
        rw [if_pos hfire]
        obtain ⟨htyp, si, hstat, hsityp⟩ := hwf.recClean (i, r) (storeGet_mem hr)
        simp only [] at htyp hstat
        have hppost := hwf.prePosted (i, r) (storeGet_mem hr)
        simp only [] at hppost
        have hdep3 : ∀ j, r.parent = some j →
            ∃ rp, storeGet (storeRemove st.store i) j = some rp ∧ rp.depth < n := by
          intro j hj
          obtain ⟨rp, hrp, hdp⟩ := hwf.parentOk (i, r) (storeGet_mem hr) j hj
          have hji : ¬ j = i := by
            intro h
            rw [h, hr] at hrp
            obtain ⟨h2⟩ := hrp
            simp at hdp
          refine ⟨rp, by rw [storeGet_remove_other _ _ hji]; exact hrp, ?_⟩
          simp only [] at hdp
          omega
        by_cases hpo : flags.postOrder = true
        · rw [htyp, hstat, callBack_post_fire flags f hdc hpo htame st r.path r.depth si
            hsityp (devinoChain st.store r.depth r.parent)]
          simp only []
          have hpre2 : prePaths (st.trace ++
              [({ path := r.path, visit := .post, typ := .dir, error := 0 } : Event)]) =
              prePaths st.trace := by
            rw [prePaths_append]
            simp [prePaths]
          have hord2 : postAfterPre (st.trace ++
              [({ path := r.path, visit := .post, typ := .dir, error := 0 } : Event)]) :=
            postAfterPre_snoc hwf.ordered (fun _ => hppost)
          have hwf3 := walkWF_free hwf hr hkids hpre2 hord2
          obtain ⟨i1, i2, i3, i4, i5, i6, i7⟩ := ih r.parent false ret ({ st with store := storeRemove st.store i, trace := st.trace ++ [({ path := r.path, visit := .post, typ := .dir, error := 0 } : Event)] }) hwf3 hdep3
          refine ⟨i1, i2, i3, i4, ?_, ?_, fun _ p => ?_⟩
          · rw [i5]
            exact hpre2
          · intro hpof
            rw [hpof] at hpo
            exact absurd hpo (by simp)
          · have h7 := i7 hpo p
            simp only [] at h7
            have hpost2 : (postPaths (st.trace ++
                [({ path := r.path, visit := .post, typ := .dir, error := 0 } : Event)])).count p =
                (postPaths st.trace).count p + (if r.path = p then 1 else 0) := by
              rw [postPaths_append, List.count_append]
              simp [postPaths, List.count_cons]
            have hstore2 := storePaths_remove_count hwf.idsNodup (storeGet_mem hr) p
            rw [hpost2] at h7
            omega
        · have hpof : flags.postOrder = false := by
            revert hpo
            cases flags.postOrder <;> simp
          rw [htyp, hstat, callBack_post_skip flags (pureCb f) st r.path r.depth .dir
            (Except.ok si) 0 (devinoChain st.store r.depth r.parent) hpof]
          simp only []
          have hwf3 := walkWF_free hwf hr hkids rfl hwf.ordered
          obtain ⟨i1, i2, i3, i4, i5, i6, i7⟩ := ih r.parent false ret
            ({ st with store := storeRemove st.store i }) hwf3 hdep3
          refine ⟨i1, i2, i3, i4, i5, i6, fun hpot _ => ?_⟩
          rw [hpot] at hpof
          exact absurd hpof (by simp)

theorem gc_clean (flags : BftwFlags) (f : Ftwbuf → CbRet)
    (hdc : flags.detectCycles = false)
    (htame : ∀ b, f b = CbRet.cont ∨ f b = CbRet.prune)
    (st : WalkState Unit) (d : QEnt) (hwf : WalkWF st (some d.id))
    (hdsub : ∃ r, storeGet st.store d.id = some r ∧ r.depth = d.depth) :
    (bftwGc flags (pureCb f) st d 0 gcAll).1 = 0 ∧
    WalkWF (bftwGc flags (pureCb f) st d 0 gcAll).2 none ∧
    (bftwGc flags (pureCb f) st d 0 gcAll).2.dirq = st.dirq ∧
    (bftwGc flags (pureCb f) st d 0 gcAll).2.nextId = st.nextId ∧
    prePaths (bftwGc flags (pureCb f) st d 0 gcAll).2.trace = prePaths st.trace ∧
    (flags.postOrder = false →
      (bftwGc flags (pureCb f) st d 0 gcAll).2.trace = st.trace) ∧
    (flags.postOrder = true → ∀ p,
      (postPaths (bftwGc flags (pureCb f) st d 0 gcAll).2.trace).count p +
        (storePaths (bftwGc flags (pureCb f) st d 0 gcAll).2.store).count p =
      (postPaths st.trace).count p + (storePaths st.store).count p) := by
  obtain ⟨r, hr, hrd⟩ := hdsub
  have hdep : ∀ i, some d.id = some i →
      ∃ r2, storeGet st.store i = some r2 ∧ r2.depth < d.depth + 1 := by
    intro i hi
    obtain ⟨hi2⟩ := hi
    exact ⟨r, hr, by omega⟩
  have h := gcCascade_clean flags f hdc htame (d.depth + 1) (some d.id) true 0 st hwf hdep
  simp only [bftwGc]
  rw [if_neg (by simp)]
  exact h

theorem callBack_pre_clean (flags : BftwFlags) (f : Ftwbuf → CbRet)
    (hdc : flags.detectCycles = false)
    (htame : ∀ b, f b = CbRet.cont ∨ f b = CbRet.prune)
    (st : WalkState Unit) (path : List String) (depth : Nat) (typ0 : BfsType)
    (si : StatInfo) (anc : List (Nat × Nat))
    (htyp : typ0 = .unknown ∨ typ0 = si.typ) (hsierr : ¬ si.typ = .error) :
    bftwCallBack flags (pureCb f) st path depth typ0 (Except.ok si) 0 anc .pre =
      ((if f (bftwInitFtwbuf flags .pre path depth typ0 (Except.ok si) 0 []) = CbRet.cont ∧
            si.typ = .dir then BftwAction.cont else BftwAction.prune),
        bftwInitFtwbuf flags .pre path depth typ0 (Except.ok si) 0 [],
        { st with trace := st.trace ++
            [({ path := path, visit := .pre, typ := si.typ, error := 0 } : Event)] }) := by
  have hanc := initFtwbuf_anc flags hdc .pre path depth typ0 (Except.ok si) 0 anc
  obtain ⟨ht, he⟩ := initFtwbuf_clean flags path depth typ0 si [] hdc htyp
  have hp := (initFtwbuf_fields flags .pre path depth typ0 (Except.ok si) 0 []).2.2
  simp only [bftwCallBack, hanc]
  rw [if_neg (by simp)]
  rw [if_neg (by simp [ht, hsierr])]
  rcases hf : f (bftwInitFtwbuf flags .pre path depth typ0 (Except.ok si) 0 [])
    with _ | _ | _ | _
  · simp only [pureCb, hf]
    by_cases hd : si.typ = .dir <;> simp [hf, hp, ht, he, hd]
  · simp only [pureCb, hf]
    simp [hf, hp, ht, he]
  · have hcontra := htame (bftwInitFtwbuf flags .pre path depth typ0 (Except.ok si) 0 [])
    rw [hf] at hcontra
    rcases hcontra with h | h <;> exact absurd h (by simp)
  · have hcontra := htame (bftwInitFtwbuf flags .pre path depth typ0 (Except.ok si) 0 [])
    rw [hf] at hcontra
    rcases hcontra with h | h <;> exact absurd h (by simp)

theorem storeGet_append_left {s : List (Nat × BftwRec)} {j : Nat} {x : BftwRec}
    (h : storeGet s j = some x) (t : List (Nat × BftwRec)) :
    storeGet (s ++ t) j = some x := by
  induction s with
  | nil => simp [storeGet] at h
  | cons p rest ih =>
    rw [storeGet_cons] at h
    rw [List.cons_append, storeGet_cons]
    by_cases hp : p.1 = j
    · rw [if_pos hp] at h ⊢
      exact h
    · rw [if_neg hp] at h ⊢
      exact ih h

theorem storeGet_append_right {s : List (Nat × BftwRec)} {j : Nat}
    (h : storeGet s j = none) (t : List (Nat × BftwRec)) :
    storeGet (s ++ t) j = storeGet t j := by
  induction s with
  | nil => rfl
  | cons p rest ih =>
    rw [storeGet_cons] at h
    rw [List.cons_append, storeGet_cons]
    by_cases hp : p.1 = j
    · rw [if_pos hp] at h
      exact absurd h (by simp)
    · rw [if_neg hp] at h
      rw [if_neg hp]
      exact ih h

theorem storeGet_none_of_ge {s : List (Nat × BftwRec)} {N : Nat}
    (h : ∀ pr ∈ s, pr.1 < N) : storeGet s N = none := by
  induction s with
  | nil => rfl
  | cons p rest ih =>
    rw [storeGet_cons, if_neg (by have := h p (List.mem_cons_self p rest); omega)]
    exact ih fun pr hm => h pr (List.mem_cons_of_mem p hm)

theorem storeKids_zero_of {s : List (Nat × BftwRec)} {j : Nat}
    (h : ∀ pr ∈ s, ¬ pr.2.parent = some j) : storeKids s j = 0 := by
  simp only [storeKids, List.length_eq_zero]
  rw [List.filter_eq_nil]
  intro pr hm
  simpa using h pr hm

theorem walkWF_push {st : WalkState Unit} {d : QEnt} {rd : BftwRec} {r : BftwRec}
    (hwf : WalkWF st (some d.id))
    (hrd : storeGet st.store d.id = some rd) (hrdd : rd.depth = d.depth)
    (hrpar : r.parent = some d.id) (hrrc : r.refcount = 1)
    (hrdep : r.depth = d.depth + 1) (hrtyp : r.typ = .dir)
    (hrstat : ∃ si, r.info.stat = Except.ok si ∧ si.typ = .dir)
    {ctree : FSTree} (hclean : cleanTree ctree = true)
    {ev : Event} (hevv : ev.visit = .pre) (hevp : ev.path = r.path) :
    WalkWF { st with
      store := storeIncRef (st.store ++ [(st.nextId, r)]) (some d.id),
      dirq := st.dirq ++ [({ id := st.nextId, path := r.path, depth := d.depth + 1, tree := ctree } : QEnt)],
      trace := st.trace ++ [ev],
      nextId := st.nextId + 1 } (some d.id) := by
  have hdidlt : d.id < st.nextId := hwf.idsLt (d.id, rd) (storeGet_mem hrd)
  have hdidN : ¬ d.id = st.nextId := by omega
  have hNnotin : ∀ pr ∈ st.store, pr.1 < st.nextId := hwf.idsLt
  have hgetN : storeGet (st.store ++ [(st.nextId, r)]) st.nextId = some r := by
    rw [storeGet_append_right (storeGet_none_of_ge hNnotin)]
    rw [storeGet_cons, if_pos rfl]
  have hgetNinc : storeGet (storeIncRef (st.store ++ [(st.nextId, r)]) (some d.id))
      st.nextId = some r := by
    rw [storeGet_incRef_other _ _ (fun h => hdidN h.symm)]
    exact hgetN
  have hgetOld : ∀ j, ¬ j = d.id → ¬ j = st.nextId →
      storeGet (storeIncRef (st.store ++ [(st.nextId, r)]) (some d.id)) j =
        storeGet st.store j := by
    intro j hj hjN
    rw [storeGet_incRef_other _ _ hj]
    by_cases hget : storeGet st.store j = none
    · rw [storeGet_append_right hget, hget, storeGet_cons,
        if_neg (fun h => hjN h.symm)]
      rfl
    · obtain ⟨x, hx⟩ := Option.ne_none_iff_exists'.mp hget
      rw [storeGet_append_left hx, hx]
  have hgetD : storeGet (storeIncRef (st.store ++ [(st.nextId, r)]) (some d.id)) d.id =
      some { rd with refcount := rd.refcount + 1 } :=
    storeGet_incRef_self (storeGet_append_left hrd _)
  have hkids : ∀ j, storeKids (storeIncRef (st.store ++ [(st.nextId, r)]) (some d.id)) j =
      storeKids st.store j + (if r.parent = some j then 1 else 0) := by
    intro j
    rw [storeKids_incRef, storeKids_append]
  have hkidsN : storeKids st.store st.nextId = 0 := by
    apply storeKids_zero_of
    intro pr hm hpar
    obtain ⟨rp, hrp, -⟩ := hwf.parentOk pr hm st.nextId hpar
    have := hwf.idsLt (st.nextId, rp) (storeGet_mem hrp)
    omega
  have hmemElim : ∀ pr, pr ∈ storeIncRef (st.store ++ [(st.nextId, r)]) (some d.id) →
      (pr = (st.nextId, r) ∧ ¬ pr.1 = d.id) ∨
      (pr = (d.id, { rd with refcount := rd.refcount + 1 })) ∨
      (pr ∈ st.store ∧ ¬ pr.1 = d.id) := by
    intro pr hm
    by_cases hf : pr.1 = d.id
    · obtain ⟨r0, hr0mem, hr0eq⟩ := mem_storeIncRef_self hm hf
      rcases List.mem_append.mp hr0mem with hin | hin
      · have : storeGet st.store d.id = some r0 := mem_storeGet hin hwf.idsNodup
        rw [hrd] at this
        obtain ⟨h2⟩ := this
        exact Or.inr (Or.inl hr0eq)
      · exfalso
        rcases List.mem_singleton.mp hin with h2
        have h3 : d.id = st.nextId := congrArg Prod.fst h2
        omega
    · have hin := mem_storeIncRef_other hm hf
      rcases List.mem_append.mp hin with hin2 | hin2
      · exact Or.inr (Or.inr ⟨hin2, hf⟩)
      · rcases List.mem_singleton.mp hin2 with h2
        exact Or.inl ⟨h2, hf⟩
  have hDirqIdsLt : ∀ j ∈ dirqIds st, j < st.nextId := by
    intro j hj
    obtain ⟨q, hq, hqid⟩ := List.mem_map.mp hj
    obtain ⟨rq, hrq, -⟩ := hwf.dirqSub q hq
    have := hwf.idsLt (q.id, rq) (storeGet_mem hrq)
    omega
  have hprePathsNew : prePaths (st.trace ++ [ev]) = prePaths st.trace ++ [ev.path] := by
    rw [prePaths_append]
    simp [prePaths, hevv]
  constructor
  case idsNodup =>
    rw [storeIncRef_ids, List.map_append]
    simp only [List.map_cons, List.map_nil]
    rw [List.nodup_append]
    refine ⟨hwf.idsNodup, List.nodup_singleton _, ?_⟩
    intro a ha hb
    rcases List.mem_singleton.mp hb with rfl
    obtain ⟨pr, hpr, hpreq⟩ := List.mem_map.mp ha
    have := hwf.idsLt pr hpr
    omega
  case idsLt =>
    intro pr hm
    rcases hmemElim pr hm with ⟨h1, -⟩ | h1 | ⟨h1, -⟩
    · rw [h1]; simp
    · rw [h1]; simp only []; omega
    · have := hwf.idsLt pr h1; simp only []; omega
  case dirqSub =>
    intro q hq
    rcases List.mem_append.mp hq with hq2 | hq2
    · obtain ⟨rq, hrq, hdq⟩ := hwf.dirqSub q hq2
      have hqd : ¬ q.id = d.id := by
        intro h
        exact (hwf.refCur d.id rfl).1 (h ▸ List.mem_map.mpr ⟨q, hq2, rfl⟩)
      have hqN : ¬ q.id = st.nextId := by
        have := hDirqIdsLt q.id (List.mem_map.mpr ⟨q, hq2, rfl⟩)
        omega
      exact ⟨rq, by rw [hgetOld q.id hqd hqN]; exact hrq, hdq⟩
    · rcases List.mem_singleton.mp hq2 with rfl
      exact ⟨r, hgetNinc, by simp [hrdep]⟩
  case dirqClean =>
    intro q hq
    rcases List.mem_append.mp hq with hq2 | hq2
    · exact hwf.dirqClean q hq2
    · rcases List.mem_singleton.mp hq2 with rfl
      exact hclean
  case dirqIdsNodup =>
    show ((st.dirq ++ [_]).map QEnt.id).Nodup
    rw [List.map_append]
    simp only [List.map_cons, List.map_nil]
    rw [List.nodup_append]
    refine ⟨hwf.dirqIdsNodup, List.nodup_singleton _, ?_⟩
    intro a ha hb
    rcases List.mem_singleton.mp hb with rfl
    have h2 := hDirqIdsLt _ ha
    simp only [] at h2
    omega
  case refQueued =>
    intro q hq rq hrq
    rcases List.mem_append.mp hq with hq2 | hq2
    · have hqd : ¬ q.id = d.id := by
        intro h
        exact (hwf.refCur d.id rfl).1 (h ▸ List.mem_map.mpr ⟨q, hq2, rfl⟩)
      have hqN : ¬ q.id = st.nextId := by
        have := hDirqIdsLt q.id (List.mem_map.mpr ⟨q, hq2, rfl⟩)
        omega
      rw [hgetOld q.id hqd hqN] at hrq
      obtain ⟨h1, h2, -⟩ := hwf.refQueued q hq2 rq hrq
      refine ⟨h1, ?_, by simpa using fun h => hqd h.symm⟩
      rw [hkids, hrpar, if_neg (by simpa using fun h => hqd (Option.some.inj h).symm)]
      omega
    · rcases List.mem_singleton.mp hq2 with rfl
      simp only [] at hrq
      rw [hgetNinc] at hrq
      obtain ⟨h2⟩ := hrq
      refine ⟨hrrc, ?_, by simpa using fun h => hdidN h⟩
      rw [hkids, hrpar, if_neg (by simpa using fun h => hdidN (Option.some.inj h))]
      simp only []
      omega
  case refLive =>
    intro pr hm hnq hc
    have hprd : ¬ pr.1 = d.id := by simpa using fun h => hc (by rw [h])
    have hprN : ¬ pr.1 = st.nextId := by
      intro h
      apply hnq
      show pr.1 ∈ (st.dirq ++ [_]).map QEnt.id
      rw [List.map_append]
      apply List.mem_append_right
      simp [h]
    rcases hmemElim pr hm with ⟨h1, -⟩ | h1 | ⟨h1, -⟩
    · rw [h1] at hprN
      exact absurd rfl hprN
    · rw [h1] at hprd
      exact absurd rfl hprd
    · have hnq2 : pr.1 ∉ dirqIds st := by
        intro h
        apply hnq
        show pr.1 ∈ (st.dirq ++ [_]).map QEnt.id
        rw [List.map_append]
        exact List.mem_append_left _ h
      obtain ⟨h2, h3⟩ := hwf.refLive pr h1 hnq2 (by simpa using fun h => hprd h.symm)
      rw [hkids, hrpar, if_neg (by simpa using fun h => hprd (Option.some.inj h).symm)]
      constructor
      · omega
      · omega
  case refCur =>
    intro i hi
    obtain ⟨hi2⟩ := hi
    constructor
    · intro h
      show False
      have : d.id ∈ (st.dirq ++ [_]).map QEnt.id := h
      rw [List.map_append] at this
      rcases List.mem_append.mp this with h2 | h2
      · exact (hwf.refCur d.id rfl).1 h2
      · simp only [List.map_cons, List.map_nil, List.mem_singleton] at h2
        omega
    · refine ⟨{ rd with refcount := rd.refcount + 1 }, hgetD, ?_⟩
      obtain ⟨-, rc2, hrc2, hrcc⟩ := hwf.refCur d.id rfl
      rw [hrd] at hrc2
      obtain ⟨h2⟩ := hrc2
      rw [hkids, hrpar, if_pos rfl]
      simp only []
      omega
  case parentOk =>
    intro pr hm pid hpid
    rcases hmemElim pr hm with ⟨h1, -⟩ | h1 | ⟨h1, -⟩
    · rw [h1] at hpid ⊢
      simp only [] at hpid
      rw [hrpar] at hpid
      obtain ⟨h2⟩ := hpid
      refine ⟨{ rd with refcount := rd.refcount + 1 }, hgetD, ?_⟩
      simp only []
      rw [hrdd, hrdep]
    · rw [h1] at hpid ⊢
      simp only [] at hpid
      obtain ⟨rp, hrp, hdp⟩ := hwf.parentOk (d.id, rd) (storeGet_mem hrd) pid hpid
      have hpidd : ¬ pid = d.id := by
        intro h
        rw [h, hrd] at hrp
        obtain ⟨h2⟩ := hrp
        simp at hdp
      have hpidN : ¬ pid = st.nextId := by
        have := hwf.idsLt (pid, rp) (storeGet_mem hrp)
        omega
      exact ⟨rp, by rw [hgetOld pid hpidd hpidN]; exact hrp, hdp⟩
    · obtain ⟨rp, hrp, hdp⟩ := hwf.parentOk pr h1 pid hpid
      have hpidN : ¬ pid = st.nextId := by
        have := hwf.idsLt (pid, rp) (storeGet_mem hrp)
        omega
      by_cases hpidd : pid = d.id
      · subst hpidd
        rw [hrd] at hrp
        obtain ⟨h2⟩ := hrp
        exact ⟨{ rd with refcount := rd.refcount + 1 }, hgetD, hdp⟩
      · exact ⟨rp, by rw [hgetOld pid hpidd hpidN]; exact hrp, hdp⟩
  case recClean =>
    intro pr hm
    rcases hmemElim pr hm with ⟨h1, -⟩ | h1 | ⟨h1, -⟩
    · rw [h1]
      exact ⟨hrtyp, hrstat⟩
    · rw [h1]
      exact hwf.recClean (d.id, rd) (storeGet_mem hrd)
    · exact hwf.recClean pr h1
  case prePosted =>
    intro pr hm
    show pr.2.path ∈ prePaths (st.trace ++ [ev])
    rw [hprePathsNew]
    rcases hmemElim pr hm with ⟨h1, -⟩ | h1 | ⟨h1, -⟩
    · rw [h1]
      simp only []
      rw [← hevp]
      exact List.mem_append_right _ (List.mem_singleton.mpr rfl)
    · rw [h1]
      exact List.mem_append_left _ (hwf.prePosted (d.id, rd) (storeGet_mem hrd))
    · exact List.mem_append_left _ (hwf.prePosted pr h1)
  case ordered =>
    exact postAfterPre_snoc hwf.ordered (fun h => absurd (hevv ▸ h) (by simp [hevv]))
  case err0 => exact hwf.err0

theorem walkWF_trace_pre {st : WalkState Unit} {cur : Option Nat} (hwf : WalkWF st cur)
    {ev : Event} (hevv : ev.visit = .pre) :
    WalkWF { st with trace := st.trace ++ [ev] } cur := by
  constructor
  case idsNodup => exact hwf.idsNodup
  case idsLt => exact hwf.idsLt
  case dirqSub => exact hwf.dirqSub
  case dirqClean => exact hwf.dirqClean
  case dirqIdsNodup => exact hwf.dirqIdsNodup
  case refQueued => exact hwf.refQueued
  case refLive => exact hwf.refLive
  case refCur => exact hwf.refCur
  case parentOk => exact hwf.parentOk
  case recClean => exact hwf.recClean
  case prePosted =>
    intro pr hm
    show pr.2.path ∈ prePaths (st.trace ++ [ev])
    rw [prePaths_append]
    exact List.mem_append_left _ (hwf.prePosted pr hm)
  case ordered =>
    exact postAfterPre_snoc hwf.ordered (fun h => absurd (hevv ▸ h) (by simp [hevv]))
  case err0 => exact hwf.err0

theorem dirqPre_append (flags : BftwFlags) (f : Ftwbuf → CbRet) (dq1 dq2 : List QEnt) :
    dirqPre flags f (dq1 ++ dq2) = dirqPre flags f dq1 ++ dirqPre flags f dq2 := by
  simp [dirqPre]

theorem dirqPost_append (flags : BftwFlags) (f : Ftwbuf → CbRet) (dq1 dq2 : List QEnt) :
    dirqPost flags f (dq1 ++ dq2) = dirqPost flags f dq1 ++ dirqPost flags f dq2 := by
  simp [dirqPost]

theorem cleanTree_node {info : NodeInfo} {cs : List (String × FSTree)}
    (h : cleanTree (.node info cs) = true) :
    ∃ si, info.stat = Except.ok si ∧ ¬ si.typ = .error ∧
      (info.hint = .unknown ∨ info.hint = si.typ) ∧ info.openErr = none ∧
      (cs.map Prod.fst).Nodup ∧ cleanForest cs = true := by
  rw [cleanTree] at h
  rcases hstat : info.stat with e | si
  · rw [hstat] at h
    simp at h
  · rw [hstat] at h
    simp only [Bool.and_eq_true, decide_eq_true_eq, beq_iff_eq, Bool.or_eq_true,
      Bool.not_eq_true'] at h
    exact ⟨si, rfl, by simpa using h.1.1.1.2, h.1.1.1.1, h.1.1.2, h.1.2, h.2⟩

theorem visitOne_clean_child (flags : BftwFlags) (f : Ftwbuf → CbRet)
    (hdc : flags.detectCycles = false)
    (htame : ∀ b, f b = CbRet.cont ∨ f b = CbRet.prune)
    (st : WalkState Unit) (d : QEnt) (n : String) (c : FSTree)
    (hwf : WalkWF st (some d.id))
    (hdsub : ∃ r, storeGet st.store d.id = some r ∧ r.depth = d.depth)
    (hclean : cleanTree c = true) :
    (bftwVisitOne flags (pureCb f) st (some d) n c).1 = false ∧
    WalkWF (bftwVisitOne flags (pureCb f) st (some d) n c).2 (some d.id) ∧
    (∃ r2, storeGet (bftwVisitOne flags (pureCb f) st (some d) n c).2.store d.id = some r2 ∧
      r2.depth = d.depth) ∧
    (bftwVisitOne flags (pureCb f) st (some d) n c).2.nextId ≥ st.nextId ∧
    (∀ p, (prePaths (bftwVisitOne flags (pureCb f) st (some d) n c).2.trace ++
        dirqPre flags f (bftwVisitOne flags (pureCb f) st (some d) n c).2.dirq).count p =
      (prePaths st.trace ++ dirqPre flags f st.dirq).count p +
      (specPre flags f (d.path ++ [n]) (d.depth + 1) c.info.hint c).count p) ∧
    (∀ p, (postPaths (bftwVisitOne flags (pureCb f) st (some d) n c).2.trace).count p +
        (storePaths (bftwVisitOne flags (pureCb f) st (some d) n c).2.store).count p +
        (dirqPost flags f (bftwVisitOne flags (pureCb f) st (some d) n c).2.dirq).count p =
      (postPaths st.trace).count p + (storePaths st.store).count p +
        (dirqPost flags f st.dirq).count p +
      (specPost flags f (d.path ++ [n]) (d.depth + 1) c.info.hint c).count p) ∧
    postPaths (bftwVisitOne flags (pureCb f) st (some d) n c).2.trace =
      postPaths st.trace := by
  obtain ⟨rd, hrd, hrdd⟩ := hdsub
  cases c with
  | node info cs =>
  obtain ⟨si, hstat, hsierr, hhint, hopen, hnd, hcf⟩ := cleanTree_node hclean
  simp only [bftwVisitOne, FSTree.info]
  rw [hstat]
  rw [callBack_pre_clean flags f hdc htame st (d.path ++ [n]) (d.depth + 1) info.hint si
    (devinoChain st.store (d.depth + 1) (some d.id)) hhint hsierr]
  set b := bftwInitFtwbuf flags .pre (d.path ++ [n]) (d.depth + 1) info.hint
    (Except.ok si) 0 [] with hbdef
  have hb := initFtwbuf_clean flags (d.path ++ [n]) (d.depth + 1) info.hint si [] hdc hhint
  have hspecpre : specPre flags f (d.path ++ [n]) (d.depth + 1) info.hint (.node info cs) =
      (d.path ++ [n]) ::
        (if f b = CbRet.cont ∧ si.typ = .dir then
          specPreForest flags f (d.path ++ [n]) (d.depth + 1) cs else []) := by
    rw [specPre, hstat]
    congr 2
    rw [hb.1]
  have hspecpost : specPost flags f (d.path ++ [n]) (d.depth + 1) info.hint (.node info cs) =
      (if f b = CbRet.cont ∧ si.typ = .dir then
        (d.path ++ [n]) :: specPostForest flags f (d.path ++ [n]) (d.depth + 1) cs
      else []) := by
    rw [specPost, hstat]
    congr 1
    rw [hb.1]
  by_cases hcd : f b = CbRet.cont ∧ si.typ = .dir
  · rw [if_pos hcd]
    simp only []
    rw [hspecpre, hspecpost, if_pos hcd, if_pos hcd]
    have hwf2 := walkWF_push (d := d) (r := ({ parent := some d.id, refcount := 1, path := d.path ++ [n], depth := d.depth + 1, typ := b.typ, devino := b.statInfo.map fun si2 => (si2.dev, si2.ino), info := info } : BftwRec)) hwf hrd hrdd rfl rfl rfl (by simp only []; rw [hb.1]; exact hcd.2) ⟨si, hstat, hcd.2⟩ hclean (show ({ path := d.path ++ [n], visit := .pre, typ := si.typ, error := 0 } : Event).visit = BftwVisit.pre from rfl) rfl
    refine ⟨?one, ?two, ?three, ?four, fun p => ?five, fun p => ?six, ?seven⟩
    case one => trivial
    case two => exact hwf2
    case seven =>
      show postPaths (st.trace ++ _) = postPaths st.trace
      rw [postPaths_append]
      simp [postPaths]
    case three =>
      refine ⟨{ rd with refcount := rd.refcount + 1 }, ?_, by simpa using hrdd⟩
      exact storeGet_incRef_self (storeGet_append_left hrd _)
    case four =>
      omega
    case five =>
      rw [prePaths_append, dirqPre_append]
      simp only [dirqPre, qPendingPre, FSTree.children, List.map_cons, List.map_nil,
        List.flatten, List.append_nil, prePaths, List.filter_cons, List.filter_nil]
      try simp [List.count_append, List.count_cons]
      omega
    case six =>
      rw [postPaths_append, dirqPost_append]
      simp only [Option.map_some']
      have hsp2 : storePaths (storeIncRef (st.store ++ [(st.nextId, ({ parent := some d.id, refcount := 1, path := d.path ++ [n], depth := d.depth + 1, typ := b.typ, devino := b.statInfo.map fun si2 => (si2.dev, si2.ino), info := info } : BftwRec))]) (some d.id)) = storePaths st.store ++ [d.path ++ [n]] := by
        rw [storePaths_incRef, storePaths_append]
      rw [hsp2]
      simp only [dirqPost, qPendingPost, FSTree.children, List.map_cons, List.map_nil,
        List.flatten, List.append_nil, postPaths, List.filter_cons, List.filter_nil]
      try simp [List.count_append, List.count_cons]
      omega
  · rw [if_neg hcd]
    simp only []
    rw [hspecpre, hspecpost, if_neg hcd, if_neg hcd]
    have hwf2 := walkWF_trace_pre hwf
      (show ({ path := d.path ++ [n], visit := .pre, typ := si.typ, error := 0 } : Event).visit = .pre from rfl)
    refine ⟨?one2, ?two2, ?three2, ?four2, fun p => ?five2, fun p => ?six2, ?seven2⟩
    case one2 => trivial
    case two2 => exact hwf2
    case three2 => exact ⟨rd, hrd, hrdd⟩
    case four2 => omega
    case seven2 =>
      show postPaths (st.trace ++ _) = postPaths st.trace
      rw [postPaths_append]
      simp [postPaths]
    case five2 =>
      rw [prePaths_append]
      simp only [prePaths, List.filter_cons, List.filter_nil]
      try simp [List.count_append, List.count_cons]
      omega
    case six2 =>
      rw [postPaths_append]
      simp only [postPaths, List.filter_cons, List.filter_nil]
      try simp [List.count_append]
      try omega

theorem walkWF_push_root {st : WalkState Unit} {r : BftwRec}
    (hwf : WalkWF st none)
    (hrpar : r.parent = none) (hrrc : r.refcount = 1)
    (hrdep : r.depth = 0) (hrtyp : r.typ = .dir)
    (hrstat : ∃ si, r.info.stat = Except.ok si ∧ si.typ = .dir)
    {ctree : FSTree} (hclean : cleanTree ctree = true)
    {ev : Event} (hevv : ev.visit = .pre) (hevp : ev.path = r.path) :
    WalkWF { st with
      store := st.store ++ [(st.nextId, r)],
      dirq := st.dirq ++ [({ id := st.nextId, path := r.path, depth := 0, tree := ctree } : QEnt)],
      trace := st.trace ++ [ev],
      nextId := st.nextId + 1 } none := by
  have hNnotin : ∀ pr ∈ st.store, pr.1 < st.nextId := hwf.idsLt
  have hgetN : storeGet (st.store ++ [(st.nextId, r)]) st.nextId = some r := by
    rw [storeGet_append_right (storeGet_none_of_ge hNnotin)]
    rw [storeGet_cons, if_pos rfl]
  have hgetOld : ∀ j, ¬ j = st.nextId →
      storeGet (st.store ++ [(st.nextId, r)]) j = storeGet st.store j := by
    intro j hjN
    by_cases hget : storeGet st.store j = none
    · rw [storeGet_append_right hget, hget, storeGet_cons,
        if_neg (fun h => hjN h.symm)]
      rfl
    · obtain ⟨x, hx⟩ := Option.ne_none_iff_exists'.mp hget
      rw [storeGet_append_left hx, hx]
  have hkids : ∀ j, storeKids (st.store ++ [(st.nextId, r)]) j =
      storeKids st.store j := by
    intro j
    rw [storeKids_append, hrpar]
    simp
  have hkidsN : storeKids st.store st.nextId = 0 := by
    apply storeKids_zero_of
    intro pr hm hpar
    obtain ⟨rp, hrp, -⟩ := hwf.parentOk pr hm st.nextId hpar
    have := hwf.idsLt (st.nextId, rp) (storeGet_mem hrp)
    omega
  have hmemElim : ∀ pr, pr ∈ st.store ++ [(st.nextId, r)] →
      pr ∈ st.store ∨ pr = (st.nextId, r) := by
    intro pr hm
    rcases List.mem_append.mp hm with h | h
    · exact Or.inl h
    · exact Or.inr (List.mem_singleton.mp h)
  have hDirqIdsLt : ∀ j ∈ dirqIds st, j < st.nextId := by
    intro j hj
    obtain ⟨q, hq, hqid⟩ := List.mem_map.mp hj
    obtain ⟨rq, hrq, -⟩ := hwf.dirqSub q hq
    have := hwf.idsLt (q.id, rq) (storeGet_mem hrq)
    omega
  have hprePathsNew : prePaths (st.trace ++ [ev]) = prePaths st.trace ++ [ev.path] := by
    rw [prePaths_append]
    simp [prePaths, hevv]
  constructor
  case idsNodup =>
    rw [List.map_append]
    simp only [List.map_cons, List.map_nil]
    rw [List.nodup_append]
    refine ⟨hwf.idsNodup, List.nodup_singleton _, ?_⟩
    intro a ha hb
    rcases List.mem_singleton.mp hb with rfl
    obtain ⟨pr, hpr, hpreq⟩ := List.mem_map.mp ha
    have := hwf.idsLt pr hpr
    omega
  case idsLt =>
    intro pr hm
    rcases hmemElim pr hm with h1 | h1
    · have := hwf.idsLt pr h1; simp only []; omega
    · rw [h1]; simp
  case dirqSub =>
    intro q hq
    rcases List.mem_append.mp hq with hq2 | hq2
    · obtain ⟨rq, hrq, hdq⟩ := hwf.dirqSub q hq2
      have hqN : ¬ q.id = st.nextId := by
        have := hDirqIdsLt q.id (List.mem_map.mpr ⟨q, hq2, rfl⟩)
        omega
      exact ⟨rq, by rw [hgetOld q.id hqN]; exact hrq, hdq⟩
    · rcases List.mem_singleton.mp hq2 with rfl
      exact ⟨r, hgetN, by simp [hrdep]⟩
  case dirqClean =>
    intro q hq
    rcases List.mem_append.mp hq with hq2 | hq2
    · exact hwf.dirqClean q hq2
    · rcases List.mem_singleton.mp hq2 with rfl
      exact hclean
  case dirqIdsNodup =>
    show ((st.dirq ++ [_]).map QEnt.id).Nodup
    rw [List.map_append]
    simp only [List.map_cons, List.map_nil]
    rw [List.nodup_append]
    refine ⟨hwf.dirqIdsNodup, List.nodup_singleton _, ?_⟩
    intro a ha hb
    rcases List.mem_singleton.mp hb with rfl
    have h2 := hDirqIdsLt _ ha
    simp only [] at h2
    omega
  case refQueued =>
    intro q hq rq hrq
    rcases List.mem_append.mp hq with hq2 | hq2
    · have hqN : ¬ q.id = st.nextId := by
        have := hDirqIdsLt q.id (List.mem_map.mpr ⟨q, hq2, rfl⟩)
        omega
      rw [hgetOld q.id hqN] at hrq
      obtain ⟨h1, h2, -⟩ := hwf.refQueued q hq2 rq hrq
      refine ⟨h1, ?_, by simp⟩
      rw [hkids]
      exact h2
    · rcases List.mem_singleton.mp hq2 with rfl
      simp only [] at hrq
      rw [hgetN] at hrq
      obtain ⟨h2⟩ := hrq
      refine ⟨hrrc, ?_, by simp⟩
      rw [hkids]
      simp only []
      omega
  case refLive =>
    intro pr hm hnq hc
    have hprN : ¬ pr.1 = st.nextId := by
      intro h
      apply hnq
      show pr.1 ∈ (st.dirq ++ [_]).map QEnt.id
      rw [List.map_append]
      apply List.mem_append_right
      simp [h]
    rcases hmemElim pr hm with h1 | h1
    · have hnq2 : pr.1 ∉ dirqIds st := by
        intro h
        apply hnq
        show pr.1 ∈ (st.dirq ++ [_]).map QEnt.id
        rw [List.map_append]
        exact List.mem_append_left _ h
      obtain ⟨h2, h3⟩ := hwf.refLive pr h1 hnq2 (by simp)
      rw [hkids]
      exact ⟨h2, h3⟩
    · rw [h1] at hprN
      exact absurd rfl hprN
  case refCur =>
    intro i hi
    exact absurd hi (by simp)
  case parentOk =>
    intro pr hm pid hpid
    rcases hmemElim pr hm with h1 | h1
    · obtain ⟨rp, hrp, hdp⟩ := hwf.parentOk pr h1 pid hpid
      have hpidN : ¬ pid = st.nextId := by
        have := hwf.idsLt (pid, rp) (storeGet_mem hrp)
        omega
      exact ⟨rp, by rw [hgetOld pid hpidN]; exact hrp, hdp⟩
    · rw [h1] at hpid
      simp only [] at hpid
      rw [hrpar] at hpid
      exact absurd hpid (by simp)
  case recClean =>
    intro pr hm
    rcases hmemElim pr hm with h1 | h1
    · exact hwf.recClean pr h1
    · rw [h1]
      exact ⟨hrtyp, hrstat⟩
  case prePosted =>
    intro pr hm
    show pr.2.path ∈ prePaths (st.trace ++ [ev])
    rw [hprePathsNew]
    rcases hmemElim pr hm with h1 | h1
    · exact List.mem_append_left _ (hwf.prePosted pr h1)
    · rw [h1]
      simp only []
      rw [← hevp]
      exact List.mem_append_right _ (List.mem_singleton.mpr rfl)
  case ordered =>
    exact postAfterPre_snoc hwf.ordered (fun h => absurd (hevv ▸ h) (by simp [hevv]))
  case err0 => exact hwf.err0

theorem visitOne_clean_root (flags : BftwFlags) (f : Ftwbuf → CbRet)
    (hdc : flags.detectCycles = false)
    (htame : ∀ b, f b = CbRet.cont ∨ f b = CbRet.prune)
    (st : WalkState Unit) (n : String) (c : FSTree)
    (hwf : WalkWF st none)
    (hclean : cleanTree c = true) :
    (bftwVisitOne flags (pureCb f) st none n c).1 = false ∧
    WalkWF (bftwVisitOne flags (pureCb f) st none n c).2 none ∧
    (bftwVisitOne flags (pureCb f) st none n c).2.nextId ≥ st.nextId ∧
    (∀ p, (prePaths (bftwVisitOne flags (pureCb f) st none n c).2.trace ++
        dirqPre flags f (bftwVisitOne flags (pureCb f) st none n c).2.dirq).count p =
      (prePaths st.trace ++ dirqPre flags f st.dirq).count p +
      (specPre flags f [n] 0 .unknown c).count p) ∧
    (∀ p, (postPaths (bftwVisitOne flags (pureCb f) st none n c).2.trace).count p +
        (storePaths (bftwVisitOne flags (pureCb f) st none n c).2.store).count p +
        (dirqPost flags f (bftwVisitOne flags (pureCb f) st none n c).2.dirq).count p =
      (postPaths st.trace).count p + (storePaths st.store).count p +
        (dirqPost flags f st.dirq).count p +
      (specPost flags f [n] 0 .unknown c).count p) ∧
    postPaths (bftwVisitOne flags (pureCb f) st none n c).2.trace =
      postPaths st.trace := by
  cases c with
  | node info cs =>
  obtain ⟨si, hstat, hsierr, hhint, hopen, hnd, hcf⟩ := cleanTree_node hclean
  simp only [bftwVisitOne, FSTree.info]
  rw [hstat]
  rw [callBack_pre_clean flags f hdc htame st [n] 0 .unknown si [] (Or.inl rfl) hsierr]
  set b := bftwInitFtwbuf flags .pre [n] 0 .unknown (Except.ok si) 0 [] with hbdef
  have hb := initFtwbuf_clean flags [n] 0 .unknown si [] hdc (Or.inl rfl)
  have hspecpre : specPre flags f [n] 0 .unknown (.node info cs) =
      [n] :: (if f b = CbRet.cont ∧ si.typ = .dir then
        specPreForest flags f [n] 0 cs else []) := by
    rw [specPre, hstat]
    congr 2
    rw [hb.1]
  have hspecpost : specPost flags f [n] 0 .unknown (.node info cs) =
      (if f b = CbRet.cont ∧ si.typ = .dir then
        [n] :: specPostForest flags f [n] 0 cs else []) := by
    rw [specPost, hstat]
    congr 1
    rw [hb.1]
  by_cases hcd : f b = CbRet.cont ∧ si.typ = .dir
  · rw [if_pos hcd]
    simp only []
    rw [hspecpre, hspecpost, if_pos hcd, if_pos hcd]
    have hwf2 := walkWF_push_root (r := ({ parent := none, refcount := 1, path := [n], depth := 0, typ := b.typ, devino := b.statInfo.map fun si2 => (si2.dev, si2.ino), info := info } : BftwRec)) hwf rfl rfl rfl (by simp only []; rw [hb.1]; exact hcd.2) ⟨si, hstat, hcd.2⟩ hclean (show ({ path := [n], visit := .pre, typ := si.typ, error := 0 } : Event).visit = BftwVisit.pre from rfl) rfl
    refine ⟨?one, ?two, ?four, fun p => ?five, fun p => ?six, ?seven⟩
    case one => trivial
    case two => exact hwf2
    case four => omega
    case seven =>
      show postPaths (st.trace ++ _) = postPaths st.trace
      rw [postPaths_append]
      simp [postPaths]
    case five =>
      rw [prePaths_append, dirqPre_append]
      simp only [dirqPre, qPendingPre, FSTree.children, List.map_cons, List.map_nil,
        List.flatten, List.append_nil, prePaths, List.filter_cons, List.filter_nil]
      try simp [List.count_append, List.count_cons]
      omega
    case six =>
      rw [postPaths_append, dirqPost_append]
      simp only [Option.map_none']
      have hsp2 : storePaths (storeIncRef (st.store ++ [(st.nextId, ({ parent := none, refcount := 1, path := [n], depth := 0, typ := b.typ, devino := b.statInfo.map fun si2 => (si2.dev, si2.ino), info := info } : BftwRec))]) none) = storePaths st.store ++ [[n]] := by
        rw [storeIncRef_none, storePaths_append]
      rw [hsp2]
      simp only [dirqPost, qPendingPost, FSTree.children, List.map_cons, List.map_nil,
        List.flatten, List.append_nil, postPaths, List.filter_cons, List.filter_nil]
      try simp [List.count_append, List.count_cons]
      omega
  · rw [if_neg hcd]
    simp only []
    rw [hspecpre, hspecpost, if_neg hcd, if_neg hcd]
    have hwf2 := walkWF_trace_pre hwf
      (show ({ path := [n], visit := .pre, typ := si.typ, error := 0 } : Event).visit = .pre from rfl)
    refine ⟨?one2, ?two2, ?four2, fun p => ?five2, fun p => ?six2, ?seven2⟩
    case one2 => trivial
    case two2 => exact hwf2
    case four2 => omega
    case seven2 =>
      show postPaths (st.trace ++ _) = postPaths st.trace
      rw [postPaths_append]
      simp [postPaths]
    case five2 =>
      rw [prePaths_append]
      simp only [prePaths, List.filter_cons, List.filter_nil]
      try simp [List.count_append, List.count_cons]
      omega
    case six2 =>
      rw [postPaths_append]
      simp only [postPaths, List.filter_cons, List.filter_nil]
      try simp [List.count_append]
      try omega

theorem cleanForest_cons {n : String} {c : FSTree} {rest : List (String × FSTree)}
    (h : cleanForest ((n, c) :: rest) = true) :
    cleanTree c = true ∧ cleanForest rest = true := by
  rw [cleanForest] at h
  simpa [Bool.and_eq_true] using h

theorem visitChildren_clean (flags : BftwFlags) (f : Ftwbuf → CbRet)
    (hdc : flags.detectCycles = false)
    (htame : ∀ b, f b = CbRet.cont ∨ f b = CbRet.prune) :
    ∀ (cs : List (String × FSTree)) (st : WalkState Unit) (d : QEnt),
    WalkWF st (some d.id) →
    (∃ r, storeGet st.store d.id = some r ∧ r.depth = d.depth) →
    cleanForest cs = true →
    (bftwVisitChildren flags (pureCb f) st d cs).1 = false ∧
    WalkWF (bftwVisitChildren flags (pureCb f) st d cs).2 (some d.id) ∧
    (∃ r2, storeGet (bftwVisitChildren flags (pureCb f) st d cs).2.store d.id = some r2 ∧
      r2.depth = d.depth) ∧
    (∀ p, (prePaths (bftwVisitChildren flags (pureCb f) st d cs).2.trace ++
        dirqPre flags f (bftwVisitChildren flags (pureCb f) st d cs).2.dirq).count p =
      (prePaths st.trace ++ dirqPre flags f st.dirq).count p +
      (specPreForest flags f d.path d.depth cs).count p) ∧
    (∀ p, (postPaths (bftwVisitChildren flags (pureCb f) st d cs).2.trace).count p +
        (storePaths (bftwVisitChildren flags (pureCb f) st d cs).2.store).count p +
        (dirqPost flags f (bftwVisitChildren flags (pureCb f) st d cs).2.dirq).count p =
      (postPaths st.trace).count p + (storePaths st.store).count p +
        (dirqPost flags f st.dirq).count p +
      (specPostForest flags f d.path d.depth cs).count p) ∧
    postPaths (bftwVisitChildren flags (pureCb f) st d cs).2.trace =
      postPaths st.trace := by
  intro cs
  induction cs with
  | nil =>
    intro st d hwf hdsub hcf
    refine ⟨rfl, hwf, hdsub, fun p => ?_, fun p => ?_, rfl⟩
    · simp [bftwVisitChildren, specPreForest]
    · simp [bftwVisitChildren, specPostForest]
  | cons c0 rest ih =>
    intro st d hwf hdsub hcf
    obtain ⟨n, c⟩ := c0
    obtain ⟨hct, hcrest⟩ := cleanForest_cons hcf
    obtain ⟨v1, v2, v3, v4, v5, v6, v7⟩ := visitOne_clean_child flags f hdc htame st d n c
      hwf hdsub hct
    simp only [bftwVisitChildren]
    rcases hv : bftwVisitOne flags (pureCb f) st (some d) n c with ⟨ab, st2⟩
    rw [hv] at v1 v2 v3 v4 v5 v6 v7
    simp only [] at v1 v2 v3 v4 v5 v6 v7
    subst v1
    simp only []
    obtain ⟨g1, g2, g3, g4, g5, g6⟩ := ih st2 d v2 v3 hcrest
    refine ⟨g1, g2, g3, fun p => ?_, fun p => ?_, g6.trans v7⟩
    · have hspec : specPreForest flags f d.path d.depth ((n, c) :: rest) =
          specPre flags f (d.path ++ [n]) (d.depth + 1) c.info.hint c ++
            specPreForest flags f d.path d.depth rest := by
        rw [specPreForest]
      have h4 := g4 p
      have h5 := v5 p
      rw [hspec]
      simp only [List.count_append] at h4 h5 ⊢
      omega
    · have hspec : specPostForest flags f d.path d.depth ((n, c) :: rest) =
          specPost flags f (d.path ++ [n]) (d.depth + 1) c.info.hint c ++
            specPostForest flags f d.path d.depth rest := by
        rw [specPostForest]
      have h4 := g5 p
      have h5 := v6 p
      rw [hspec]
      simp only [List.count_append] at h4 h5 ⊢
      omega

theorem processDir_clean (flags : BftwFlags) (f : Ftwbuf → CbRet)
    (hdc : flags.detectCycles = false)
    (htame : ∀ b, f b = CbRet.cont ∨ f b = CbRet.prune)
    (st : WalkState Unit) (d : QEnt)
    (hwf : WalkWF st (some d.id))
    (hdsub : ∃ r, storeGet st.store d.id = some r ∧ r.depth = d.depth)
    (hclean : cleanTree d.tree = true) :
    (bftwProcessDir flags (pureCb f) st d).1 = false ∧
    WalkWF (bftwProcessDir flags (pureCb f) st d).2 none ∧
    (∀ p, (prePaths (bftwProcessDir flags (pureCb f) st d).2.trace ++
        dirqPre flags f (bftwProcessDir flags (pureCb f) st d).2.dirq).count p =
      (prePaths st.trace ++ dirqPre flags f st.dirq).count p +
      (qPendingPre flags f d).count p) ∧
    (flags.postOrder = true → ∀ p,
      (postPaths (bftwProcessDir flags (pureCb f) st d).2.trace).count p +
        (storePaths (bftwProcessDir flags (pureCb f) st d).2.store).count p +
        (dirqPost flags f (bftwProcessDir flags (pureCb f) st d).2.dirq).count p =
      (postPaths st.trace).count p + (storePaths st.store).count p +
        (dirqPost flags f st.dirq).count p +
      (qPendingPost flags f d).count p) ∧
    (flags.postOrder = false →
      postPaths (bftwProcessDir flags (pureCb f) st d).2.trace = postPaths st.trace) := by
  have hopen : d.tree.info.openErr = none := by
    cases htree : d.tree with
    | node info cs =>
      rw [htree] at hclean
      obtain ⟨si, -, -, -, ho, -, -⟩ := cleanTree_node hclean
      simp [FSTree.info, ho]
  simp only [bftwProcessDir]
  rw [hopen]
  simp only []
  have hcf : cleanForest d.tree.children = true := by
    cases htree : d.tree with
    | node info cs =>
      rw [htree] at hclean
      obtain ⟨si, -, -, -, -, -, hcf2⟩ := cleanTree_node hclean
      simpa [FSTree.children] using hcf2
  obtain ⟨v1, v2, v3, v4, v5, v6⟩ := visitChildren_clean flags f hdc htame
    d.tree.children st d hwf hdsub hcf
  rcases hv : bftwVisitChildren flags (pureCb f) st d d.tree.children with ⟨ab, st2⟩
  rw [hv] at v1 v2 v3 v4 v5 v6
  simp only [] at v1 v2 v3 v4 v5 v6
  subst v1
  simp only []
  obtain ⟨g1, g2, g3, g4, g5, g6, g7⟩ := gc_clean flags f hdc htame st2 d v2 v3
  rcases hgc : bftwGc flags (pureCb f) st2 d 0 gcAll with ⟨ret, st3⟩
  rw [hgc] at g1 g2 g3 g4 g5 g6 g7
  simp only [] at g1 g2 g3 g4 g5 g6 g7
  subst g1
  refine ⟨by simp, g2, fun p => ?_, fun hpo p => ?_, fun hpo => ?_⟩
  · have h4 := v4 p
    simp only [List.count_append, qPendingPre] at h4 ⊢
    rw [g5, g3]
    omega
  · have h5 := v5 p
    have h7 := g7 hpo p
    simp only [qPendingPost] at h5 ⊢
    rw [g3]
    omega
  · rw [g6 hpo, v6]

theorem visitOne_dirq {σ : Type} (flags : BftwFlags) (cb : σ → Ftwbuf → CbRet × σ)
    (st : WalkState σ) (cur : Option QEnt) (name : String) (ctree : FSTree) :
    (bftwVisitOne flags cb st cur name ctree).2.dirq = st.dirq ∨
    ∃ q, (bftwVisitOne flags cb st cur name ctree).2.dirq = st.dirq ++ [q] ∧
      q.tree = ctree := by
  cases cur with
  | none =>
    simp only [bftwVisitOne]
    rcases hc : bftwCallBack flags cb st [name] 0 .unknown ctree.info.stat 0 [] .pre
      with ⟨act, buf, st2⟩
    have hframe := callBack_frame flags cb st [name] 0 .unknown ctree.info.stat 0 [] .pre
    rw [hc] at hframe
    cases act with
    | stop => exact Or.inl hframe.1
    | prune => exact Or.inl hframe.1
    | cont =>
      refine Or.inr ⟨({ id := st2.nextId, path := [name], depth := 0, tree := ctree } : QEnt), ?_, rfl⟩
      show st2.dirq ++ [({ id := st2.nextId, path := [name], depth := 0, tree := ctree } : QEnt)] = _
      rw [show st2.dirq = st.dirq from hframe.1]
  | some d =>
    simp only [bftwVisitOne]
    rcases hc : bftwCallBack flags cb st (d.path ++ [name]) (d.depth + 1) ctree.info.hint
      ctree.info.stat 0 (devinoChain st.store (d.depth + 1) (some d.id)) .pre
      with ⟨act, buf, st2⟩
    have hframe := callBack_frame flags cb st (d.path ++ [name]) (d.depth + 1)
      ctree.info.hint ctree.info.stat 0 (devinoChain st.store (d.depth + 1) (some d.id)) .pre
    rw [hc] at hframe
    cases act with
    | stop => exact Or.inl hframe.1
    | prune => exact Or.inl hframe.1
    | cont =>
      refine Or.inr ⟨({ id := st2.nextId, path := d.path ++ [name], depth := d.depth + 1, tree := ctree } : QEnt), ?_, rfl⟩
      show st2.dirq ++ [({ id := st2.nextId, path := d.path ++ [name], depth := d.depth + 1, tree := ctree } : QEnt)] = _
      rw [show st2.dirq = st.dirq from hframe.1]

theorem visitChildren_dirq {σ : Type} (flags : BftwFlags) (cb : σ → Ftwbuf → CbRet × σ) :
    ∀ (cs : List (String × FSTree)) (st : WalkState σ) (d : QEnt),
    ∃ extra, (bftwVisitChildren flags cb st d cs).2.dirq = st.dirq ++ extra ∧
      (extra.map fun q => treeSize q.tree).sum ≤ forestSize cs := by
  intro cs
  induction cs with
  | nil =>
    intro st d
    exact ⟨[], by simp [bftwVisitChildren], by simp [forestSize]⟩
  | cons c0 rest ih =>
    intro st d
    obtain ⟨n, c⟩ := c0
    have h3 := visitOne_dirq flags cb st (some d) n c
    simp only [bftwVisitChildren]
    rcases hv : bftwVisitOne flags cb st (some d) n c with ⟨ab, st2⟩
    rw [hv] at h3
    simp only [] at h3
    cases ab with
    | true =>
      simp only []
      rcases h3 with h3 | ⟨q, h3, hq⟩
      · exact ⟨[], by simp [h3], by simp⟩
      · refine ⟨[q], by simpa using h3, ?_⟩
        have : forestSize ((n, c) :: rest) = treeSize c + forestSize rest := rfl
        simp only [List.map_cons, List.map_nil, List.sum_cons, List.sum_nil, hq]
        omega
    | false =>
      simp only []
      obtain ⟨extra2, g1, g2⟩ := ih st2 d
      rcases h3 with h3 | ⟨q, h3, hq⟩
      · refine ⟨extra2, by rw [g1, h3], ?_⟩
        have : forestSize ((n, c) :: rest) = treeSize c + forestSize rest := rfl
        omega
      · refine ⟨q :: extra2, by rw [g1, h3]; simp, ?_⟩
        have hfs : forestSize ((n, c) :: rest) = treeSize c + forestSize rest := rfl
        simp only [List.map_cons, List.sum_cons, hq]
        omega

theorem gcCascade_dirq {σ : Type} (flags : BftwFlags) (cb : σ → Ftwbuf → CbRet × σ) :
    ∀ (fuel : Nat) (start : Option Nat) (first : Bool) (g : GCFlags) (ret : Int)
      (st : WalkState σ),
    (bftwGcCascade flags cb fuel start first g ret st).2.dirq = st.dirq := by
  intro fuel
  induction fuel with
  | zero =>
    intro start first g ret st
    cases start <;> rfl
  | succ n ih =>
    intro start first g ret st
    cases start with
    | none => rfl
    | some id =>
      simp only [bftwGcCascade]
      rcases hg : storeGet st.store id with _ | r
      · rfl
      · simp only []
        by_cases h1 : r.refcount - 1 > 0
        · rw [if_pos h1]
        · rw [if_neg h1]
          by_cases hfb : (if first = true then g.file else g.parents) = true
          · rw [if_pos hfb]
            rcases hc : bftwCallBack flags cb st r.path r.depth r.typ r.info.stat 0
              (devinoChain st.store r.depth r.parent) .post with ⟨act, buf, st2⟩
            have hframe := callBack_frame flags cb st r.path r.depth r.typ r.info.stat 0
              (devinoChain st.store r.depth r.parent) .post
            rw [hc] at hframe
            cases act with
            | stop =>
              simp only []
              rw [ih r.parent false gcNone (-1) { st2 with store := storeRemove st2.store id }]
              exact hframe.1
            | cont =>
              simp only []
              rw [ih r.parent false g ret { st2 with store := storeRemove st2.store id }]
              exact hframe.1
            | prune =>
              simp only []
              rw [ih r.parent false g ret { st2 with store := storeRemove st2.store id }]
              exact hframe.1
          · rw [if_neg hfb]
            simp only []
            exact ih r.parent false g ret { st with store := storeRemove st.store id }

theorem gc_dirq {σ : Type} (flags : BftwFlags) (cb : σ → Ftwbuf → CbRet × σ)
    (st : WalkState σ) (d : QEnt) (e : Nat) (g : GCFlags) :
    (bftwGc flags cb st d e g).2.dirq = st.dirq := by
  simp only [bftwGc]
  by_cases he : e ≠ 0
  · rw [if_pos he]
    by_cases hge : g.error = true
    · rw [if_pos hge]
      rcases hs : storeGet st.store d.id with _ | r
      · simp only []
        exact gcCascade_dirq flags cb (d.depth + 1) (some d.id) true g 0 st
      · simp only []
        rcases hc : bftwCallBack flags cb st r.path r.depth r.typ r.info.stat e
          (devinoChain st.store r.depth r.parent) .pre with ⟨act, buf, st2⟩
        have hframe := callBack_frame flags cb st r.path r.depth r.typ r.info.stat e
          (devinoChain st.store r.depth r.parent) .pre
        rw [hc] at hframe
        cases act with
        | stop =>
          simp only []
          rw [gcCascade_dirq flags cb (d.depth + 1) (some d.id) true gcNone (-1) st2]
          exact hframe.1
        | cont =>
          simp only []
          rw [gcCascade_dirq flags cb (d.depth + 1) (some d.id) true g 0 st2]
          exact hframe.1
        | prune =>
          simp only []
          rw [gcCascade_dirq flags cb (d.depth + 1) (some d.id) true g 0 st2]
          exact hframe.1
    · rw [if_neg hge]
      simp only []
      exact gcCascade_dirq flags cb (d.depth + 1) (some d.id) true g 0
        { st with error := e }
  · rw [if_neg he]
    simp only []
    exact gcCascade_dirq flags cb (d.depth + 1) (some d.id) true g 0 st

theorem processDir_dirq {σ : Type} (flags : BftwFlags) (cb : σ → Ftwbuf → CbRet × σ)
    (st : WalkState σ) (d : QEnt) :
    ∃ extra, (bftwProcessDir flags cb st d).2.dirq = st.dirq ++ extra ∧
      (extra.map fun q => treeSize q.tree).sum ≤ forestSize d.tree.children := by
  simp only [bftwProcessDir]
  rcases ho : d.tree.info.openErr with _ | e
  · simp only []
    obtain ⟨extra, v3, v4⟩ := visitChildren_dirq flags cb d.tree.children st d
    rcases hv : bftwVisitChildren flags cb st d d.tree.children with ⟨ab, st2⟩
    rw [hv] at v3
    simp only [] at v3
    cases ab with
    | true =>
      simp only []
      exact ⟨extra, v3, v4⟩
    | false =>
      simp only []
      rcases hgc : bftwGc flags cb st2 d 0 gcAll with ⟨ret, st3⟩
      have hg := gc_dirq flags cb st2 d 0 gcAll
      rw [hgc] at hg
      simp only [] at hg
      exact ⟨extra, hg.trans v3, v4⟩
  · simp only []
    rcases hgc : bftwGc flags cb st d e gcAll with ⟨ret, st3⟩
    have hg := gc_dirq flags cb st d e gcAll
    rw [hgc] at hg
    simp only [] at hg
    exact ⟨[], by simp [hg], by simp⟩

theorem walkWF_pop {st : WalkState Unit} {d : QEnt} {rest : List QEnt}
    (hwf : WalkWF st none) (hq : st.dirq = d :: rest) :
    WalkWF { st with dirq := rest } (some d.id) ∧
    (∃ r, storeGet st.store d.id = some r ∧ r.depth = d.depth) ∧
    cleanTree d.tree = true := by
  have hdmem : d ∈ st.dirq := by rw [hq]; exact List.mem_cons_self d rest
  obtain ⟨r, hr, hrd⟩ := hwf.dirqSub d hdmem
  have hidnd : (dirqIds st).Nodup := hwf.dirqIdsNodup
  have hidnd2 : (d.id :: rest.map QEnt.id).Nodup := by
    have : dirqIds st = d.id :: rest.map QEnt.id := by
      show st.dirq.map QEnt.id = _
      rw [hq, List.map_cons]
    rw [← this]
    exact hidnd
  have hdninrest : d.id ∉ rest.map QEnt.id := (List.nodup_cons.mp hidnd2).1
  refine ⟨?_, ⟨r, hr, hrd⟩, hwf.dirqClean d hdmem⟩
  obtain ⟨hrc1, hkids0, -⟩ := hwf.refQueued d hdmem r hr
  constructor
  case idsNodup => exact hwf.idsNodup
  case idsLt => exact hwf.idsLt
  case dirqSub =>
    intro q hqm
    exact hwf.dirqSub q (by rw [hq]; exact List.mem_cons_of_mem d hqm)
  case dirqClean =>
    intro q hqm
    exact hwf.dirqClean q (by rw [hq]; exact List.mem_cons_of_mem d hqm)
  case dirqIdsNodup =>
    exact (List.nodup_cons.mp hidnd2).2
  case refQueued =>
    intro q hqm rq hrq
    obtain ⟨h1, h2, -⟩ := hwf.refQueued q
      (by rw [hq]; exact List.mem_cons_of_mem d hqm) rq hrq
    refine ⟨h1, h2, ?_⟩
    intro hcontra
    have h3 := Option.some.inj hcontra
    apply hdninrest
    rw [h3]
    exact List.mem_map.mpr ⟨q, hqm, rfl⟩
  case refLive =>
    intro pr hm hnq hc
    have hnq2 : pr.1 ∉ dirqIds st := by
      intro hmem
      show False
      have : dirqIds st = d.id :: rest.map QEnt.id := by
        show st.dirq.map QEnt.id = _
        rw [hq, List.map_cons]
      rw [this] at hmem
      rcases List.mem_cons.mp hmem with h | h
      · exact hc (by rw [h])
      · exact hnq h
    exact hwf.refLive pr hm hnq2 (by simp)
  case refCur =>
    intro i hi
    obtain ⟨hi2⟩ := hi
    refine ⟨hdninrest, r, hr, ?_⟩
    rw [hrc1, hkids0]
  case parentOk => exact hwf.parentOk
  case recClean => exact hwf.recClean
  case prePosted => exact hwf.prePosted
  case ordered => exact hwf.ordered
  case err0 => exact hwf.err0

theorem implLoop_clean (flags : BftwFlags) (f : Ftwbuf → CbRet)
    (hdc : flags.detectCycles = false)
    (htame : ∀ b, f b = CbRet.cont ∨ f b = CbRet.prune) :
    ∀ (fuel : Nat) (st : WalkState Unit), dirqMeasure st < fuel →
    WalkWF st none →
    (bftwImplLoop flags (pureCb f) fuel st).1 = false ∧
    WalkWF (bftwImplLoop flags (pureCb f) fuel st).2 none ∧
    (bftwImplLoop flags (pureCb f) fuel st).2.dirq = [] ∧
    (∀ p, (prePaths (bftwImplLoop flags (pureCb f) fuel st).2.trace).count p =
      (prePaths st.trace ++ dirqPre flags f st.dirq).count p) ∧
    (flags.postOrder = true → ∀ p,
      (postPaths (bftwImplLoop flags (pureCb f) fuel st).2.trace).count p +
        (storePaths (bftwImplLoop flags (pureCb f) fuel st).2.store).count p =
      (postPaths st.trace).count p + (storePaths st.store).count p +
        (dirqPost flags f st.dirq).count p) ∧
    (flags.postOrder = false →
      postPaths (bftwImplLoop flags (pureCb f) fuel st).2.trace = postPaths st.trace) := by
  intro fuel
  induction fuel with
  | zero =>
    intro st h
    exact absurd h (Nat.not_lt_zero _)
  | succ n ih =>
    intro st h hwf
    simp only [bftwImplLoop]
    rcases hq : st.dirq with _ | ⟨d, rest⟩
    · simp only []
      refine ⟨trivial, hwf, hq, fun p => ?_, fun hpo p => ?_, fun hpo => trivial⟩
      · simp [dirqPre]
      · simp [dirqPost]
    · simp only []
      obtain ⟨hwfpop, hdsub, hdclean⟩ := walkWF_pop hwf hq
      obtain ⟨p1, p2, p3, p4, p5⟩ := processDir_clean flags f hdc htame
        { st with dirq := rest } d hwfpop hdsub hdclean
      obtain ⟨extra, pd1, pd2⟩ := processDir_dirq flags (pureCb f) { st with dirq := rest } d
      rcases hp : bftwProcessDir flags (pureCb f) { st with dirq := rest } d with ⟨ab, st2⟩
      rw [hp] at p1 p2 p3 p4 p5 pd1
      simp only [] at p1 p2 p3 p4 p5 pd1
      subst p1
      simp only []
      have h1 : dirqMeasure st = treeSize d.tree + (rest.map fun q => treeSize q.tree).sum := by
        unfold dirqMeasure
        rw [hq]
        simp
      have h2 : dirqMeasure st2 =
          (rest.map fun q => treeSize q.tree).sum + (extra.map fun q => treeSize q.tree).sum := by
        unfold dirqMeasure
        rw [pd1]
        simp
      have h3 : treeSize d.tree = 1 + forestSize d.tree.children := by
        cases d.tree
        rfl
      have hm : dirqMeasure st2 < n := by omega
      obtain ⟨i1, i2, i3, i4, i5, i6⟩ := ih st2 hm p2
      refine ⟨i1, i2, i3, fun p => ?_, fun hpo p => ?_, fun hpo => ?_⟩
      · have hi4 := i4 p
        have hp3 := p3 p
        have hsplit : dirqPre flags f (d :: rest) =
            qPendingPre flags f d ++ dirqPre flags f rest := by
          simp [dirqPre]
        rw [hsplit]
        simp only [List.count_append] at hi4 hp3 ⊢
        omega
      · have hi5 := i5 hpo p
        have hp4 := p4 hpo p
        have hsplit : dirqPost flags f (d :: rest) =
            qPendingPost flags f d ++ dirqPost flags f rest := by
          simp [dirqPost]
        rw [hsplit]
        simp only [List.count_append] at hi5 hp4 ⊢
        omega
      · rw [i6 hpo, p5 hpo]

theorem seedRoots_clean (flags : BftwFlags) (f : Ftwbuf → CbRet)
    (hdc : flags.detectCycles = false)
    (htame : ∀ b, f b = CbRet.cont ∨ f b = CbRet.prune) :
    ∀ (roots : List (String × FSTree)) (st : WalkState Unit),
    WalkWF st none → cleanForest roots = true →
    (bftwSeedRoots flags (pureCb f) st roots).1 = false ∧
    WalkWF (bftwSeedRoots flags (pureCb f) st roots).2 none ∧
    (∀ p, (prePaths (bftwSeedRoots flags (pureCb f) st roots).2.trace ++
        dirqPre flags f (bftwSeedRoots flags (pureCb f) st roots).2.dirq).count p =
      (prePaths st.trace ++ dirqPre flags f st.dirq).count p +
      (specPreRoots flags f roots).count p) ∧
    (∀ p, (postPaths (bftwSeedRoots flags (pureCb f) st roots).2.trace).count p +
        (storePaths (bftwSeedRoots flags (pureCb f) st roots).2.store).count p +
        (dirqPost flags f (bftwSeedRoots flags (pureCb f) st roots).2.dirq).count p =
      (postPaths st.trace).count p + (storePaths st.store).count p +
        (dirqPost flags f st.dirq).count p +
      (specPostRoots flags f roots).count p) ∧
    postPaths (bftwSeedRoots flags (pureCb f) st roots).2.trace = postPaths st.trace := by
  intro roots
  induction roots with
  | nil =>
    intro st hwf hcf
    refine ⟨rfl, hwf, fun p => ?_, fun p => ?_, rfl⟩
    · simp [bftwSeedRoots, specPreRoots]
    · simp [bftwSeedRoots, specPostRoots]
  | cons c0 rest ih =>
    intro st hwf hcf
    obtain ⟨n, c⟩ := c0
    obtain ⟨hct, hcrest⟩ := cleanForest_cons hcf
    obtain ⟨v1, v2, v3, v4, v5, v6⟩ := visitOne_clean_root flags f hdc htame st n c hwf hct
    simp only [bftwSeedRoots]
    rcases hv : bftwVisitOne flags (pureCb f) st none n c with ⟨ab, st2⟩
    rw [hv] at v1 v2 v3 v4 v5 v6
    simp only [] at v1 v2 v3 v4 v5 v6
    subst v1
    simp only []
    obtain ⟨g1, g2, g3, g4, g5⟩ := ih st2 v2 hcrest
    refine ⟨g1, g2, fun p => ?_, fun p => ?_, g5.trans v6⟩
    · have hspec : specPreRoots flags f ((n, c) :: rest) =
          specPre flags f [n] 0 .unknown c ++ specPreRoots flags f rest := by
        simp [specPreRoots]
      have h4 := g3 p
      have h5 := v4 p
      rw [hspec]
      simp only [List.count_append] at h4 h5 ⊢
      omega
    · have hspec : specPostRoots flags f ((n, c) :: rest) =
          specPost flags f [n] 0 .unknown c ++ specPostRoots flags f rest := by
        simp [specPostRoots]
      have h4 := g4 p
      have h5 := v5 p
      rw [hspec]
      simp only [List.count_append] at h4 h5 ⊢
      omega

theorem seedRoots_dirq {σ : Type} (flags : BftwFlags) (cb : σ → Ftwbuf → CbRet × σ) :
    ∀ (roots : List (String × FSTree)) (st : WalkState σ),
    ∃ extra, (bftwSeedRoots flags cb st roots).2.dirq = st.dirq ++ extra ∧
      (extra.map fun q => treeSize q.tree).sum ≤ forestSize roots := by
  intro roots
  induction roots with
  | nil =>
    intro st
    exact ⟨[], by simp [bftwSeedRoots], by simp [forestSize]⟩
  | cons c0 rest ih =>
    intro st
    obtain ⟨n, c⟩ := c0
    have h3 := visitOne_dirq flags cb st none n c
    simp only [bftwSeedRoots]
    rcases hv : bftwVisitOne flags cb st none n c with ⟨ab, st2⟩
    rw [hv] at h3
    simp only [] at h3
    cases ab with
    | true =>
      simp only []
      rcases h3 with h3 | ⟨q, h3, hq⟩
      · exact ⟨[], by simp [h3], by simp⟩
      · refine ⟨[q], by simpa using h3, ?_⟩
        have : forestSize ((n, c) :: rest) = treeSize c + forestSize rest := rfl
        simp only [List.map_cons, List.map_nil, List.sum_cons, List.sum_nil, hq]
        omega
    | false =>
      simp only []
      obtain ⟨extra2, g1, g2⟩ := ih st2
      rcases h3 with h3 | ⟨q, h3, hq⟩
      · refine ⟨extra2, by rw [g1, h3], ?_⟩
        have : forestSize ((n, c) :: rest) = treeSize c + forestSize rest := rfl
        omega
      · refine ⟨q :: extra2, by rw [g1, h3]; simp, ?_⟩
        have hfs : forestSize ((n, c) :: rest) = treeSize c + forestSize rest := rfl
        simp only [List.map_cons, List.sum_cons, hq]
        omega

theorem walkWF_init : WalkWF (bftwInitState ()) none := by
  constructor
  case idsNodup => simp [bftwInitState]
  case idsLt => intro pr hm; simp [bftwInitState] at hm
  case dirqSub => intro q hq; simp [bftwInitState] at hq
  case dirqClean => intro q hq; simp [bftwInitState] at hq
  case dirqIdsNodup => simp [bftwInitState, dirqIds]
  case refQueued => intro q hq; simp [bftwInitState] at hq
  case refLive => intro pr hm; simp [bftwInitState] at hm
  case refCur => intro i hi; simp at hi
  case parentOk => intro pr hm; simp [bftwInitState] at hm
  case recClean => intro pr hm; simp [bftwInitState] at hm
  case prePosted => intro pr hm; simp [bftwInitState] at hm
  case ordered =>
    intro t1 e t2 heq
    exfalso
    have : ([] : List Event) = t1 ++ e :: t2 := heq
    exact absurd this.symm (by simp)
  case err0 => rfl

theorem store_empty_of_wf {st : WalkState Unit} (hwf : WalkWF st none)
    (hq : st.dirq = []) : st.store = [] := by
  by_contra hne
  have grow : ∀ pr ∈ st.store, ∃ pr2 ∈ st.store, pr2.2.depth = pr.2.depth + 1 := by
    intro pr hm
    have hnq : pr.1 ∉ dirqIds st := by
      show pr.1 ∉ st.dirq.map QEnt.id
      rw [hq]
      simp
    obtain ⟨h1, h2⟩ := hwf.refLive pr hm hnq (by simp)
    have hpos : 0 < (st.store.filter fun k => k.2.parent = some pr.1).length := by
      simpa [storeKids] using h2
    obtain ⟨k, hk⟩ := List.exists_mem_of_length_pos hpos
    have hkf := List.mem_filter.mp hk
    have hkpar : k.2.parent = some pr.1 := by simpa using hkf.2
    obtain ⟨rp, hrp, hdp⟩ := hwf.parentOk k hkf.1 pr.1 hkpar
    have hget : storeGet st.store pr.1 = some pr.2 :=
      mem_storeGet (show (pr.1, pr.2) ∈ st.store from hm) hwf.idsNodup
    rw [hget] at hrp
    obtain ⟨h3⟩ := hrp
    exact ⟨k, hkf.1, by omega⟩
  have unb : ∀ n, ∃ pr ∈ st.store, n ≤ pr.2.depth := by
    intro n
    induction n with
    | zero =>
      obtain ⟨pr, hm⟩ := List.exists_mem_of_ne_nil st.store hne
      exact ⟨pr, hm, Nat.zero_le _⟩
    | succ k ihk =>
      obtain ⟨pr, hm, hle⟩ := ihk
      obtain ⟨pr2, hm2, hd2⟩ := grow pr hm
      exact ⟨pr2, hm2, by omega⟩
  have hbound : ∀ pr ∈ st.store, pr.2.depth ≤ (st.store.map fun x => x.2.depth).sum := by
    intro pr hm
    exact List.single_le_sum (fun _ _ => Nat.zero_le _) _ (List.mem_map.mpr ⟨pr, hm, rfl⟩)
  obtain ⟨pr, hm, hle⟩ := unb ((st.store.map fun x => x.2.depth).sum + 1)
  have := hbound pr hm
  omega

theorem spec_sub_aux (flags : BftwFlags) (f : Ftwbuf → CbRet) :
    ∀ k : Nat,
    (∀ (t : FSTree) (path : List String) (depth : Nat) (typ0 : BfsType),
      treeSize t ≤ k → ∀ p, p ∈ specPost flags f path depth typ0 t →
        p ∈ specPre flags f path depth typ0 t) ∧
    (∀ (cs : List (String × FSTree)) (path : List String) (depth : Nat),
      forestSize cs ≤ k → ∀ p, p ∈ specPostForest flags f path depth cs →
        p ∈ specPreForest flags f path depth cs) := by
  intro k
  induction k with
  | zero =>
    constructor
    · intro t path depth typ0 hsz
      have := one_le_treeSize t
      omega
    · intro cs path depth hsz p hp
      cases cs with
      | nil => simp [specPostForest] at hp
      | cons c0 rest =>
        obtain ⟨n2, c2⟩ := c0
        have h1 := one_le_treeSize c2
        have : forestSize ((n2, c2) :: rest) = treeSize c2 + forestSize rest := rfl
        omega
  | succ k ih =>
    have htree : ∀ (t : FSTree) (path : List String) (depth : Nat) (typ0 : BfsType),
        treeSize t ≤ k + 1 → ∀ p, p ∈ specPost flags f path depth typ0 t →
          p ∈ specPre flags f path depth typ0 t := by
      intro t path depth typ0 hsz p hp
      cases t with
      | node info cs =>
        rw [specPost] at hp
        rw [specPre]
        by_cases hcond : f (bftwInitFtwbuf flags .pre path depth typ0 info.stat 0 []) =
            CbRet.cont ∧
            (bftwInitFtwbuf flags .pre path depth typ0 info.stat 0 []).typ = .dir
        · rw [if_pos hcond] at hp
          rw [if_pos hcond]
          rcases List.mem_cons.mp hp with rfl | hp2
          · exact List.mem_cons_self _ _
          · have hsz2 : forestSize cs ≤ k := by
              have : treeSize (FSTree.node info cs) = 1 + forestSize cs := rfl
              omega
            exact List.mem_cons_of_mem _ (ih.2 cs path depth hsz2 p hp2)
        · rw [if_neg hcond] at hp
          simp at hp
    refine ⟨htree, ?_⟩
    intro cs path depth hsz p hp
    cases cs with
    | nil => simp [specPostForest] at hp
    | cons c0 rest =>
      obtain ⟨n, c⟩ := c0
      rw [specPostForest] at hp
      rw [specPreForest]
      have hfs : forestSize ((n, c) :: rest) = treeSize c + forestSize rest := rfl
      rcases List.mem_append.mp hp with hp2 | hp2
      · exact List.mem_append_left _
          (htree c (path ++ [n]) (depth + 1) c.info.hint (by omega) p hp2)
      · have h1 := one_le_treeSize c
        exact List.mem_append_right _ (ih.2 rest path depth (by omega) p hp2)

theorem specPost_sub_specPre (flags : BftwFlags) (f : Ftwbuf → CbRet)
    (roots : List (String × FSTree)) :
    ∀ p ∈ specPostRoots flags f roots, p ∈ specPreRoots flags f roots := by
  intro p hp
  simp only [specPostRoots, List.mem_flatten, List.mem_map] at hp
  obtain ⟨l, ⟨r, hr, hl⟩, hpl⟩ := hp
  simp only [specPreRoots, List.mem_flatten, List.mem_map]
  refine ⟨specPre flags f [r.1] 0 .unknown r.2, ⟨r, hr, rfl⟩, ?_⟩
  rw [← hl] at hpl
  exact (spec_sub_aux flags f (treeSize r.2)).1 r.2 [r.1] 0 .unknown (le_refl _) p hpl

theorem spec_ext_aux (flags : BftwFlags) (f : Ftwbuf → CbRet) :
    ∀ k : Nat,
    (∀ (t : FSTree) (path : List String) (depth : Nat) (typ0 : BfsType),
      treeSize t ≤ k →
      (∀ q ∈ specPre flags f path depth typ0 t, ∃ tail, q = path ++ tail) ∧
      (∀ q ∈ specPost flags f path depth typ0 t, ∃ tail, q = path ++ tail)) ∧
    (∀ (cs : List (String × FSTree)) (path : List String) (depth : Nat),
      forestSize cs ≤ k →
      (∀ q ∈ specPreForest flags f path depth cs,
        ∃ n tail, n ∈ cs.map Prod.fst ∧ q = path ++ n :: tail) ∧
      (∀ q ∈ specPostForest flags f path depth cs,
        ∃ n tail, n ∈ cs.map Prod.fst ∧ q = path ++ n :: tail)) := by
  intro k
  induction k with
  | zero =>
    constructor
    · intro t path depth typ0 hsz
      have := one_le_treeSize t
      omega
    · intro cs path depth hsz
      cases cs with
      | nil =>
        constructor <;> (intro q hq; simp [specPreForest, specPostForest] at hq)
      | cons c0 rest =>
        obtain ⟨n2, c2⟩ := c0
        have h1 := one_le_treeSize c2
        have : forestSize ((n2, c2) :: rest) = treeSize c2 + forestSize rest := rfl
        omega
  | succ k ih =>
    have htree : ∀ (t : FSTree) (path : List String) (depth : Nat) (typ0 : BfsType),
        treeSize t ≤ k + 1 →
        (∀ q ∈ specPre flags f path depth typ0 t, ∃ tail, q = path ++ tail) ∧
        (∀ q ∈ specPost flags f path depth typ0 t, ∃ tail, q = path ++ tail) := by
      intro t path depth typ0 hsz
      cases t with
      | node info cs =>
        have hsz2 : forestSize cs ≤ k := by
          have : treeSize (FSTree.node info cs) = 1 + forestSize cs := rfl
          omega
        constructor
        · intro q hq
          rw [specPre] at hq
          rcases List.mem_cons.mp hq with rfl | hq2
          · exact ⟨[], by simp⟩
          · by_cases hcond : f (bftwInitFtwbuf flags .pre path depth typ0 info.stat 0 []) =
                CbRet.cont ∧
                (bftwInitFtwbuf flags .pre path depth typ0 info.stat 0 []).typ = .dir
            · rw [if_pos hcond] at hq2
              obtain ⟨n, tail, -, hq3⟩ := (ih.2 cs path depth hsz2).1 q hq2
              exact ⟨n :: tail, hq3⟩
            · rw [if_neg hcond] at hq2
              simp at hq2
        · intro q hq
          rw [specPost] at hq
          by_cases hcond : f (bftwInitFtwbuf flags .pre path depth typ0 info.stat 0 []) =
              CbRet.cont ∧
              (bftwInitFtwbuf flags .pre path depth typ0 info.stat 0 []).typ = .dir
          · rw [if_pos hcond] at hq
            rcases List.mem_cons.mp hq with rfl | hq2
            · exact ⟨[], by simp⟩
            · obtain ⟨n, tail, -, hq3⟩ := (ih.2 cs path depth hsz2).2 q hq2
              exact ⟨n :: tail, hq3⟩
          · rw [if_neg hcond] at hq
            simp at hq
    refine ⟨htree, ?_⟩
    intro cs path depth hsz
    cases cs with
    | nil =>
      constructor <;> (intro q hq; simp [specPreForest, specPostForest] at hq)
    | cons c0 rest =>
      obtain ⟨n, c⟩ := c0
      have hfs : forestSize ((n, c) :: rest) = treeSize c + forestSize rest := rfl
      have h1 := one_le_treeSize c
      constructor
      · intro q hq
        rw [specPreForest] at hq
        rcases List.mem_append.mp hq with hq2 | hq2
        · obtain ⟨tail, hq3⟩ := (htree c (path ++ [n]) (depth + 1) c.info.hint (by omega)).1 q hq2
          exact ⟨n, tail, by simp, by rw [hq3]; simp⟩
        · obtain ⟨n2, tail, hn2, hq3⟩ := (ih.2 rest path depth (by omega)).1 q hq2
          exact ⟨n2, tail, by simp [hn2], hq3⟩
      · intro q hq
        rw [specPostForest] at hq
        rcases List.mem_append.mp hq with hq2 | hq2
        · obtain ⟨tail, hq3⟩ := (htree c (path ++ [n]) (depth + 1) c.info.hint (by omega)).2 q hq2
          exact ⟨n, tail, by simp, by rw [hq3]; simp⟩
        · obtain ⟨n2, tail, hn2, hq3⟩ := (ih.2 rest path depth (by omega)).2 q hq2
          exact ⟨n2, tail, by simp [hn2], hq3⟩

theorem spec_nodup_aux (flags : BftwFlags) (f : Ftwbuf → CbRet) :
    ∀ k : Nat,
    (∀ (t : FSTree) (path : List String) (depth : Nat) (typ0 : BfsType),
      treeSize t ≤ k → cleanTree t = true →
      (specPre flags f path depth typ0 t).Nodup ∧
      (specPost flags f path depth typ0 t).Nodup) ∧
    (∀ (cs : List (String × FSTree)) (path : List String) (depth : Nat),
      forestSize cs ≤ k → cleanForest cs = true → (cs.map Prod.fst).Nodup →
      (specPreForest flags f path depth cs).Nodup ∧
      (specPostForest flags f path depth cs).Nodup) := by
  intro k
  induction k with
  | zero =>
    constructor
    · intro t path depth typ0 hsz
      have := one_le_treeSize t
      omega
    · intro cs path depth hsz
      cases cs with
      | nil =>
        intro _ _
        constructor <;> simp [specPreForest, specPostForest]
      | cons c0 rest =>
        obtain ⟨n2, c2⟩ := c0
        have h1 := one_le_treeSize c2
        have : forestSize ((n2, c2) :: rest) = treeSize c2 + forestSize rest := rfl
        omega
  | succ k ih =>
    have htree : ∀ (t : FSTree) (path : List String) (depth : Nat) (typ0 : BfsType),
        treeSize t ≤ k + 1 → cleanTree t = true →
        (specPre flags f path depth typ0 t).Nodup ∧
        (specPost flags f path depth typ0 t).Nodup := by
      intro t path depth typ0 hsz hclean
      cases t with
      | node info cs =>
        obtain ⟨si, hstat, hsierr, hhint, hopen, hnd, hcf⟩ := cleanTree_node hclean
        have hsz2 : forestSize cs ≤ k := by
          have : treeSize (FSTree.node info cs) = 1 + forestSize cs := rfl
          omega
        have hforest := ih.2 cs path depth hsz2 hcf hnd
        have hnotself : ∀ q ∈ specPreForest flags f path depth cs, ¬ q = path := by
          intro q hq hqp
          obtain ⟨n2, tail, -, hq3⟩ :=
            ((spec_ext_aux flags f k).2 cs path depth hsz2).1 q hq
          rw [hqp] at hq3
          have := congrArg List.length hq3
          simp at this
        have hnotselfpost : ∀ q ∈ specPostForest flags f path depth cs, ¬ q = path := by
          intro q hq hqp
          obtain ⟨n2, tail, -, hq3⟩ :=
            ((spec_ext_aux flags f k).2 cs path depth hsz2).2 q hq
          rw [hqp] at hq3
          have := congrArg List.length hq3
          simp at this
        constructor
        · rw [specPre]
          rw [List.nodup_cons]
          by_cases hcond : f (bftwInitFtwbuf flags .pre path depth typ0 info.stat 0 []) =
              CbRet.cont ∧
              (bftwInitFtwbuf flags .pre path depth typ0 info.stat 0 []).typ = .dir
          · rw [if_pos hcond]
            exact ⟨fun hmem => hnotself path hmem rfl, hforest.1⟩
          · rw [if_neg hcond]
            simp
        · rw [specPost]
          by_cases hcond : f (bftwInitFtwbuf flags .pre path depth typ0 info.stat 0 []) =
              CbRet.cont ∧
              (bftwInitFtwbuf flags .pre path depth typ0 info.stat 0 []).typ = .dir
          · rw [if_pos hcond]
            rw [List.nodup_cons]
            exact ⟨fun hmem => hnotselfpost path hmem rfl, hforest.2⟩
          · rw [if_neg hcond]
            simp
    refine ⟨htree, ?_⟩
    intro cs path depth hsz hclean hndn
    cases cs with
    | nil =>
      constructor <;> simp [specPreForest, specPostForest]
    | cons c0 rest =>
      obtain ⟨n, c⟩ := c0
      obtain ⟨hct, hcrest⟩ := cleanForest_cons hclean
      have hfs : forestSize ((n, c) :: rest) = treeSize c + forestSize rest := rfl
      have h1 := one_le_treeSize c
      rw [List.map_cons, List.nodup_cons] at hndn
      have hrest := ih.2 rest path depth (by omega) hcrest hndn.2
      have hchild := htree c (path ++ [n]) (depth + 1) c.info.hint (by omega) hct
      have hdisj : ∀ q, (∃ tail, q = path ++ n :: tail) →
          ∀ n2 tail2, n2 ∈ rest.map Prod.fst → q = path ++ n2 :: tail2 → False := by
        intro q ⟨tail, hq1⟩ n2 tail2 hn2 hq2
        rw [hq1] at hq2
        have := List.append_cancel_left hq2
        obtain ⟨h3⟩ := this
        exact hndn.1 hn2
      constructor
      · rw [specPreForest, List.nodup_append]
        refine ⟨hchild.1, hrest.1, ?_⟩
        intro q hq hq2
        obtain ⟨tail, hq3⟩ :=
          ((spec_ext_aux flags f (treeSize c)).1 c (path ++ [n]) (depth + 1) c.info.hint
            (le_refl _)).1 q hq
        obtain ⟨n2, tail2, hn2, hq4⟩ :=
          ((spec_ext_aux flags f (forestSize rest)).2 rest path depth (le_refl _)).1 q hq2
        exact hdisj q ⟨tail, by rw [hq3]; simp⟩ n2 tail2 hn2 hq4
      · rw [specPostForest, List.nodup_append]
        refine ⟨hchild.2, hrest.2, ?_⟩
        intro q hq hq2
        obtain ⟨tail, hq3⟩ :=
          ((spec_ext_aux flags f (treeSize c)).1 c (path ++ [n]) (depth + 1) c.info.hint
            (le_refl _)).2 q hq
        obtain ⟨n2, tail2, hn2, hq4⟩ :=
          ((spec_ext_aux flags f (forestSize rest)).2 rest path depth (le_refl _)).2 q hq2
        exact hdisj q ⟨tail, by rw [hq3]; simp⟩ n2 tail2 hn2 hq4

theorem specPreRoots_ext (flags : BftwFlags) (f : Ftwbuf → CbRet)
    (roots : List (String × FSTree)) :
    ∀ q ∈ specPreRoots flags f roots, ∃ r ∈ roots, ∃ tail, q = r.1 :: tail := by
  intro q hq
  simp only [specPreRoots, List.mem_flatten, List.mem_map] at hq
  obtain ⟨l, ⟨r, hr, hl⟩, hql⟩ := hq
  rw [← hl] at hql
  obtain ⟨tail, hq2⟩ := ((spec_ext_aux flags f (treeSize r.2)).1 r.2 [r.1] 0 .unknown
    (le_refl _)).1 q hql
  exact ⟨r, hr, tail, by simpa using hq2⟩

theorem specPostRoots_ext (flags : BftwFlags) (f : Ftwbuf → CbRet)
    (roots : List (String × FSTree)) :
    ∀ q ∈ specPostRoots flags f roots, ∃ r ∈ roots, ∃ tail, q = r.1 :: tail := by
  intro q hq
  simp only [specPostRoots, List.mem_flatten, List.mem_map] at hq
  obtain ⟨l, ⟨r, hr, hl⟩, hql⟩ := hq
  rw [← hl] at hql
  obtain ⟨tail, hq2⟩ := ((spec_ext_aux flags f (treeSize r.2)).1 r.2 [r.1] 0 .unknown
    (le_refl _)).2 q hql
  exact ⟨r, hr, tail, by simpa using hq2⟩

theorem specRoots_nodup (flags : BftwFlags) (f : Ftwbuf → CbRet)
    (roots : List (String × FSTree)) (hclean : cleanForest roots = true)
    (hnd : (roots.map Prod.fst).Nodup) :
    (specPreRoots flags f roots).Nodup ∧ (specPostRoots flags f roots).Nodup := by
  induction roots with
  | nil =>
    constructor <;> simp [specPreRoots, specPostRoots]
  | cons r0 rest ih =>
    obtain ⟨n, c⟩ := r0
    obtain ⟨hct, hcrest⟩ := cleanForest_cons hclean
    rw [List.map_cons, List.nodup_cons] at hnd
    have hrest := ih hcrest hnd.2
    have hchild := (spec_nodup_aux flags f (treeSize c)).1 c [n] 0 .unknown (le_refl _) hct
    have hsplitpre : specPreRoots flags f ((n, c) :: rest) =
        specPre flags f [n] 0 .unknown c ++ specPreRoots flags f rest := by
      simp [specPreRoots]
    have hsplitpost : specPostRoots flags f ((n, c) :: rest) =
        specPost flags f [n] 0 .unknown c ++ specPostRoots flags f rest := by
      simp [specPostRoots]
    constructor
    · rw [hsplitpre, List.nodup_append]
      refine ⟨hchild.1, hrest.1, ?_⟩
      intro q hq hq2
      obtain ⟨tail, hq3⟩ := ((spec_ext_aux flags f (treeSize c)).1 c [n] 0 .unknown
        (le_refl _)).1 q hq
      obtain ⟨r, hr, tail2, hq4⟩ := specPreRoots_ext flags f rest q hq2
      rw [hq3] at hq4
      have hn : n = r.1 := by
        have := congrArg (fun l => l.headI) hq4
        simpa using this
      exact hnd.1 (hn ▸ List.mem_map.mpr ⟨r, hr, rfl⟩)
    · rw [hsplitpost, List.nodup_append]
      refine ⟨hchild.2, hrest.2, ?_⟩
      intro q hq hq2
      obtain ⟨tail, hq3⟩ := ((spec_ext_aux flags f (treeSize c)).1 c [n] 0 .unknown
        (le_refl _)).2 q hq
      obtain ⟨r, hr, tail2, hq4⟩ := specPostRoots_ext flags f rest q hq2
      rw [hq3] at hq4
      have hn : n = r.1 := by
        have := congrArg (fun l => l.headI) hq4
        simpa using this
      exact hnd.1 (hn ▸ List.mem_map.mpr ⟨r, hr, rfl⟩)

/-- C1 (amended): over a clean forest -- every stat succeeds, type hints
are accurate, every directory opens, sibling names are distinct -- with
distinct root names, no BFTW_DETECT_CYCLES, and a pure visitor returning
only BFTW_CONTINUE or BFTW_PRUNE, bftw_walk returns 0 and PRE-visits each
specified reachable entry exactly once (visit counts match the
specification enumeration, which is duplicate-free); with BFTW_POST_ORDER
each descended directory additionally receives exactly one POST visit and
every POST visit is preceded by a PRE visit of the same path; descended
directories are among the PRE-visited entries; without BFTW_POST_ORDER no
POST visit happens at all. -/
theorem C1_amended_exactly_once (flags : BftwFlags) (f : Ftwbuf → CbRet)
    (roots : List (String × FSTree))
    (hdc : flags.detectCycles = false)
    (hclean : cleanForest roots = true)
    (hnd : (roots.map Prod.fst).Nodup)
    (htame : ∀ b, f b = CbRet.cont ∨ f b = CbRet.prune) :
    (bftwWalkModel flags (pureCb f) roots ()).1 = 0 ∧
    (∀ p, (prePaths (bftwWalkModel flags (pureCb f) roots ()).2.1).count p =
      (specPreRoots flags f roots).count p) ∧
    (flags.postOrder = true →
      ∀ p, (postPaths (bftwWalkModel flags (pureCb f) roots ()).2.1).count p =
        (specPostRoots flags f roots).count p) ∧
    (flags.postOrder = false →
      postPaths (bftwWalkModel flags (pureCb f) roots ()).2.1 = []) ∧
    postAfterPre (bftwWalkModel flags (pureCb f) roots ()).2.1 ∧
    (∀ p ∈ specPostRoots flags f roots, p ∈ specPreRoots flags f roots) ∧
    (specPreRoots flags f roots).Nodup ∧
    (specPostRoots flags f roots).Nodup := by
  obtain ⟨s1, s2, s3, s4, s5⟩ := seedRoots_clean flags f hdc htame roots
    (bftwInitState ()) walkWF_init hclean
  obtain ⟨extra, sd1, sd2⟩ := seedRoots_dirq flags (pureCb f) roots (bftwInitState ())
  have hm : dirqMeasure (bftwSeedRoots flags (pureCb f) (bftwInitState ()) roots).2 <
      forestSize roots + 1 := by
    have h2 : dirqMeasure (bftwSeedRoots flags (pureCb f) (bftwInitState ()) roots).2 =
        (extra.map fun q => treeSize q.tree).sum := by
      unfold dirqMeasure
      rw [sd1]
      simp [bftwInitState]
    omega
  obtain ⟨i1, i2, i3, i4, i5, i6⟩ := implLoop_clean flags f hdc htame
    (forestSize roots + 1) (bftwSeedRoots flags (pureCb f) (bftwInitState ()) roots).2 hm s2
  have himpl : bftwImpl flags (pureCb f) roots (bftwInitState ()) =
      (false, (bftwImplLoop flags (pureCb f) (forestSize roots + 1)
        (bftwSeedRoots flags (pureCb f) (bftwInitState ()) roots).2).2) := by
    simp only [bftwImpl]
    rcases hseed : bftwSeedRoots flags (pureCb f) (bftwInitState ()) roots with ⟨ab, st2⟩
    rw [hseed] at s1 i1
    simp only [] at s1 i1
    subst s1
    simp only []
    rw [← i1]
  simp only [bftwWalkModel]
  rw [himpl]
  simp only []
  have hstore := store_empty_of_wf i2 i3
  have herr := i2.err0
  refine ⟨by simp [herr], fun p => ?_, fun hpo p => ?_, fun hpo => ?_, i2.ordered,
    specPost_sub_specPre flags f roots,
    (specRoots_nodup flags f roots hclean hnd).1,
    (specRoots_nodup flags f roots hclean hnd).2⟩
  · have h4 := i4 p
    have h3 := s3 p
    simp only [bftwInitState, prePaths, dirqPre, List.filter_nil, List.map_nil,
      List.flatten_nil, List.count_nil, List.count_append] at h3 h4 ⊢
    omega
  · have h5 := i5 hpo p
    have h4 := s4 p
    rw [hstore] at h5
    simp only [bftwInitState, postPaths, storePaths, dirqPost, List.filter_nil,
      List.map_nil, List.flatten_nil, List.count_nil, List.count_append] at h4 h5 ⊢
    omega
  · rw [i6 hpo, s5]
    simp [bftwInitState, postPaths]

/-- Witness: applying the amended C1 theorem to the concrete clean forest
exWitRoots (a directory a containing regular file b and directory c, which
contains regular file d) with BFTW_POST_ORDER set and an always-CONTINUE
visitor: the walk returns 0 and the PRE-visit count of path a/c/d matches
the specification enumeration. -/
theorem C1_amended_witness :
    exFlagsPost.detectCycles = false ∧
    cleanForest exWitRoots = true ∧
    (exWitRoots.map Prod.fst).Nodup ∧
    (bftwWalkModel exFlagsPost (pureCb fun _ => CbRet.cont) exWitRoots ()).1 = 0 ∧
    (prePaths (bftwWalkModel exFlagsPost (pureCb fun _ => CbRet.cont)
        exWitRoots ()).2.1).count ["a", "c", "d"] =
      (specPreRoots exFlagsPost (fun _ => CbRet.cont) exWitRoots).count
        ["a", "c", "d"] := by
  have h := C1_amended_exactly_once exFlagsPost (fun _ => CbRet.cont) exWitRoots
    rfl (by decide) (by decide) (fun b => Or.inl rfl)
  exact ⟨rfl, by decide, by decide, h.1, h.2.1 _⟩
